import Mathlib

/-!
A verification development for `src/vector.h`.

`Vector<ValueType>` is a class template holding three private members
(`size_`, `capacity_`, `data_`) where `data_` points into the free store.
The embedding keeps that shape:

* the free store is an explicit `Heap`: a table of array blocks, addressed by
  block number, each either live (with its slots) or released;
* a `Vector` object is the triple of its members, `data_` being a pointer
  (`none` is `nullptr`, `some a` is the address of block `a`);
* objects live in a `World` (heap plus an object table), and every member
  function is a function on worlds taking the identity `this` of the object it
  is called on, so that `this != &other` is an honest comparison of identities;
* a call ends in one of three ways (`Result`): it returns, an exception
  propagates out of it, or it runs into undefined behaviour (use of a null or
  released buffer, of a slot outside the block, or a second release).

The element type is a template parameter; what the code needs from it is taken
as a parameter `ValueOps`.
-/

namespace VectorH

/-! ## The embedding -/

/-- How a call ends: normal return with the state reached, an exception
propagating with the state left behind, or undefined behaviour. -/
inductive Result (σ : Type) where
  | ok : σ → Result σ
  | threw : σ → Result σ
  | ub : Result σ
  deriving DecidableEq, Repr

/-- What the class template needs from `ValueType`. `defaultInit` is what a
slot holds right after `new ValueType[n]`, `valueInit` is `ValueType{}`,
`copyThrows x` / `moveThrows x` say whether copy- / move-assigning from the
value `x` throws, and `movedFrom x` is the state move-assignment leaves in the
source. -/
structure ValueOps (α : Type) where
  defaultInit : α
  valueInit : α
  copyThrows : α → Bool
  moveThrows : α → Bool
  movedFrom : α → α

/-- The free store: `blocks[a]` is `some slots` while block `a` is live and
`none` once it has been released; `avail` is the number of slots the allocator
can still hand out. -/
structure Heap (α : Type) where
  blocks : List (Option (List α))
  avail : Nat
  deriving DecidableEq, Repr

/-- The largest element count of one array object (`PTRDIFF_MAX` bytes, one
byte per element at least): `new ValueType[n]` throws beyond it. -/
def maxArray : Nat := 2 ^ 63 - 1

/-- The contents of block `a` when it is live. -/
def Heap.block {α : Type} (h : Heap α) (a : Nat) : Option (List α) :=
  (h.blocks[a]?).getD none

/-- `new ValueType[n]`: `none` when the allocation throws, otherwise the
address of a fresh block of `n` default-initialised slots (a fresh, non-null
address also for `n = 0`) and the heap after it. -/
def Heap.newArray {α : Type} (ops : ValueOps α) (h : Heap α) (n : Nat) :
    Option (Nat × Heap α) :=
  if n ≤ h.avail ∧ n ≤ maxArray then
    some (h.blocks.length,
      { blocks := h.blocks ++ [some (List.replicate n ops.defaultInit)],
        avail := h.avail - n })
  else none

/-- `delete[] p`: nothing for `nullptr`; releases a live block; `none`
(undefined behaviour) when `p` is not the address of a live block. -/
def Heap.deleteArray {α : Type} (h : Heap α) : Option Nat → Option (Heap α)
  | none => some h
  | some a =>
    match h.block a with
    | some slots =>
      some { blocks := h.blocks.set a none, avail := h.avail + slots.length }
    | none => none

/-- Reading `p[i]`: `none` (undefined behaviour) unless `p` is the address of
a live block with more than `i` slots. -/
def Heap.read {α : Type} (h : Heap α) (p : Option Nat) (i : Nat) : Option α :=
  match p with
  | none => none
  | some a =>
    match h.block a with
    | some slots => slots[i]?
    | none => none

/-- Writing `p[i] = x`: `none` (undefined behaviour) unless `p` is the address
of a live block with more than `i` slots. -/
def Heap.write {α : Type} (h : Heap α) (p : Option Nat) (i : Nat) (x : α) :
    Option (Heap α) :=
  match p with
  | none => none
  | some a =>
    match h.block a with
    | some slots =>
      if i < slots.length then
        some { h with blocks := h.blocks.set a (some (slots.set i x)) }
      else none
    | none => none

/-- The private members of `Vector<ValueType>`. -/
structure Vector where
  size_ : Nat
  capacity_ : Nat
  data_ : Option Nat
  deriving DecidableEq, Repr

/-- The program state: the free store and the `Vector` objects, by identity. -/
structure World (α : Type) where
  heap : Heap α
  objs : Nat → Vector

/-- The world with object `this` replaced by `v`. -/
def World.setObj {α : Type} (w : World α) (this : Nat) (v : Vector) : World α :=
  { w with objs := fun j => if j = this then v else w.objs j }

/-- The width of `size_t`. -/
def sizeMod : Nat := 2 ^ 64

/-- The loop `for (i = 0; i < size_; ++i) new_data[i] = std::move(data_[i]);`
of `Reserve`, with `k` iterations left and the index at `i`. -/
def moveLoop {α : Type} (ops : ValueOps α) (dst src : Option Nat) :
    Nat → Nat → Heap α → Result (Heap α)
  | 0, _, h => .ok h
  | k + 1, i, h =>
    match h.read src i with
    | none => .ub
    | some x =>
      if ops.moveThrows x then .threw h
      else
        match h.write dst i x with
        | none => .ub
        | some h1 =>
          match h1.write src i (ops.movedFrom x) with
          | none => .ub
          | some h2 => moveLoop ops dst src k (i + 1) h2

/-- The loop `for (i = 0; i < size_; ++i) data_[i] = other.data_[i];` of the
copy constructor and of copy-assignment. -/
def copyLoop {α : Type} (ops : ValueOps α) (dst src : Option Nat) :
    Nat → Nat → Heap α → Result (Heap α)
  | 0, _, h => .ok h
  | k + 1, i, h =>
    match h.read src i with
    | none => .ub
    | some x =>
      if ops.copyThrows x then .threw h
      else
        match h.write dst i x with
        | none => .ub
        | some h1 => copyLoop ops dst src k (i + 1) h1

/-- `Vector::Reserve` (vector.h 202-218). -/
def Vector.Reserve {α : Type} (ops : ValueOps α) (w : World α) (this : Nat)
    (new_capacity : Nat) : Result (World α) :=
  let v := w.objs this
  if v.capacity_ ≥ new_capacity then .ok w
  else
    match w.heap.newArray ops new_capacity with
    | none => .threw w
    | some (new_data, h1) =>
      match moveLoop ops (some new_data) v.data_ v.size_ 0 h1 with
      | .ub => .ub
      | .threw h2 =>
        match h2.deleteArray (some new_data) with
        | none => .ub
        | some h3 => .threw { w with heap := h3 }
      | .ok h2 =>
        match h2.deleteArray v.data_ with
        | none => .ub
        | some h3 =>
          .ok (World.setObj { w with heap := h3 } this
            { v with data_ := some new_data, capacity_ := new_capacity })

/-- A `const ValueType&`: either a reference to an object that lies outside
every buffer (a temporary or a local) and holds the value `x`, or a reference
to slot `i` of the array behind the pointer `p`, which is what `operator[]`
returns. -/
inductive Ref (α : Type) where
  | value (x : α)
  | slot (p : Option Nat) (i : Nat)

/-- Reading through a reference in the heap `h`; `none` models undefined
behaviour: the slot lies in a released block, past the end, or behind a null
pointer. -/
def Ref.read {α : Type} (h : Heap α) : Ref α → Option α
  | .value x => some x
  | .slot p i => h.read p i

/-- `Vector::PushBack` (vector.h 224-231).  The argument is a
`const ValueType&`: it is read at `data_[size_] = new_element`, after `Reserve`
has moved the elements away and released the old buffer. -/
def Vector.PushBack {α : Type} (ops : ValueOps α) (w : World α) (this : Nat)
    (new_element : Ref α) : Result (World α) :=
  let v := w.objs this
  let grown :=
    if v.size_ = v.capacity_ then
      let is_zero := if v.capacity_ = 0 then 1 else 0
      Vector.Reserve ops w this ((2 * v.capacity_ + is_zero) % sizeMod)
    else .ok w
  match grown with
  | .ub => .ub
  | .threw w1 => .threw w1
  | .ok w1 =>
    let v1 := w1.objs this
    match new_element.read w1.heap with
    | none => .ub
    | some x =>
      if ops.copyThrows x then .threw w1
      else
        match w1.heap.write v1.data_ v1.size_ x with
        | none => .ub
        | some h =>
          .ok (World.setObj { w1 with heap := h } this
            { v1 with size_ := (v1.size_ + 1) % sizeMod })

/-- The loop `for (i = 0; i < size_; ++i) data_[i] = ValueType{};` of the sized
constructor: each step move-assigns from a temporary `ValueType{}`. -/
def fillLoop {α : Type} (ops : ValueOps α) (dst : Option Nat) :
    Nat → Nat → Heap α → Result (Heap α)
  | 0, _, h => .ok h
  | k + 1, i, h =>
    if ops.moveThrows ops.valueInit then .threw h
    else
      match h.write dst i ops.valueInit with
      | none => .ub
      | some h1 => fillLoop ops dst k (i + 1) h1

/-- The loop `for (const auto& element : list) { data_[index] = element;
++index; }` of the list constructor. -/
def listLoop {α : Type} (ops : ValueOps α) (dst : Option Nat) :
    List α → Nat → Heap α → Result (Heap α)
  | [], _, h => .ok h
  | element :: rest, index, h =>
    if ops.copyThrows element then .threw h
    else
      match h.write dst index element with
      | none => .ub
      | some h1 => listLoop ops dst rest (index + 1) h1

/-- The handler `catch (...) { delete[] data_; throw; }` shared by the
constructors and copy-assignment, run in world `w` on object `this`. -/
def rethrowAfterDelete {α : Type} (w : World α) (this : Nat) : Result (World α) :=
  match w.heap.deleteArray (w.objs this).data_ with
  | none => .ub
  | some h => .threw { w with heap := h }

/-- The body `try { data_ = new ValueType[capacity_]; <loop> } catch (...)
{ delete[] data_; throw; }` shared by the sized, list and copy constructors and
by copy-assignment; `loop` is the loop of the caller, run in the world where
`data_` has been assigned. -/
def allocateAndFill {α : Type} (ops : ValueOps α) (w : World α) (this : Nat)
    (loop : World α → Result (Heap α)) : Result (World α) :=
  match w.heap.newArray ops (w.objs this).capacity_ with
  | none => rethrowAfterDelete w this
  | some (a, h1) =>
    let w1 := World.setObj { w with heap := h1 } this
      { w.objs this with data_ := some a }
    match loop w1 with
    | .ub => .ub
    | .threw h2 => rethrowAfterDelete { w1 with heap := h2 } this
    | .ok h2 => .ok { w1 with heap := h2 }

/-- `Vector::Vector()` (vector.h 80-81), constructing object `this`. -/
def Vector.ctorDefault {α : Type} (w : World α) (this : Nat) : World α :=
  w.setObj this { size_ := 0, capacity_ := 0, data_ := none }

/-- `Vector::Vector(size_t size)` (vector.h 83-93). -/
def Vector.ctorSized {α : Type} (ops : ValueOps α) (w : World α) (this : Nat)
    (size : Nat) : Result (World α) :=
  let w0 := w.setObj this { size_ := size, capacity_ := size, data_ := none }
  allocateAndFill ops w0 this
    (fun w1 => fillLoop ops (w1.objs this).data_ (w1.objs this).size_ 0 w1.heap)

/-- `Vector::Vector(std::initializer_list<ValueType> list)` (vector.h 94-107). -/
def Vector.ctorList {α : Type} (ops : ValueOps α) (w : World α) (this : Nat)
    (list : List α) : Result (World α) :=
  let w0 := w.setObj this
    { size_ := list.length, capacity_ := list.length, data_ := none }
  allocateAndFill ops w0 this
    (fun w1 => listLoop ops (w1.objs this).data_ list 0 w1.heap)

/-- `Vector::Vector(const Vector& other)` (vector.h 109-119). -/
def Vector.ctorCopy {α : Type} (ops : ValueOps α) (w : World α) (this other : Nat) :
    Result (World α) :=
  let o := w.objs other
  let w0 := w.setObj this
    { size_ := o.size_, capacity_ := o.capacity_, data_ := none }
  allocateAndFill ops w0 this
    (fun w1 => copyLoop ops (w1.objs this).data_ (w1.objs other).data_
      (w1.objs this).size_ 0 w1.heap)

/-- `Vector::Vector(Vector&& other) noexcept` (vector.h 121-126). -/
def Vector.ctorMove {α : Type} (w : World α) (this other : Nat) : World α :=
  let o := w.objs other
  let w0 := w.setObj this
    { size_ := o.size_, capacity_ := o.capacity_, data_ := o.data_ }
  w0.setObj other { size_ := 0, capacity_ := 0, data_ := none }

/-- `Vector& operator=(const Vector& other)` (vector.h 128-144). -/
def Vector.assignCopy {α : Type} (ops : ValueOps α) (w : World α) (this other : Nat) :
    Result (World α) :=
  if this ≠ other then
    match w.heap.deleteArray (w.objs this).data_ with
    | none => .ub
    | some h1 =>
      let o := w.objs other
      let w0 := World.setObj { w with heap := h1 } this
        { w.objs this with size_ := o.size_, capacity_ := o.capacity_ }
      allocateAndFill ops w0 this
        (fun w1 => copyLoop ops (w1.objs this).data_ (w1.objs other).data_
          (w1.objs this).size_ 0 w1.heap)
  else .ok w

/-- `Vector& operator=(Vector&& other)` (vector.h 145-156). -/
def Vector.assignMove {α : Type} (w : World α) (this other : Nat) :
    Option (World α) :=
  if this ≠ other then
    match w.heap.deleteArray (w.objs this).data_ with
    | none => none
    | some h1 =>
      let o := w.objs other
      let w0 := World.setObj { w with heap := h1 } this
        { size_ := o.size_, capacity_ := o.capacity_, data_ := o.data_ }
      some (w0.setObj other { size_ := 0, capacity_ := 0, data_ := none })
  else some w

/-- Reading through `operator[]` (vector.h 158-163): the value of
`data_[position]`, `none` when that access is undefined. -/
def Vector.index {α : Type} (w : World α) (this : Nat) (position : Nat) : Option α :=
  w.heap.read (w.objs this).data_ position

/-- Writing through the reference `operator[]` returns: `v[position] = x`. -/
def Vector.indexAssign {α : Type} (ops : ValueOps α) (w : World α) (this : Nat)
    (position : Nat) (x : α) : Result (World α) :=
  if ops.copyThrows x then .threw w
  else
    match w.heap.write (w.objs this).data_ position x with
    | none => .ub
    | some h => .ok { w with heap := h }

/-- `Vector::Size` (vector.h 165-167). -/
def Vector.Size {α : Type} (w : World α) (this : Nat) : Nat := (w.objs this).size_

/-- `Vector::Capacity` (vector.h 168-170). -/
def Vector.Capacity {α : Type} (w : World α) (this : Nat) : Nat :=
  (w.objs this).capacity_

/-- `Vector::Data` (vector.h 171-173); `none` is the null pointer. -/
def Vector.Data {α : Type} (w : World α) (this : Nat) : Option Nat :=
  (w.objs this).data_

/-- The loop of `operator==`: `some false` when some pair of slots differs,
`some true` when the loop runs to its end, `none` on an undefined access. -/
def eqLoop {α : Type} [DecidableEq α] (h : Heap α) (p q : Option Nat) :
    Nat → Nat → Option Bool
  | 0, _ => some true
  | k + 1, i =>
    match h.read p i, h.read q i with
    | some x, some y => if x ≠ y then some false else eqLoop h p q k (i + 1)
    | _, _ => none

/-- `bool operator==(const Vector& other) const` (vector.h 179-189). -/
def Vector.operatorEq {α : Type} [DecidableEq α] (w : World α) (this other : Nat) :
    Option Bool :=
  let a := w.objs this
  let b := w.objs other
  if a.size_ ≠ b.size_ then some false
  else eqLoop w.heap a.data_ b.data_ a.size_ 0

/-- The loop of `operator<=>`: `some (some r)` when it returns `r` from inside
the loop, `some none` when the loop runs to its end, `none` on an undefined
access. -/
def cmpLoop {α : Type} [LinearOrder α] (h : Heap α) (p q : Option Nat) :
    Nat → Nat → Option (Option Ordering)
  | 0, _ => some none
  | k + 1, i =>
    match h.read p i, h.read q i with
    | some x, some y =>
      if x < y then some (some Ordering.lt)
      else if x > y then some (some Ordering.gt)
      else cmpLoop h p q k (i + 1)
    | _, _ => none

/-- `std::strong_ordering operator<=>(const Vector& other) const`
(vector.h 190-200); `less`, `equal`, `greater` are `Ordering.lt`, `.eq`, `.gt`. -/
def Vector.operatorCmp {α : Type} [LinearOrder α] (w : World α) (this other : Nat) :
    Option Ordering :=
  let a := w.objs this
  let b := w.objs other
  match cmpLoop w.heap a.data_ b.data_ (min a.size_ b.size_) 0 with
  | none => none
  | some (some r) => some r
  | some none => some (compare a.size_ b.size_)

/-- `Vector::Clear` (vector.h 220-222). -/
def Vector.Clear {α : Type} (w : World α) (this : Nat) : World α :=
  w.setObj this { w.objs this with size_ := 0 }

/-- `Vector::PopBack` (vector.h 233-237). -/
def Vector.PopBack {α : Type} (w : World α) (this : Nat) : World α :=
  if (w.objs this).size_ > 0 then
    w.setObj this { w.objs this with size_ := (w.objs this).size_ - 1 }
  else w

/-- `Vector::Swap` (vector.h 239-243): three `std::swap`s, member by member. -/
def Vector.Swap {α : Type} (w : World α) (this other : Nat) : World α :=
  let w1 := (w.setObj this { w.objs this with size_ := (w.objs other).size_ }).setObj
    other { w.objs other with size_ := (w.objs this).size_ }
  let w2 := (w1.setObj this { w1.objs this with capacity_ := (w1.objs other).capacity_ }).setObj
    other { w1.objs other with capacity_ := (w1.objs this).capacity_ }
  (w2.setObj this { w2.objs this with data_ := (w2.objs other).data_ }).setObj
    other { w2.objs other with data_ := (w2.objs this).data_ }

/-- `Vector::~Vector` (vector.h 175-177): `none` when the release is undefined. -/
def Vector.dtor {α : Type} (w : World α) (this : Nat) : Option (World α) :=
  match w.heap.deleteArray (w.objs this).data_ with
  | none => none
  | some h => some { w with heap := h }

/-- The representation invariant of a `Vector` object in a heap: `size_` is at
most `capacity_`, a null `data_` goes with capacity 0, and a non-null `data_`
is the address of a live block of exactly `capacity_` slots. -/
def Vector.wf {α : Type} (h : Heap α) (v : Vector) : Prop :=
  v.size_ ≤ v.capacity_ ∧ v.capacity_ ≤ maxArray ∧
    match v.data_ with
    | none => v.capacity_ = 0
    | some a => (h.block a).map List.length = some v.capacity_

instance {α : Type} (h : Heap α) (v : Vector) : Decidable (Vector.wf h v) := by
  unfold Vector.wf
  cases v.data_ <;> exact inferInstance

/-- What `m` completed steps of a slot-by-slot transfer from block `s` to block
`d`, started at index `i`, make of heap `h`: block `d` holds the transferred
values, block `s` holds `g` of them, and nothing else has changed. -/
def Transferred {α : Type} (g : α → α) (s d : Nat) (ss ds : List α) (i m : Nat)
    (h h1 : Heap α) : Prop :=
  h1.blocks.length = h.blocks.length ∧ h1.avail = h.avail ∧
  (∀ a, a ≠ s → a ≠ d → h1.block a = h.block a) ∧
  ∃ ss1 ds1, h1.block s = some ss1 ∧ h1.block d = some ds1 ∧
    ss1.length = ss.length ∧ ds1.length = ds.length ∧
    (∀ j, ss1[j]? = if i ≤ j ∧ j < i + m then (ss[j]?).map g else ss[j]?) ∧
    (∀ j, ds1[j]? = if i ≤ j ∧ j < i + m then ss[j]? else ds[j]?)

/-- What `m` completed steps of a slot-by-slot store into block `d`, started
at index `i`, make of heap `h`: slot `j` of the range holds `f j`, and nothing
else has changed. -/
def Stored {α : Type} (f : Nat → Option α) (d : Nat) (ds : List α) (i m : Nat)
    (h h1 : Heap α) : Prop :=
  h1.blocks.length = h.blocks.length ∧ h1.avail = h.avail ∧
  (∀ a, a ≠ d → h1.block a = h.block a) ∧
  ∃ ds1, h1.block d = some ds1 ∧ ds1.length = ds.length ∧
    (∀ j, ds1[j]? = if i ≤ j ∧ j < i + m then f j else ds[j]?)

/-- The world a successful growing `Reserve(n)` of object `this` leaves:
the object points to the fresh block, which holds the old live elements
followed by default-initialised slots; the old block is released; every other
block and every other object is as before. -/
def Grown {α : Type} (ops : ValueOps α) (w : World α) (this n : Nat) (w1 : World α) :
    Prop :=
  w1.objs = (w.setObj this { w.objs this with
      data_ := some w.heap.blocks.length, capacity_ := n }).objs ∧
  w1.heap.blocks.length = w.heap.blocks.length + 1 ∧
  w1.heap.avail + n = w.heap.avail + (w.objs this).capacity_ ∧
  (∀ b, some b ≠ (w.objs this).data_ → b ≠ w.heap.blocks.length →
    w1.heap.block b = w.heap.block b) ∧
  (∀ b, (w.objs this).data_ = some b → w1.heap.block b = none) ∧
  ∃ ds1, w1.heap.block w.heap.blocks.length = some ds1 ∧ ds1.length = n ∧
    (∀ j, j < (w.objs this).size_ → ds1[j]? = w.heap.read (w.objs this).data_ j) ∧
    (∀ j, (w.objs this).size_ ≤ j → j < n → ds1[j]? = some ops.defaultInit)

/-- The world a growing `Reserve(n)` leaves when the move of element `m`
throws: the objects are as before, the fresh block is released again, the
old block has kept its length but its first `m` slots are moved-from. -/
def MoveFailed {α : Type} (ops : ValueOps α) (w : World α) (this m : Nat)
    (w1 : World α) : Prop :=
  w1.objs = w.objs ∧
  w1.heap.blocks.length = w.heap.blocks.length + 1 ∧
  w1.heap.avail = w.heap.avail ∧
  (∀ b, some b ≠ (w.objs this).data_ → b ≠ w.heap.blocks.length →
    w1.heap.block b = w.heap.block b) ∧
  w1.heap.block w.heap.blocks.length = none ∧
  m < (w.objs this).size_ ∧
  ∃ s ss ss1, (w.objs this).data_ = some s ∧ w.heap.block s = some ss ∧
    w1.heap.block s = some ss1 ∧ ss1.length = ss.length ∧
    (∀ j, ss1[j]? = if j < m then (ss[j]?).map ops.movedFrom else ss[j]?) ∧
    (∃ x, ss[m]? = some x ∧ ops.moveThrows x = true)

/-- The capacity `PushBack` asks `Reserve` for when the buffer is full. -/
def growTo (capacity : Nat) : Nat := if capacity = 0 then 1 else 2 * capacity

/-- What a returning `PushBack(x)` on object `this` makes of world `w`. -/
def Pushed {α : Type} (w : World α) (this : Nat) (x : α) (w1 : World α) : Prop :=
  (w1.objs this).size_ = (w.objs this).size_ + 1 ∧
  (w1.objs this).capacity_ =
    (if (w.objs this).size_ < (w.objs this).capacity_ then (w.objs this).capacity_
     else growTo (w.objs this).capacity_) ∧
  (w1.objs this).data_ =
    (if (w.objs this).size_ < (w.objs this).capacity_ then (w.objs this).data_
     else some w.heap.blocks.length) ∧
  Vector.index w1 this (w.objs this).size_ = some x ∧
  (∀ i, i < (w.objs this).size_ → Vector.index w1 this i = Vector.index w this i) ∧
  Vector.wf w1.heap (w1.objs this) ∧
  (∀ j, j ≠ this → w1.objs j = w.objs j) ∧
  (∀ b, some b ≠ (w.objs this).data_ → b ≠ w.heap.blocks.length →
    w1.heap.block b = w.heap.block b) ∧
  w.heap.blocks.length ≤ w1.heap.blocks.length ∧
  w1.heap.avail + (w1.objs this).capacity_ = w.heap.avail + (w.objs this).capacity_

/-- Element operations of `int`: nothing throws, a moved-from value is
unchanged, `new int[n]` leaves `-1` standing for an indeterminate value. -/
def intOps : ValueOps Int :=
  { defaultInit := -1, valueInit := 0, copyThrows := fun _ => false,
    moveThrows := fun _ => false, movedFrom := id }

/-- A world with one object, number 0: the vector `Vector<int>(5)`. -/
def worldFive : World Int :=
  { heap := ⟨[some [0, 0, 0, 0, 0]], 20⟩, objs := fun _ => ⟨5, 5, some 0⟩ }

/-- A world with two objects: number 0 is `{1, 2, 3}` in a buffer of three
slots, number 1 is `{1, 2, 3}` in a buffer of five slots with stale contents
beyond the size; every other object is empty. -/
def worldPair : World Int :=
  { heap := ⟨[some [1, 2, 3], some [1, 2, 3, 7, 9]], 20⟩,
    objs := fun j => if j = 0 then ⟨3, 3, some 0⟩ else if j = 1 then ⟨3, 5, some 1⟩
      else ⟨0, 0, none⟩ }

/-- A world with two objects: number 0 is `{1, 2, 3}`, number 1 is
`{1, 2, 4}`; every other object is empty. -/
def worldOrder : World Int :=
  { heap := ⟨[some [1, 2, 3], some [1, 2, 4]], 20⟩,
    objs := fun j => if j = 0 then ⟨3, 3, some 0⟩ else if j = 1 then ⟨3, 3, some 1⟩
      else ⟨0, 0, none⟩ }

/-- The world the allocate-then-fill body leaves on return, when the loop has
stored `f j` into slot `j` for the `k` first slots: object `this` points to the
fresh block, which holds these values followed by default-initialised slots,
and nothing else has changed. -/
def Built {α : Type} (ops : ValueOps α) (f : Nat → Option α) (k : Nat) (w : World α)
    (this : Nat) (w1 : World α) : Prop :=
  w1.objs = (w.setObj this
    { w.objs this with data_ := some w.heap.blocks.length }).objs ∧
  w1.heap.blocks.length = w.heap.blocks.length + 1 ∧
  w1.heap.avail + (w.objs this).capacity_ = w.heap.avail ∧
  (∀ b, b ≠ w.heap.blocks.length → w1.heap.block b = w.heap.block b) ∧
  ∃ ds1, w1.heap.block w.heap.blocks.length = some ds1 ∧
    ds1.length = (w.objs this).capacity_ ∧
    (∀ j, j < k → ds1[j]? = f j) ∧
    (∀ j, k ≤ j → j < (w.objs this).capacity_ → ds1[j]? = some ops.defaultInit)

/-- Heap `h1` agrees with heap `h` on every block other than the block behind
the pointer `p` and the block at the first fresh address of `h`. -/
def Frame {α : Type} (p : Option Nat) (h h1 : Heap α) : Prop :=
  ∀ b, some b ≠ p → b ≠ h.blocks.length → h1.block b = h.block b

/-- The effect of an operation that works on object `this` alone: no other
object changes, no block other than the object's own buffer changes, the
object is well formed afterwards, and its buffer is the old one, a fresh
one, or null. -/
def Touches {α : Type} (w : World α) (this : Nat) (w1 : World α) : Prop :=
  (∀ j, j ≠ this → w1.objs j = w.objs j) ∧
  Frame (w.objs this).data_ w.heap w1.heap ∧
  Vector.wf w1.heap (w1.objs this) ∧
  ((w1.objs this).data_ = (w.objs this).data_ ∨
    (w1.objs this).data_ = some w.heap.blocks.length ∨ (w1.objs this).data_ = none)

/-- Object `y` has in `w2` the size and the live elements it has in `w1`. -/
def Unaffected {α : Type} (w1 w2 : World α) (y : Nat) : Prop :=
  Vector.Size w2 y = Vector.Size w1 y ∧
    ∀ i, i < Vector.Size w1 y → Vector.index w2 y i = Vector.index w1 y i

/-- Every mutation of object `x` in world `w` (an index write, `PushBack`
of any reference, `PopBack`, `Clear`, `Reserve`) that returns leaves object
`y` unaffected. -/
def MutationLeaves {α : Type} (ops : ValueOps α) (w : World α) (x y : Nat) : Prop :=
  (∀ i v w2, Vector.indexAssign ops w x i v = .ok w2 → Unaffected w w2 y) ∧
  (∀ v w2, Vector.PushBack ops w x v = .ok w2 → Unaffected w w2 y) ∧
  Unaffected w (Vector.PopBack w x) y ∧
  Unaffected w (Vector.Clear w x) y ∧
  (∀ c w2, Vector.Reserve ops w x c = .ok w2 → Unaffected w w2 y)

/-- A world with one object, number 1: the vector `{1, 2, 3}`. -/
def worldOne : World Int :=
  { heap := ⟨[some [1, 2, 3]], 20⟩,
    objs := fun j => if j = 1 then ⟨3, 3, some 0⟩ else ⟨0, 0, none⟩ }

/-- The reference `operator[]` returns (vector.h 158-163): the slot
`data_[position]` of the buffer the object has at the time of the call. -/
def Vector.indexRef {α : Type} (w : World α) (this : Nat) (position : Nat) : Ref α :=
  .slot (w.objs this).data_ position

/-- An argument expression of a `PushBack` call: an object outside every
buffer holding `x`, or the element expression `obj[position]`. -/
inductive Arg (α : Type) where
  | value (x : α)
  | element (obj position : Nat)

/-- The reference an argument expression is bound to when the call is made in
world `w`. -/
def Arg.toRef {α : Type} (w : World α) : Arg α → Ref α
  | .value x => .value x
  | .element obj position => Vector.indexRef w obj position

/-- Calling `PushBack(a_1)`, ..., `PushBack(a_k)` in order on object `this`;
each argument is bound in the world its call is made in. -/
def pushBackAll {α : Type} (ops : ValueOps α) (w : World α) (this : Nat) :
    List (Arg α) → Result (World α)
  | [] => .ok w
  | a :: as =>
    match Vector.PushBack ops w this (a.toRef w) with
    | .ub => .ub
    | .threw w1 => .threw w1
    | .ok w1 => pushBackAll ops w1 this as

/-- Size `k` and capacity `c` of a vector grown from empty by `PushBack`
alone: both 0, or `c` is the power of two with `c / 2 < k <= c`. -/
def Doubled (k c : Nat) : Prop :=
  (k = 0 ∧ c = 0) ∨ ∃ e, c = 2 ^ e ∧ k ≤ c ∧ c < 2 * k

/-- A call of the public interface of `Vector`. -/
inductive Call (α : Type) where
  | ctorDefault (this : Nat)
  | ctorSized (this size : Nat)
  | ctorList (this : Nat) (list : List α)
  | ctorCopy (this other : Nat)
  | ctorMove (this other : Nat)
  | assignCopy (this other : Nat)
  | assignMove (this other : Nat)
  | indexAssign (this position : Nat) (x : α)
  | Reserve (this new_capacity : Nat)
  | Clear (this : Nat)
  | PushBack (this : Nat) (new_element : Ref α)
  | PopBack (this : Nat)
  | Swap (this other : Nat)

/-- Running a call in a world. -/
def Call.run {α : Type} (ops : ValueOps α) (w : World α) : Call α → Result (World α)
  | .ctorDefault this => .ok (Vector.ctorDefault w this)
  | .ctorSized this size => Vector.ctorSized ops w this size
  | .ctorList this list => Vector.ctorList ops w this list
  | .ctorCopy this other => Vector.ctorCopy ops w this other
  | .ctorMove this other => .ok (Vector.ctorMove w this other)
  | .assignCopy this other => Vector.assignCopy ops w this other
  | .assignMove this other =>
    match Vector.assignMove w this other with
    | none => .ub
    | some w1 => .ok w1
  | .indexAssign this position x => Vector.indexAssign ops w this position x
  | .Reserve this new_capacity => Vector.Reserve ops w this new_capacity
  | .Clear this => .ok (Vector.Clear w this)
  | .PushBack this new_element => Vector.PushBack ops w this new_element
  | .PopBack this => .ok (Vector.PopBack w this)
  | .Swap this other => .ok (Vector.Swap w this other)

/-- A copy constructor constructs an object other than its argument. -/
def Call.valid {α : Type} : Call α → Prop
  | .ctorCopy this other => this ≠ other
  | _ => True

/-- The invariant of a world: every object is well formed and no two
objects share a buffer. -/
def World.Inv {α : Type} (w : World α) : Prop :=
  (∀ j, Vector.wf w.heap (w.objs j)) ∧
  ∀ i j b, i ≠ j → (w.objs i).data_ = some b → (w.objs j).data_ ≠ some b

/-- The calls that leave the object they were called on usable when they
throw: an index write, `Reserve` and `PushBack`.  (What a throwing
copy-assignment leaves is not followed.) -/
def Call.resumable {α : Type} : Call α → Prop
  | .indexAssign _ _ _ => True
  | .Reserve _ _ => True
  | .PushBack _ _ => True
  | _ => False

/-- The constructor calls. -/
def Call.constructs {α : Type} : Call α → Prop
  | .ctorDefault _ => True
  | .ctorSized _ _ => True
  | .ctorList _ _ => True
  | .ctorCopy _ _ => True
  | .ctorMove _ _ => True
  | _ => False

/-- The worlds a program can reach through the public interface: from an
empty heap where every object is empty, by valid calls that return, by index
writes, `Reserve` and `PushBack` calls that throw, and by constructor calls
that throw.  A constructor that throws has constructed no object: the heap is
as the call left it and the object table is as it was before the call. -/
inductive Reachable {α : Type} (ops : ValueOps α) : World α → Prop where
  | init (avail : Nat) : Reachable ops ⟨⟨[], avail⟩, fun _ => ⟨0, 0, none⟩⟩
  | step {w w1 : World α} (c : Call α) : Reachable ops w → c.valid →
      c.run ops w = .ok w1 → Reachable ops w1
  | caught {w w1 : World α} (c : Call α) : Reachable ops w → c.resumable →
      c.run ops w = .threw w1 → Reachable ops w1
  | failed {w w1 : World α} (c : Call α) : Reachable ops w → c.valid → c.constructs →
      c.run ops w = .threw w1 → Reachable ops ⟨w1.heap, w.objs⟩

/-- Where the object at `j` comes from after a move from `other` into a
distinct `this`: `other` is left empty, `this` holds what `other` held. -/
def moveSrc (this other j : Nat) : Option Nat :=
  if j = other then none else if j = this then some other else some j

/-- Where the object at `j` comes from after `this.Swap(other)`. -/
def swapSrc (this other j : Nat) : Option Nat :=
  if j = other then some this else if j = this then some other else some j

/-- The empty world: no block allocated, every object empty, eight slots of
free store. -/
def worldEmpty : World Int :=
  { heap := ⟨[], 8⟩, objs := fun _ => ⟨0, 0, none⟩ }

/-- An element type over `int` values whose move-assignment leaves 0 in its
source and throws when the value moved is 13, and whose copy-assignment
throws when the value copied is 13. -/
def fragileOps : ValueOps Int :=
  { defaultInit := -1, valueInit := 0, copyThrows := fun x => x == 13,
    moveThrows := fun x => x == 13, movedFrom := fun _ => 0 }

/-- A world with one object, number 0: the vector `{7, 13}` in a full buffer. -/
def worldFragile : World Int :=
  { heap := ⟨[some [7, 13]], 10⟩,
    objs := fun j => if j = 0 then ⟨2, 2, some 0⟩ else ⟨0, 0, none⟩ }

/-- A world with two objects: number 0 is `{1, 2, 3}`, number 1 is `{4, 13}`;
the allocator has ten slots left. -/
def worldAssign : World Int :=
  { heap := ⟨[some [1, 2, 3], some [4, 13]], 10⟩,
    objs := fun j => if j = 0 then ⟨3, 3, some 0⟩ else if j = 1 then ⟨2, 2, some 1⟩
      else ⟨0, 0, none⟩ }

/-- A world with two objects: number 0 is `{1}`, number 1 is `{4, 5, 6}`; the
allocator has no slot left. -/
def worldTight : World Int :=
  { heap := ⟨[some [1], some [4, 5, 6]], 0⟩,
    objs := fun j => if j = 0 then ⟨1, 1, some 0⟩ else if j = 1 then ⟨3, 3, some 1⟩
      else ⟨0, 0, none⟩ }

/-- A `ValueType*` (or `const ValueType*`): the block it points into (`none`
for a pointer derived from `nullptr`) and the slot offset inside it. -/
structure Pointer where
  base : Option Nat
  offset : Int
  deriving DecidableEq, Repr

/-- `Vector::Iterator<IsConst>` (vector.h 15-75): the one member `current_`.
`Iterator false` is `iterator`, `Iterator true` is `const_iterator`. -/
structure Iterator (IsConst : Bool) where
  current_ : Pointer
  deriving DecidableEq, Repr

/-- `Reference operator*() const`: the value of `*current_`, `none` when the
access is undefined (null or released block, offset outside the block). -/
def Iterator.deref {α : Type} {c : Bool} (h : Heap α) (it : Iterator c) : Option α :=
  if 0 ≤ it.current_.offset then h.read it.current_.base it.current_.offset.toNat
  else none

/-- `Iterator& operator++()`: the iterator after `++current_`. -/
def Iterator.preInc {c : Bool} (it : Iterator c) : Iterator c :=
  ⟨⟨it.current_.base, it.current_.offset + 1⟩⟩

/-- `Iterator operator++(int)`: the copy returned and the iterator after it. -/
def Iterator.postInc {c : Bool} (it : Iterator c) : Iterator c × Iterator c :=
  (it, ⟨⟨it.current_.base, it.current_.offset + 1⟩⟩)

/-- `Iterator& operator--()`: the iterator after `--current_`. -/
def Iterator.preDec {c : Bool} (it : Iterator c) : Iterator c :=
  ⟨⟨it.current_.base, it.current_.offset - 1⟩⟩

/-- `Iterator operator--(int)`: the copy returned and the iterator after it. -/
def Iterator.postDec {c : Bool} (it : Iterator c) : Iterator c × Iterator c :=
  (it, ⟨⟨it.current_.base, it.current_.offset - 1⟩⟩)

/-- `Iterator& operator+=(DifferenceType shift)`. -/
def Iterator.addAssign {c : Bool} (it : Iterator c) (shift : Int) : Iterator c :=
  ⟨⟨it.current_.base, it.current_.offset + shift⟩⟩

/-- `Iterator operator+(DifferenceType shift) const`: a copy, then `+=`. -/
def Iterator.add {c : Bool} (it : Iterator c) (shift : Int) : Iterator c :=
  Iterator.addAssign it shift

/-- `Iterator& operator-=(DifferenceType shift)`. -/
def Iterator.subAssign {c : Bool} (it : Iterator c) (shift : Int) : Iterator c :=
  ⟨⟨it.current_.base, it.current_.offset - shift⟩⟩

/-- `DifferenceType operator-(const Iterator& other) const`: the difference of
two pointers into the same block, `none` (undefined) otherwise. -/
def Iterator.diff {c : Bool} (it other : Iterator c) : Option Int :=
  if it.current_.base = other.current_.base then
    some (it.current_.offset - other.current_.offset)
  else none

/-- `bool operator==(const Iterator& other) const`. -/
def Iterator.eq {c : Bool} (it other : Iterator c) : Bool :=
  decide (it.current_ = other.current_)

/-- `std::strong_ordering operator<=>(const Iterator& other) const`: the order
of two pointers into the same block, `none` (unspecified) otherwise. -/
def Iterator.cmp {c : Bool} (it other : Iterator c) : Option Ordering :=
  if it.current_.base = other.current_.base then
    some (compare it.current_.offset other.current_.offset)
  else none

/-- `Vector::begin` (vector.h 245-251), for `iterator` and `const_iterator`. -/
def Vector.begin {α : Type} (w : World α) (this : Nat) (c : Bool) : Iterator c :=
  ⟨⟨(w.objs this).data_, 0⟩⟩

/-- `Vector::end` (vector.h 253-259): `data_ + size_`. -/
def Vector.end_ {α : Type} (w : World α) (this : Nat) (c : Bool) : Iterator c :=
  ⟨⟨(w.objs this).data_, ((w.objs this).size_ : Int)⟩⟩

/-- The loop `for (it = first; it != last; ++it) visit(*it);` (the range-based
`for` of the tests), run for at most `fuel` steps: the values visited, `none`
on an undefined dereference or when the fuel runs out. -/
def rangeFor {α : Type} {c : Bool} (h : Heap α) (last : Iterator c) :
    Nat → Iterator c → Option (List α)
  | 0, it => if Iterator.eq it last then some [] else none
  | fuel + 1, it =>
    if Iterator.eq it last then some []
    else
      match Iterator.deref h it with
      | none => none
      | some x => (rangeFor h last fuel (Iterator.preInc it)).map (fun xs => x :: xs)

/-- `a < b` for vectors: the compiler rewrites it to `(a <=> b) < 0`. -/
def Vector.operatorLt {α : Type} [LinearOrder α] (w : World α) (this other : Nat) :
    Option Bool :=
  (Vector.operatorCmp w this other).map (fun r => decide (r = Ordering.lt))

/-- `a > b` for vectors: the compiler rewrites it to `(a <=> b) > 0`. -/
def Vector.operatorGt {α : Type} [LinearOrder α] (w : World α) (this other : Nat) :
    Option Bool :=
  (Vector.operatorCmp w this other).map (fun r => decide (r = Ordering.gt))

/-- Lexicographic "less" on two sequences given by their sizes and their
elements by index: the first differing pair decides, and a proper prefix
orders first. -/
def LexLt {α : Type} [LinearOrder α] (sa sb : Nat) (A B : Nat → Option α) : Prop :=
  (∃ t x y, t < sa ∧ t < sb ∧ A t = some x ∧ B t = some y ∧ x < y ∧
    ∀ j, j < t → A j = B j) ∨
  ((∀ j, j < sa → A j = B j) ∧ sa < sb)

/-- A world with three objects: number 0 is `{1, 2}` in a buffer of four
slots, number 1 is `{1, 2, 3}`, number 2 is `{1, 2, 4}`. -/
def worldThree : World Int :=
  { heap := ⟨[some [1, 2, 9, 9], some [1, 2, 3], some [1, 2, 4]], 20⟩,
    objs := fun j => if j = 0 then ⟨2, 4, some 0⟩ else if j = 1 then ⟨3, 3, some 1⟩
      else if j = 2 then ⟨3, 3, some 2⟩ else ⟨0, 0, none⟩ }

/-! ## Lemmas and the claims -/

theorem Heap.block_lt {α : Type} {h : Heap α} {a : Nat} {s : List α}
    (hb : h.block a = some s) : a < h.blocks.length := by
  unfold Heap.block at hb
  by_contra hlt
  rw [List.getElem?_eq_none (Nat.le_of_not_lt hlt)] at hb
  simp at hb

theorem Heap.block_set {α : Type} (bs : List (Option (List α))) (a : Nat)
    (v : Option (List α)) (n m : Nat) (b : Nat) (ha : a < bs.length) :
    Heap.block ⟨bs.set a v, n⟩ b = if b = a then v else Heap.block ⟨bs, m⟩ b := by
  unfold Heap.block
  by_cases hba : b = a
  · subst hba
    simp [List.getElem?_set_self, ha]
  · have hab : a ≠ b := fun h => hba h.symm
    simp [hba, List.getElem?_set_ne hab]

theorem Heap.block_append {α : Type} (bs : List (Option (List α)))
    (v : Option (List α)) (n m : Nat) (b : Nat) :
    Heap.block ⟨bs ++ [v], n⟩ b =
      if b = bs.length then v else Heap.block ⟨bs, m⟩ b := by
  unfold Heap.block
  by_cases hb : b = bs.length
  · subst hb
    simp
  · rcases Nat.lt_or_gt_of_ne hb with hlt | hgt
    · simp [hb, List.getElem?_append_left hlt]
    · have h1 : bs.length + 1 ≤ b := hgt
      simp [hb, List.getElem?_eq_none, h1, Nat.le_of_lt hgt]

theorem Heap.read_some {α : Type} {h : Heap α} {a : Nat} {s : List α}
    (hb : h.block a = some s) (i : Nat) : h.read (some a) i = s[i]? := by
  simp [Heap.read, hb]

theorem Heap.write_some {α : Type} {h : Heap α} {a : Nat} {s : List α}
    (hb : h.block a = some s) {i : Nat} (hi : i < s.length) (x : α) :
    h.write (some a) i x = some ⟨h.blocks.set a (some (s.set i x)), h.avail⟩ := by
  simp [Heap.write, hb, hi]

theorem moveLoop_spec {α : Type} (ops : ValueOps α) (s d : Nat) (hsd : s ≠ d) :
    ∀ (k i : Nat) (h : Heap α) (ss ds : List α), h.block s = some ss →
      h.block d = some ds → i + k ≤ ss.length → i + k ≤ ds.length →
      ∃ m h1, m ≤ k ∧
        moveLoop ops (some d) (some s) k i h = (if m = k then .ok h1 else .threw h1) ∧
        Transferred ops.movedFrom s d ss ds i m h h1 ∧
        (∀ j x, i ≤ j → j < i + m → ss[j]? = some x → ops.moveThrows x = false) ∧
        (m < k → ∃ x, ss[i + m]? = some x ∧ ops.moveThrows x = true) := by
  intro k
  induction k with
  | zero =>
    intro i h ss ds hs hd _ _
    refine ⟨0, h, le_refl _, by simp [moveLoop], ⟨rfl, rfl, fun _ _ _ => rfl, ss, ds, hs, hd,
      rfl, rfl, ?_, ?_⟩, ?_, ?_⟩
    · intro j; rw [if_neg (by omega)]
    · intro j; rw [if_neg (by omega)]
    · intro j x h1 h2; omega
    · intro h0; omega
  | succ k ih =>
    intro i h ss ds hs hd hks hkd
    have his : i < ss.length := by omega
    have hid : i < ds.length := by omega
    have hrd : h.read (some s) i = some ss[i] := by
      rw [Heap.read_some hs, List.getElem?_eq_getElem his]
    by_cases hthrow : ops.moveThrows ss[i] = true
    · refine ⟨0, h, Nat.zero_le _, ?_, ⟨rfl, rfl, fun _ _ _ => rfl, ss, ds, hs, hd,
        rfl, rfl, ?_, ?_⟩, ?_, ?_⟩
      · simp [moveLoop, hrd, hthrow]
      · intro j; rw [if_neg (by omega)]
      · intro j; rw [if_neg (by omega)]
      · intro j x h1 h2; omega
      · intro _; exact ⟨ss[i], by simp [List.getElem?_eq_getElem his], hthrow⟩
    · have hnt : ops.moveThrows ss[i] = false := by simpa using hthrow
      have hdlt := Heap.block_lt hd
      have hslt := Heap.block_lt hs
      have hw1 := Heap.write_some hd hid ss[i]
      set h1 : Heap α := ⟨h.blocks.set d (some (ds.set i ss[i])), h.avail⟩ with hh1
      have hs1 : h1.block s = some ss := by
        rw [hh1, Heap.block_set h.blocks d _ _ h.avail s hdlt, if_neg hsd]; exact hs
      have hd1 : h1.block d = some (ds.set i ss[i]) := by
        rw [hh1, Heap.block_set h.blocks d _ _ h.avail d hdlt, if_pos rfl]
      have hw2 := Heap.write_some hs1 his (ops.movedFrom ss[i])
      set h2 : Heap α := ⟨h1.blocks.set s (some (ss.set i (ops.movedFrom ss[i]))), h1.avail⟩
        with hh2
      have hs1lt := Heap.block_lt hs1
      have hs2 : h2.block s = some (ss.set i (ops.movedFrom ss[i])) := by
        rw [hh2, Heap.block_set h1.blocks s _ _ h1.avail s hs1lt, if_pos rfl]
      have hd2 : h2.block d = some (ds.set i ss[i]) := by
        rw [hh2, Heap.block_set h1.blocks s _ _ h1.avail d hs1lt, if_neg (Ne.symm hsd)]
        exact hd1
      obtain ⟨m, h3, hmk, hres, ⟨hlen, hav, hfr, ss3, ds3, hs3, hd3, hl3s, hl3d, hss3, hds3⟩,
        hnothrow, hthr⟩ := ih (i + 1) h2 _ _ hs2 hd2 (by simp; omega) (by simp; omega)
      refine ⟨m + 1, h3, by omega, ?_, ⟨?_, ?_, ?_, ss3, ds3, hs3, hd3, ?_, ?_, ?_, ?_⟩, ?_, ?_⟩
      · simp only [moveLoop, hrd, hnt, hw1, hw2]
        simpa using hres
      · rw [hlen, hh2, hh1]; simp
      · rw [hav]
      · intro a has had
        rw [hfr a has had, hh2, Heap.block_set h1.blocks s _ _ h1.avail a hs1lt, if_neg has,
          hh1, Heap.block_set h.blocks d _ _ h.avail a hdlt, if_neg had]
      · simpa using hl3s
      · simpa using hl3d
      · intro j
        rw [hss3 j]
        by_cases hji : j = i
        · subst hji
          have : ¬ (j + 1 ≤ j ∧ j < j + 1 + m) := by omega
          rw [if_neg this, if_pos (by omega)]
          simp [List.getElem?_set_self, his, List.getElem?_eq_getElem his]
        · have hne : i ≠ j := fun h => hji h.symm
          rw [List.getElem?_set_ne hne]
          by_cases hc : i + 1 ≤ j ∧ j < i + 1 + m
          · rw [if_pos hc, if_pos (by omega)]
          · rw [if_neg hc, if_neg (by omega)]
      · intro j
        rw [hds3 j]
        by_cases hji : j = i
        · subst hji
          have : ¬ (j + 1 ≤ j ∧ j < j + 1 + m) := by omega
          rw [if_neg this, if_pos (by omega)]
          simp [List.getElem?_set_self, hid, List.getElem?_eq_getElem his]
        · have hne : i ≠ j := fun h => hji h.symm
          rw [List.getElem?_set_ne hne, List.getElem?_set_ne hne]
          by_cases hc : i + 1 ≤ j ∧ j < i + 1 + m
          · rw [if_pos hc, if_pos (by omega)]
          · rw [if_neg hc, if_neg (by omega)]
      · intro j x hij hjm hx
        by_cases hji : j = i
        · subst hji
          rw [List.getElem?_eq_getElem his] at hx
          cases hx
          exact hnt
        · have hne : i ≠ j := fun h => hji h.symm
          exact hnothrow j x (by omega) (by omega) (by rw [List.getElem?_set_ne hne]; exact hx)
      · intro hlt
        obtain ⟨x, hx, hxt⟩ := hthr (by omega)
        have hne : i ≠ i + 1 + m := by omega
        rw [List.getElem?_set_ne hne] at hx
        exact ⟨x, by rw [show i + (m + 1) = i + 1 + m by omega]; exact hx, hxt⟩

theorem Stored.stored_refl {α : Type} (f : Nat → Option α) (d : Nat) (ds : List α) (i : Nat)
    (h : Heap α) (hd : h.block d = some ds) : Stored f d ds i 0 h h :=
  ⟨rfl, rfl, fun _ _ => rfl, ds, hd, rfl, fun j => by rw [if_neg (by omega)]⟩

/-- One more step in front of `m` steps that started at `i + 1`. -/
theorem Stored.stored_step {α : Type} (f : Nat → Option α) (d : Nat) (ds : List α) (i m : Nat)
    (h h1 : Heap α) (x : α) (hd : h.block d = some ds) (hi : i < ds.length)
    (hx : f i = some x)
    (hst : Stored f d (ds.set i x) (i + 1) m
      ⟨h.blocks.set d (some (ds.set i x)), h.avail⟩ h1) :
    Stored f d ds i (m + 1) h h1 := by
  obtain ⟨hlen, hav, hfr, ds1, hd1, hl1, hds1⟩ := hst
  have hdlt := Heap.block_lt hd
  refine ⟨by simpa using hlen, hav, ?_, ds1, hd1, by simpa using hl1, ?_⟩
  · intro a had
    rw [hfr a had, Heap.block_set h.blocks d _ _ h.avail a hdlt, if_neg had]
  · intro j
    rw [hds1 j]
    by_cases hji : j = i
    · subst hji
      have : ¬ (j + 1 ≤ j ∧ j < j + 1 + m) := by omega
      rw [if_neg this, if_pos (by omega), hx]
      simp [List.getElem?_set_self, hi]
    · have hne : i ≠ j := fun h => hji h.symm
      rw [List.getElem?_set_ne hne]
      by_cases hc : i + 1 ≤ j ∧ j < i + 1 + m
      · rw [if_pos hc, if_pos (by omega)]
      · rw [if_neg hc, if_neg (by omega)]

theorem copyLoop_spec {α : Type} (ops : ValueOps α) (s d : Nat) (hsd : s ≠ d) :
    ∀ (k i : Nat) (h : Heap α) (ss ds : List α), h.block s = some ss →
      h.block d = some ds → i + k ≤ ss.length → i + k ≤ ds.length →
      ∃ m h1, m ≤ k ∧
        copyLoop ops (some d) (some s) k i h = (if m = k then .ok h1 else .threw h1) ∧
        Stored (fun j => ss[j]?) d ds i m h h1 ∧
        (∀ j x, i ≤ j → j < i + m → ss[j]? = some x → ops.copyThrows x = false) ∧
        (m < k → ∃ x, ss[i + m]? = some x ∧ ops.copyThrows x = true) := by
  intro k
  induction k with
  | zero =>
    intro i h ss ds _ hd _ _
    exact ⟨0, h, le_refl _, by simp [copyLoop], Stored.stored_refl _ d ds i h hd,
      fun j x h1 h2 => by omega, fun h0 => by omega⟩
  | succ k ih =>
    intro i h ss ds hs hd hks hkd
    have his : i < ss.length := by omega
    have hid : i < ds.length := by omega
    have hrd : h.read (some s) i = some ss[i] := by
      rw [Heap.read_some hs, List.getElem?_eq_getElem his]
    by_cases hthrow : ops.copyThrows ss[i] = true
    · refine ⟨0, h, Nat.zero_le _, by simp [copyLoop, hrd, hthrow],
        Stored.stored_refl _ d ds i h hd, fun j x h1 h2 => by omega, fun _ => ?_⟩
      exact ⟨ss[i], by simp [List.getElem?_eq_getElem his], hthrow⟩
    · have hnt : ops.copyThrows ss[i] = false := by simpa using hthrow
      have hdlt := Heap.block_lt hd
      have hw1 := Heap.write_some hd hid ss[i]
      set h1 : Heap α := ⟨h.blocks.set d (some (ds.set i ss[i])), h.avail⟩ with hh1
      have hs1 : h1.block s = some ss := by
        rw [hh1, Heap.block_set h.blocks d _ _ h.avail s hdlt, if_neg hsd]; exact hs
      have hd1 : h1.block d = some (ds.set i ss[i]) := by
        rw [hh1, Heap.block_set h.blocks d _ _ h.avail d hdlt, if_pos rfl]
      obtain ⟨m, h3, hmk, hres, hst, hnothrow, hthr⟩ :=
        ih (i + 1) h1 _ _ hs1 hd1 (by omega) (by simp; omega)
      refine ⟨m + 1, h3, by omega, ?_, ?_, ?_, ?_⟩
      · simp only [copyLoop, hrd, hnt, hw1]
        simpa using hres
      · exact Stored.stored_step _ d ds i m h h3 ss[i] hd hid
          (by simp [List.getElem?_eq_getElem his]) hst
      · intro j x hij hjm hx
        by_cases hji : j = i
        · subst hji
          rw [List.getElem?_eq_getElem his] at hx
          cases hx
          exact hnt
        · exact hnothrow j x (by omega) (by omega) hx
      · intro hlt
        obtain ⟨x, hx, hxt⟩ := hthr (by omega)
        exact ⟨x, by rw [show i + (m + 1) = i + 1 + m by omega]; exact hx, hxt⟩

theorem listLoop_spec {α : Type} (ops : ValueOps α) (d : Nat) :
    ∀ (list : List α) (i : Nat) (h : Heap α) (ds : List α),
      h.block d = some ds → i + list.length ≤ ds.length →
      ∃ m h1, m ≤ list.length ∧
        listLoop ops (some d) list i h =
          (if m = list.length then .ok h1 else .threw h1) ∧
        Stored (fun j => list[j - i]?) d ds i m h h1 ∧
        (∀ j x, j < m → list[j]? = some x → ops.copyThrows x = false) ∧
        (m < list.length → ∃ x, list[m]? = some x ∧ ops.copyThrows x = true) := by
  intro list
  induction list with
  | nil =>
    intro i h ds hd _
    exact ⟨0, h, le_refl _, by simp [listLoop], Stored.stored_refl _ d ds i h hd,
      fun j x h1 => by omega, fun h0 => by simp at h0⟩
  | cons element rest ih =>
    intro i h ds hd hlen
    have hid : i < ds.length := by simp at hlen; omega
    by_cases hthrow : ops.copyThrows element = true
    · exact ⟨0, h, Nat.zero_le _, by simp [listLoop, hthrow], Stored.stored_refl _ d ds i h hd,
        fun j x h1 => by omega, fun _ => ⟨element, by simp, hthrow⟩⟩
    · have hnt : ops.copyThrows element = false := by simpa using hthrow
      have hdlt := Heap.block_lt hd
      have hw1 := Heap.write_some hd hid element
      set h1 : Heap α := ⟨h.blocks.set d (some (ds.set i element)), h.avail⟩ with hh1
      have hd1 : h1.block d = some (ds.set i element) := by
        rw [hh1, Heap.block_set h.blocks d _ _ h.avail d hdlt, if_pos rfl]
      obtain ⟨m, h3, hmk, hres, hst, hnothrow, hthr⟩ :=
        ih (i + 1) h1 _ hd1 (by simp at hlen ⊢; omega)
      refine ⟨m + 1, h3, by simp; omega, ?_, ?_, ?_, ?_⟩
      · simp only [listLoop, hnt, hw1]
        simpa using hres
      · apply Stored.stored_step _ d ds i m h h3 element hd hid (by simp)
        obtain ⟨hl, hav, hfr, ds1, hd3, hl3, hds3⟩ := hst
        refine ⟨hl, hav, hfr, ds1, hd3, hl3, fun j => ?_⟩
        rw [hds3 j]
        by_cases hc : i + 1 ≤ j ∧ j < i + 1 + m
        · rw [if_pos hc, if_pos hc]
          show rest[j - (i + 1)]? = (element :: rest)[j - i]?
          rw [show j - i = (j - (i + 1)) + 1 by omega]
          simp
        · rw [if_neg hc, if_neg hc]
      · intro j x hjm hx
        cases j with
        | zero => simp at hx; subst hx; exact hnt
        | succ j => exact hnothrow j x (by omega) (by simpa using hx)
      · intro hlt
        obtain ⟨x, hx, hxt⟩ := hthr (by simp at hlt; omega)
        exact ⟨x, by simpa using hx, hxt⟩

theorem fillLoop_spec {α : Type} (ops : ValueOps α) (d : Nat) :
    ∀ (k i : Nat) (h : Heap α) (ds : List α),
      h.block d = some ds → i + k ≤ ds.length →
      ∃ m h1, m ≤ k ∧
        fillLoop ops (some d) k i h = (if m = k then .ok h1 else .threw h1) ∧
        Stored (fun _ => some ops.valueInit) d ds i m h h1 ∧
        (ops.moveThrows ops.valueInit = false → m = k) := by
  intro k
  induction k with
  | zero =>
    intro i h ds hd _
    exact ⟨0, h, le_refl _, by simp [fillLoop], Stored.stored_refl _ d ds i h hd, fun _ => rfl⟩
  | succ k ih =>
    intro i h ds hd hlen
    have hid : i < ds.length := by omega
    by_cases hthrow : ops.moveThrows ops.valueInit = true
    · exact ⟨0, h, Nat.zero_le _, by simp [fillLoop, hthrow], Stored.stored_refl _ d ds i h hd,
        fun hf => by rw [hf] at hthrow; cases hthrow⟩
    · have hnt : ops.moveThrows ops.valueInit = false := by simpa using hthrow
      have hdlt := Heap.block_lt hd
      have hw1 := Heap.write_some hd hid ops.valueInit
      set h1 : Heap α := ⟨h.blocks.set d (some (ds.set i ops.valueInit)), h.avail⟩ with hh1
      have hd1 : h1.block d = some (ds.set i ops.valueInit) := by
        rw [hh1, Heap.block_set h.blocks d _ _ h.avail d hdlt, if_pos rfl]
      obtain ⟨m, h3, hmk, hres, hst, hall⟩ := ih (i + 1) h1 _ hd1 (by simp; omega)
      refine ⟨m + 1, h3, by omega, ?_, ?_, fun hf => by rw [hall hf]⟩
      · simp only [fillLoop, hnt, hw1]
        simpa using hres
      · exact Stored.stored_step _ d ds i m h h3 ops.valueInit hd hid rfl hst

@[simp] theorem World.setObj_heap {α : Type} (w : World α) (this : Nat) (v : Vector) :
    (w.setObj this v).heap = w.heap := rfl

@[simp] theorem World.setObj_objs_same {α : Type} (w : World α) (this : Nat) (v : Vector) :
    (w.setObj this v).objs this = v := by
  simp [World.setObj]

theorem World.setObj_objs_ne {α : Type} (w : World α) (this : Nat) (v : Vector)
    {j : Nat} (hj : j ≠ this) : (w.setObj this v).objs j = w.objs j := by
  simp [World.setObj, hj]

theorem Heap.newArray_eq {α : Type} (ops : ValueOps α) (h : Heap α) (n : Nat)
    (hav : n ≤ h.avail) (hmax : n ≤ maxArray) :
    h.newArray ops n = some (h.blocks.length,
      ⟨h.blocks ++ [some (List.replicate n ops.defaultInit)], h.avail - n⟩) := by
  simp [Heap.newArray, hav, hmax]

theorem Heap.newArray_none {α : Type} (ops : ValueOps α) (h : Heap α) (n : Nat)
    (hno : ¬ (n ≤ h.avail ∧ n ≤ maxArray)) : h.newArray ops n = none := by
  simp only [Heap.newArray, if_neg hno]

theorem Heap.deleteArray_some {α : Type} {h : Heap α} {a : Nat} {s : List α}
    (hb : h.block a = some s) :
    h.deleteArray (some a) = some ⟨h.blocks.set a none, h.avail + s.length⟩ := by
  simp [Heap.deleteArray, hb]

/-- A well-formed object with a non-null buffer: the block behind it. -/
theorem Vector.wf_block {α : Type} {h : Heap α} {v : Vector} (hwf : Vector.wf h v)
    {s : Nat} (hs : v.data_ = some s) :
    ∃ ss, h.block s = some ss ∧ ss.length = v.capacity_ := by
  obtain ⟨_, _, h3⟩ := hwf
  rw [hs] at h3
  simp only [Option.map_eq_some'] at h3
  exact h3

theorem Vector.wf_null {α : Type} {h : Heap α} {v : Vector} (hwf : Vector.wf h v)
    (hs : v.data_ = none) : v.capacity_ = 0 ∧ v.size_ = 0 := by
  obtain ⟨h1, _, h3⟩ := hwf
  rw [hs] at h3
  simp only at h3
  exact ⟨h3, by omega⟩

theorem Vector.Reserve_noop {α : Type} (ops : ValueOps α) (w : World α) (this n : Nat)
    (hle : n ≤ (w.objs this).capacity_) : Vector.Reserve ops w this n = .ok w := by
  simp [Vector.Reserve, hle]

theorem Vector.Reserve_cases {α : Type} (ops : ValueOps α) (w : World α) (this n : Nat)
    (hwf : Vector.wf w.heap (w.objs this)) (hlt : (w.objs this).capacity_ < n) :
    (¬ (n ≤ w.heap.avail ∧ n ≤ maxArray) ∧ Vector.Reserve ops w this n = .threw w) ∨
    (n ≤ w.heap.avail ∧ n ≤ maxArray ∧
      ((∃ w1 m, Vector.Reserve ops w this n = .threw w1 ∧ MoveFailed ops w this m w1) ∨
       (∃ w1, Vector.Reserve ops w this n = .ok w1 ∧ Grown ops w this n w1 ∧
          ∀ j x, j < (w.objs this).size_ → w.heap.read (w.objs this).data_ j = some x →
            ops.moveThrows x = false))) := by
  by_cases hal : n ≤ w.heap.avail ∧ n ≤ maxArray
  swap
  · left
    refine ⟨hal, ?_⟩
    simp [Vector.Reserve, Nat.not_le.mpr hlt, Heap.newArray_none ops w.heap n hal]
  right
  refine ⟨hal.1, hal.2, ?_⟩
  have hnew := Heap.newArray_eq ops w.heap n hal.1 hal.2
  set h1 : Heap α := ⟨w.heap.blocks ++ [some (List.replicate n ops.defaultInit)],
    w.heap.avail - n⟩ with hh1
  set a := w.heap.blocks.length with ha
  have hblk1 : ∀ b, h1.block b =
      if b = a then some (List.replicate n ops.defaultInit) else w.heap.block b := by
    intro b
    rw [hh1, Heap.block_append w.heap.blocks _ _ w.heap.avail b]
  have hda : h1.block a = some (List.replicate n ops.defaultInit) := by
    rw [hblk1 a, if_pos rfl]
  cases hdata : (w.objs this).data_ with
  | none =>
    obtain ⟨hc0, hs0⟩ := Vector.wf_null hwf hdata
    right
    refine ⟨World.setObj { w with heap := h1 } this
      { w.objs this with data_ := some a, capacity_ := n }, ?_,
      ⟨rfl, ?_, ?_, ?_, ?_, List.replicate n ops.defaultInit, ?_, ?_, ?_, ?_⟩, ?_⟩
    all_goals try simp only [World.setObj_heap]
    · simp only [Vector.Reserve, ge_iff_le, Nat.not_le.mpr hlt, if_false, hnew, hs0, hdata,
        moveLoop, Heap.deleteArray]
    · simp [hh1]
    · simp only [hh1, hc0]; omega
    · intro b _ hb
      simp only [hblk1 b, if_neg hb]
    · intro b hb; rw [hdata] at hb; cases hb
    · exact hda
    · simp
    · intro j hj; omega
    · intro j _ hj
      simp [List.getElem?_replicate, hj]
    · intro j x hj; omega
  | some s =>
    obtain ⟨ss, hss, hlen⟩ := Vector.wf_block hwf hdata
    have hslt := Heap.block_lt hss
    have hsa : s ≠ a := by omega
    have hs1 : h1.block s = some ss := by rw [hblk1 s, if_neg hsa]; exact hss
    have hsz : (w.objs this).size_ ≤ (w.objs this).capacity_ := hwf.1
    obtain ⟨m, h2, hmk, hres, ⟨hl2, hav2, hfr2, ss2, ds2, hs2, hd2, hls2, hld2, hss2, hds2⟩,
      hnothrow, hthr⟩ := moveLoop_spec ops s a hsa (w.objs this).size_ 0 h1 ss
        (List.replicate n ops.defaultInit) hs1 hda (by omega) (by simp; omega)
    have ha2lt := Heap.block_lt hd2
    have hs2lt := Heap.block_lt hs2
    by_cases hm : m = (w.objs this).size_
    · right
      rw [if_pos hm] at hres
      refine ⟨World.setObj { w with heap := ⟨h2.blocks.set s none, h2.avail + ss2.length⟩ } this
        { w.objs this with data_ := some a, capacity_ := n }, ?_,
        ⟨rfl, ?_, ?_, ?_, ?_, ds2, ?_, ?_, ?_, ?_⟩, ?_⟩
      all_goals try simp only [World.setObj_heap]
      · simp only [Vector.Reserve, ge_iff_le, Nat.not_le.mpr hlt, if_false, hnew, hdata, hres,
          Heap.deleteArray_some hs2]
      · simp [hl2, hh1]
      · simp only [hav2, hh1, hls2, hlen]; omega
      · intro b hbs hba
        have hbs1 : b ≠ s := fun h => hbs (by rw [h, hdata])
        show Heap.block ⟨h2.blocks.set s none, _⟩ b = _
        rw [Heap.block_set h2.blocks s none _ h2.avail b hs2lt, if_neg hbs1, hfr2 b hbs1 hba,
          hblk1 b, if_neg hba]
      · intro b hb
        rw [hdata] at hb
        have hbs := Option.some.inj hb
        subst hbs
        show Heap.block ⟨h2.blocks.set s none, _⟩ s = _
        rw [Heap.block_set h2.blocks s none _ h2.avail s hs2lt, if_pos rfl]
      · show Heap.block ⟨h2.blocks.set s none, _⟩ a = _
        rw [Heap.block_set h2.blocks s none _ h2.avail a hs2lt, if_neg (Ne.symm hsa)]
        exact hd2
      · simpa using hld2
      · intro j hj
        rw [hds2 j, if_pos (by omega), hdata, Heap.read_some hss]
      · intro j hj hjn
        rw [hds2 j, if_neg (by omega)]
        simp [List.getElem?_replicate, hjn]
      · intro j x hj hx
        rw [Heap.read_some hss] at hx
        exact hnothrow j x (by omega) (by omega) hx
    · left
      rw [if_neg hm] at hres
      have hmlt : m < (w.objs this).size_ := by omega
      refine ⟨{ w with heap := ⟨h2.blocks.set a none, h2.avail + ds2.length⟩ }, m, ?_, rfl,
        ?_, ?_, ?_, ?_, hmlt, s, ss, ss2, hdata, hss, ?_, hls2, ?_, ?_⟩
      · simp only [Vector.Reserve, ge_iff_le, Nat.not_le.mpr hlt, if_false, hnew, hdata, hres,
          Heap.deleteArray_some hd2]
      · simp [hl2, hh1]
      · simp only [hav2, hh1, hld2, List.length_replicate]; omega
      · intro b hbs hba
        have hbs1 : b ≠ s := fun h => hbs (by rw [h, hdata])
        show Heap.block ⟨h2.blocks.set a none, _⟩ b = _
        rw [Heap.block_set h2.blocks a none _ h2.avail b ha2lt, if_neg hba, hfr2 b hbs1 hba,
          hblk1 b, if_neg hba]
      · show Heap.block ⟨h2.blocks.set a none, _⟩ a = _
        rw [Heap.block_set h2.blocks a none _ h2.avail a ha2lt, if_pos rfl]
      · show Heap.block ⟨h2.blocks.set a none, _⟩ s = _
        rw [Heap.block_set h2.blocks a none _ h2.avail s ha2lt, if_neg hsa]
        exact hs2
      · intro j
        rw [hss2 j]
        by_cases hj : j < m
        · rw [if_pos (by omega), if_pos hj]
        · rw [if_neg (by omega), if_neg hj]
      · simpa using hthr hmlt

theorem maxArray_lt : 2 * maxArray + 1 < sizeMod := by
  unfold maxArray sizeMod; omega

theorem Vector.Reserve_ok_grown {α : Type} {ops : ValueOps α} {w : World α} {this n : Nat}
    (hwf : Vector.wf w.heap (w.objs this)) (hlt : (w.objs this).capacity_ < n)
    {w1 : World α} (hok : Vector.Reserve ops w this n = .ok w1) :
    Grown ops w this n w1 ∧ n ≤ maxArray := by
  rcases Vector.Reserve_cases ops w this n hwf hlt with ⟨_, h⟩ | ⟨_, hmax, h | h⟩
  · rw [h] at hok; cases hok
  · obtain ⟨w2, m, h, _⟩ := h
    rw [h] at hok; cases hok
  · obtain ⟨w2, h, hg, _⟩ := h
    rw [h] at hok; cases hok
    exact ⟨hg, hmax⟩

theorem Vector.Reserve_succeeds {α : Type} (ops : ValueOps α) (w : World α) (this n : Nat)
    (hwf : Vector.wf w.heap (w.objs this)) (hlt : (w.objs this).capacity_ < n)
    (hav : n ≤ w.heap.avail) (hmax : n ≤ maxArray)
    (hnt : ∀ j x, j < (w.objs this).size_ → w.heap.read (w.objs this).data_ j = some x →
      ops.moveThrows x = false) :
    ∃ w1, Vector.Reserve ops w this n = .ok w1 := by
  rcases Vector.Reserve_cases ops w this n hwf hlt with ⟨hno, _⟩ | ⟨_, _, h | h⟩
  · exact absurd ⟨hav, hmax⟩ hno
  · obtain ⟨w2, m, _, _, _, _, _, _, hm, s, ss, ss1, hs, hss, _, _, _, x, hx, hxt⟩ := h
    have := hnt m x hm (by rw [hs, Heap.read_some hss]; exact hx)
    rw [this] at hxt; cases hxt
  · obtain ⟨w2, h, _⟩ := h
    exact ⟨w2, h⟩

theorem Vector.Reserve_ne_ub {α : Type} (ops : ValueOps α) (w : World α) (this n : Nat)
    (hwf : Vector.wf w.heap (w.objs this)) : Vector.Reserve ops w this n ≠ .ub := by
  by_cases hle : n ≤ (w.objs this).capacity_
  · rw [Vector.Reserve_noop ops w this n hle]; exact fun h => by cases h
  · rcases Vector.Reserve_cases ops w this n hwf (by omega) with ⟨_, h⟩ | ⟨_, _, h | h⟩
    · rw [h]; exact fun h => by cases h
    · obtain ⟨w2, m, h, _⟩ := h
      rw [h]; exact fun h => by cases h
    · obtain ⟨w2, h, _⟩ := h
      rw [h]; exact fun h => by cases h

/-- When `Reserve` throws, the objects are as before and the object it was
called on still owns a live block of its capacity. -/
theorem Vector.Reserve_threw {α : Type} {ops : ValueOps α} {w : World α} {this n : Nat}
    (hwf : Vector.wf w.heap (w.objs this)) {w1 : World α}
    (hthrew : Vector.Reserve ops w this n = .threw w1) :
    w1.objs = w.objs ∧ Vector.wf w1.heap (w1.objs this) := by
  by_cases hle : n ≤ (w.objs this).capacity_
  · rw [Vector.Reserve_noop ops w this n hle] at hthrew; cases hthrew
  · rcases Vector.Reserve_cases ops w this n hwf (by omega) with ⟨_, h⟩ | ⟨_, _, h | h⟩
    · rw [h] at hthrew; cases hthrew; exact ⟨rfl, hwf⟩
    · obtain ⟨w2, m, h, hobjs, _, _, _, _, _, s, ss, ss1, hs, hss, hs1, hl1, _⟩ := h
      rw [h] at hthrew; cases hthrew
      refine ⟨hobjs, ?_⟩
      rw [hobjs]
      obtain ⟨ss0, hss0, hlen0⟩ := Vector.wf_block hwf hs
      rw [hss] at hss0; cases hss0
      refine ⟨hwf.1, hwf.2.1, ?_⟩
      rw [hs]
      simp [hs1, hl1, hlen0]
    · obtain ⟨w2, h, _⟩ := h
      rw [h] at hthrew; cases hthrew

theorem Grown.grown_index_eq {α : Type} {ops : ValueOps α} {w : World α} {this n : Nat}
    {w1 : World α} (hg : Grown ops w this n w1) {i : Nat}
    (hi : i < (w.objs this).size_) : Vector.index w1 this i = Vector.index w this i := by
  obtain ⟨hobjs, _, _, _, _, ds1, hd1, _, hlive, _⟩ := hg
  unfold Vector.index
  rw [hobjs, World.setObj_objs_same]
  show w1.heap.read (some w.heap.blocks.length) i = _
  rw [Heap.read_some hd1, hlive i hi]

theorem Grown.grown_wf {α : Type} {ops : ValueOps α} {w : World α} {this n : Nat}
    {w1 : World α} (hg : Grown ops w this n w1)
    (hwf : Vector.wf w.heap (w.objs this)) (hlt : (w.objs this).capacity_ < n)
    (hmax : n ≤ maxArray) : Vector.wf w1.heap (w1.objs this) := by
  obtain ⟨hobjs, _, _, _, _, ds1, hd1, hl1, _, _⟩ := hg
  rw [hobjs, World.setObj_objs_same]
  refine ⟨?_, hmax, ?_⟩
  · show (w.objs this).size_ ≤ n
    have := hwf.1
    omega
  · show (w1.heap.block w.heap.blocks.length).map List.length = some n
    simp [hd1, hl1]

/-- `PushBack` with room to spare: no reallocation, one slot written. -/
theorem Vector.PushBack_room {α : Type} (ops : ValueOps α) (w : World α) (this : Nat) (x : α)
    (hwf : Vector.wf w.heap (w.objs this))
    (hlt : (w.objs this).size_ < (w.objs this).capacity_) :
    ∃ s ss, (w.objs this).data_ = some s ∧ w.heap.block s = some ss ∧
      ss.length = (w.objs this).capacity_ ∧
      Vector.PushBack ops w this (.value x) =
        if ops.copyThrows x then .threw w
        else .ok (World.setObj
          { w with heap := ⟨w.heap.blocks.set s (some (ss.set (w.objs this).size_ x)),
              w.heap.avail⟩ } this
          { w.objs this with size_ := (w.objs this).size_ + 1 }) := by
  cases hdata : (w.objs this).data_ with
  | none =>
    have := (Vector.wf_null hwf hdata).1
    omega
  | some s =>
    obtain ⟨ss, hss, hlen⟩ := Vector.wf_block hwf hdata
    refine ⟨s, ss, rfl, hss, hlen, ?_⟩
    have hmod : ((w.objs this).size_ + 1) % sizeMod = (w.objs this).size_ + 1 := by
      apply Nat.mod_eq_of_lt
      have h1 := hwf.2.1
      have h2 := maxArray_lt
      omega
    have hw := Heap.write_some hss (show (w.objs this).size_ < ss.length by omega) x
    simp only [Vector.PushBack, Ref.read, if_neg (Nat.ne_of_lt hlt), hdata, hw, hmod]

theorem growTo_eq (capacity : Nat) (hmax : capacity ≤ maxArray) :
    (2 * capacity + (if capacity = 0 then 1 else 0)) % sizeMod = growTo capacity := by
  have h2 := maxArray_lt
  unfold growTo
  split
  · rw [Nat.mod_eq_of_lt (by omega)]; omega
  · rw [Nat.mod_eq_of_lt (by omega)]; omega

theorem growTo_gt (capacity : Nat) : capacity < growTo capacity := by
  unfold growTo; split <;> omega

/-- `PushBack` on a full buffer is `Reserve` followed by `PushBack` with room. -/
theorem Vector.PushBack_full {α : Type} (ops : ValueOps α) (w : World α) (this : Nat) (x : α)
    (hwf : Vector.wf w.heap (w.objs this))
    (heq : (w.objs this).size_ = (w.objs this).capacity_) :
    Vector.PushBack ops w this (.value x) =
      match Vector.Reserve ops w this (growTo (w.objs this).capacity_) with
      | .ub => .ub
      | .threw w1 => .threw w1
      | .ok w1 => Vector.PushBack ops w1 this (.value x) := by
  have hgt := growTo_gt (w.objs this).capacity_
  have hn := growTo_eq (w.objs this).capacity_ hwf.2.1
  cases hres : Vector.Reserve ops w this (growTo (w.objs this).capacity_) with
  | ub => simp only [Vector.PushBack, Ref.read, if_pos heq, hn, hres]
  | threw w1 => simp only [Vector.PushBack, Ref.read, if_pos heq, hn, hres]
  | ok w1 =>
    obtain ⟨⟨hobjs, _⟩, _⟩ := Vector.Reserve_ok_grown hwf hgt hres
    have hne : (w1.objs this).size_ ≠ (w1.objs this).capacity_ := by
      rw [hobjs, World.setObj_objs_same]
      show (w.objs this).size_ ≠ growTo (w.objs this).capacity_
      omega
    simp only [Vector.PushBack, Ref.read, if_pos heq, hn, hres, if_neg hne]

theorem Vector.PushBack_room_ok {α : Type} {ops : ValueOps α} {w : World α} {this : Nat}
    {x : α} (hwf : Vector.wf w.heap (w.objs this))
    (hlt : (w.objs this).size_ < (w.objs this).capacity_) {w1 : World α}
    (hok : Vector.PushBack ops w this (.value x) = .ok w1) :
    w1.objs = (w.setObj this
      { w.objs this with size_ := (w.objs this).size_ + 1 }).objs ∧
    w1.heap.blocks.length = w.heap.blocks.length ∧ w1.heap.avail = w.heap.avail ∧
    (∀ b, some b ≠ (w.objs this).data_ → w1.heap.block b = w.heap.block b) ∧
    ops.copyThrows x = false ∧
    ∃ s ss, (w.objs this).data_ = some s ∧ w.heap.block s = some ss ∧
      ss.length = (w.objs this).capacity_ ∧
      w1.heap.block s = some (ss.set (w.objs this).size_ x) := by
  obtain ⟨s, ss, hs, hss, hlen, heq⟩ := Vector.PushBack_room ops w this x hwf hlt
  rw [heq] at hok
  have hslt := Heap.block_lt hss
  by_cases hc : ops.copyThrows x = true
  · rw [if_pos hc] at hok; cases hok
  · rw [if_neg hc] at hok
    cases hok
    refine ⟨rfl, by simp, rfl, ?_, by simpa using hc, s, ss, hs, hss, hlen, ?_⟩
    · intro b hb
      have hbs : b ≠ s := fun h => hb (by rw [h, hs])
      simp only [World.setObj_heap]
      rw [Heap.block_set w.heap.blocks s _ _ w.heap.avail b hslt, if_neg hbs]
    · simp only [World.setObj_heap]
      rw [Heap.block_set w.heap.blocks s _ _ w.heap.avail s hslt, if_pos rfl]

theorem Vector.PushBack_room_pushed {α : Type} {ops : ValueOps α} {w : World α} {this : Nat}
    {x : α} (hwf : Vector.wf w.heap (w.objs this))
    (hlt : (w.objs this).size_ < (w.objs this).capacity_) {w1 : World α}
    (hok : Vector.PushBack ops w this (.value x) = .ok w1) : Pushed w this x w1 := by
  obtain ⟨hobjs, hlen, hav, hfr, _, s, ss, hs, hss, hl, hs1⟩ :=
    Vector.PushBack_room_ok hwf hlt hok
  have hthis : w1.objs this = { w.objs this with size_ := (w.objs this).size_ + 1 } := by
    rw [hobjs, World.setObj_objs_same]
  refine ⟨by rw [hthis], by rw [hthis, if_pos hlt], by rw [hthis, if_pos hlt], ?_, ?_, ?_, ?_,
    fun b hb _ => hfr b hb, by omega, by rw [hav, hthis]⟩
  · unfold Vector.index
    rw [hthis]
    show w1.heap.read (w.objs this).data_ _ = _
    rw [hs, Heap.read_some hs1]
    simp [List.getElem?_set_self, hl, hlt]
  · intro i hi
    unfold Vector.index
    rw [hthis]
    show w1.heap.read (w.objs this).data_ _ = _
    rw [hs, Heap.read_some hs1, Heap.read_some hss,
      List.getElem?_set_ne (Nat.ne_of_gt hi)]
  · rw [hthis]
    refine ⟨?_, hwf.2.1, ?_⟩
    · show (w.objs this).size_ + 1 ≤ (w.objs this).capacity_
      omega
    · show (match (w.objs this).data_ with
        | none => (w.objs this).capacity_ = 0
        | some a => (w1.heap.block a).map List.length = some (w.objs this).capacity_)
      rw [hs]
      simp [hs1, hl]
  · intro j hj
    rw [hobjs, World.setObj_objs_ne _ _ _ hj]

theorem Vector.PushBack_ok {α : Type} {ops : ValueOps α} {w : World α} {this : Nat}
    {x : α} (hwf : Vector.wf w.heap (w.objs this)) {w1 : World α}
    (hok : Vector.PushBack ops w this (.value x) = .ok w1) : Pushed w this x w1 := by
  by_cases hlt : (w.objs this).size_ < (w.objs this).capacity_
  · exact Vector.PushBack_room_pushed hwf hlt hok
  · have heq : (w.objs this).size_ = (w.objs this).capacity_ := by
      have := hwf.1; omega
    have hgt := growTo_gt (w.objs this).capacity_
    rw [Vector.PushBack_full ops w this x hwf heq] at hok
    cases hres : Vector.Reserve ops w this (growTo (w.objs this).capacity_) with
    | ub => rw [hres] at hok; cases hok
    | threw w2 => rw [hres] at hok; cases hok
    | ok w2 =>
      rw [hres] at hok
      simp only at hok
      obtain ⟨hg, hmax⟩ := Vector.Reserve_ok_grown hwf hgt hres
      have hwf2 := hg.grown_wf hwf hgt hmax
      obtain ⟨hobjs, hlen2, hav2, hfr2, _, _⟩ := hg
      have hthis2 : w2.objs this = { w.objs this with
          data_ := some w.heap.blocks.length,
          capacity_ := growTo (w.objs this).capacity_ } := by
        rw [hobjs, World.setObj_objs_same]
      have hlt2 : (w2.objs this).size_ < (w2.objs this).capacity_ := by
        rw [hthis2]
        show (w.objs this).size_ < growTo (w.objs this).capacity_
        omega
      obtain ⟨h1, h2, h3, h4, h5, h6, h7, h8, h9, h10⟩ :=
        Vector.PushBack_room_pushed hwf2 hlt2 hok
      rw [if_pos hlt2] at h2 h3
      have hsz2 : (w2.objs this).size_ = (w.objs this).size_ := by rw [hthis2]
      rw [hsz2] at h1 h4 h5
      have hcap2 : (w2.objs this).capacity_ = growTo (w.objs this).capacity_ := by
        rw [hthis2]
      refine ⟨h1, ?_, ?_, h4, ?_, h6, ?_, ?_, by omega, by omega⟩
      · rw [h2, if_neg hlt, hthis2]
      · rw [h3, if_neg hlt, hthis2]
      · intro i hi
        rw [h5 i hi]
        exact Grown.grown_index_eq ⟨hobjs, hlen2, hav2, hfr2, ‹_›, ‹_›⟩ hi
      · intro j hj
        rw [h7 j hj, hobjs, World.setObj_objs_ne _ _ _ hj]
      · intro b hb hbl
        obtain ⟨_, _, _, hfr, _⟩ := Vector.PushBack_room_ok hwf2 hlt2 hok
        rw [hfr b (by rw [hthis2]; exact fun h => hbl (Option.some.inj h)), hfr2 b hb hbl]

theorem Vector.PushBack_room_succeeds {α : Type} (ops : ValueOps α) (w : World α)
    (this : Nat) (x : α) (hwf : Vector.wf w.heap (w.objs this))
    (hlt : (w.objs this).size_ < (w.objs this).capacity_)
    (hx : ops.copyThrows x = false) : ∃ w1, Vector.PushBack ops w this (.value x) = .ok w1 := by
  obtain ⟨s, ss, _, _, _, heq⟩ := Vector.PushBack_room ops w this x hwf hlt
  rw [heq, hx]
  exact ⟨_, rfl⟩

theorem Vector.PushBack_succeeds {α : Type} (ops : ValueOps α) (w : World α)
    (this : Nat) (x : α) (hwf : Vector.wf w.heap (w.objs this))
    (hx : ops.copyThrows x = false)
    (hgrow : (w.objs this).size_ = (w.objs this).capacity_ →
      growTo (w.objs this).capacity_ ≤ w.heap.avail ∧
      growTo (w.objs this).capacity_ ≤ maxArray ∧
      ∀ j y, j < (w.objs this).size_ → Vector.index w this j = some y →
        ops.moveThrows y = false) :
    ∃ w1, Vector.PushBack ops w this (.value x) = .ok w1 := by
  by_cases hlt : (w.objs this).size_ < (w.objs this).capacity_
  · exact Vector.PushBack_room_succeeds ops w this x hwf hlt hx
  · have heq : (w.objs this).size_ = (w.objs this).capacity_ := by
      have := hwf.1; omega
    obtain ⟨hav, hmax, hnt⟩ := hgrow heq
    have hgt := growTo_gt (w.objs this).capacity_
    obtain ⟨w2, hres⟩ := Vector.Reserve_succeeds ops w this _ hwf hgt hav hmax hnt
    obtain ⟨hg, _⟩ := Vector.Reserve_ok_grown hwf hgt hres
    have hwf2 := hg.grown_wf hwf hgt hmax
    rw [Vector.PushBack_full ops w this x hwf heq, hres]
    apply Vector.PushBack_room_succeeds ops w2 this x hwf2 _ hx
    rw [hg.1, World.setObj_objs_same]
    show (w.objs this).size_ < growTo (w.objs this).capacity_
    omega

theorem Vector.PushBack_ne_ub {α : Type} (ops : ValueOps α) (w : World α)
    (this : Nat) (x : α) (hwf : Vector.wf w.heap (w.objs this)) :
    Vector.PushBack ops w this (.value x) ≠ .ub := by
  have hroom : ∀ w2 : World α, Vector.wf w2.heap (w2.objs this) →
      (w2.objs this).size_ < (w2.objs this).capacity_ →
      Vector.PushBack ops w2 this (.value x) ≠ .ub := by
    intro w2 hwf2 hlt2
    obtain ⟨s, ss, _, _, _, heq⟩ := Vector.PushBack_room ops w2 this x hwf2 hlt2
    rw [heq]
    split <;> exact fun h => by cases h
  by_cases hlt : (w.objs this).size_ < (w.objs this).capacity_
  · exact hroom w hwf hlt
  · have heq : (w.objs this).size_ = (w.objs this).capacity_ := by
      have := hwf.1; omega
    have hgt := growTo_gt (w.objs this).capacity_
    rw [Vector.PushBack_full ops w this x hwf heq]
    cases hres : Vector.Reserve ops w this (growTo (w.objs this).capacity_) with
    | ub => exact absurd hres (Vector.Reserve_ne_ub ops w this _ hwf)
    | threw w2 => exact fun h => by cases h
    | ok w2 =>
      obtain ⟨hg, hmax⟩ := Vector.Reserve_ok_grown hwf hgt hres
      apply hroom w2 (hg.grown_wf hwf hgt hmax)
      rw [hg.1, World.setObj_objs_same]
      show (w.objs this).size_ < growTo (w.objs this).capacity_
      omega

/-- When `PushBack` throws, the object it was called on is still well formed
and no other object has changed. -/
theorem Vector.PushBack_threw {α : Type} {ops : ValueOps α} {w : World α} {this : Nat}
    {x : α} (hwf : Vector.wf w.heap (w.objs this)) {w1 : World α}
    (hthrew : Vector.PushBack ops w this (.value x) = .threw w1) :
    Vector.wf w1.heap (w1.objs this) ∧ (∀ j, j ≠ this → w1.objs j = w.objs j) ∧
      (w1.objs this).size_ = (w.objs this).size_ := by
  have hroom : ∀ w2 : World α, Vector.wf w2.heap (w2.objs this) →
      (w2.objs this).size_ < (w2.objs this).capacity_ →
      Vector.PushBack ops w2 this (.value x) = .threw w1 → w1 = w2 := by
    intro w2 hwf2 hlt2 h
    obtain ⟨s, ss, _, _, _, heq⟩ := Vector.PushBack_room ops w2 this x hwf2 hlt2
    rw [heq] at h
    split at h
    · cases h; rfl
    · cases h
  by_cases hlt : (w.objs this).size_ < (w.objs this).capacity_
  · rw [hroom w hwf hlt hthrew]
    exact ⟨hwf, fun _ _ => rfl, rfl⟩
  · have heq : (w.objs this).size_ = (w.objs this).capacity_ := by
      have := hwf.1; omega
    have hgt := growTo_gt (w.objs this).capacity_
    rw [Vector.PushBack_full ops w this x hwf heq] at hthrew
    cases hres : Vector.Reserve ops w this (growTo (w.objs this).capacity_) with
    | ub => rw [hres] at hthrew; cases hthrew
    | threw w2 =>
      rw [hres] at hthrew; cases hthrew
      obtain ⟨hobjs, hwf1⟩ := Vector.Reserve_threw hwf hres
      exact ⟨hwf1, fun j _ => by rw [hobjs], by rw [hobjs]⟩
    | ok w2 =>
      rw [hres] at hthrew
      obtain ⟨hg, hmax⟩ := Vector.Reserve_ok_grown hwf hgt hres
      have hwf2 := hg.grown_wf hwf hgt hmax
      have hlt2 : (w2.objs this).size_ < (w2.objs this).capacity_ := by
        rw [hg.1, World.setObj_objs_same]
        show (w.objs this).size_ < growTo (w.objs this).capacity_
        omega
      rw [hroom w2 hwf2 hlt2 hthrew]
      refine ⟨hwf2, fun j hj => ?_, ?_⟩
      · rw [hg.1, World.setObj_objs_ne _ _ _ hj]
      · rw [hg.1, World.setObj_objs_same]

/-- On a well-formed vector, `PushBack(x)` of an object `x` outside every
buffer never runs into undefined behaviour; it returns whenever the element copy does not throw and, if the
buffer is full, the allocation of the doubled buffer succeeds and no element
move throws; and whenever it returns, the size is the old size plus one, the
element at the old size is `x`, every element below the old size is
unchanged, and the capacity is unchanged if there was room and otherwise
`2 * capacity` (or 1 from capacity 0). -/
theorem Vector.PushBack_value_contract {α : Type} (ops : ValueOps α) (w : World α) (this : Nat)
    (x : α) (hwf : Vector.wf w.heap (w.objs this)) :
    Vector.PushBack ops w this (.value x) ≠ .ub ∧
    (ops.copyThrows x = false →
      (Vector.Size w this = Vector.Capacity w this →
        (if Vector.Capacity w this = 0 then 1 else 2 * Vector.Capacity w this)
            ≤ min w.heap.avail maxArray ∧
        ∀ j y, j < Vector.Size w this → Vector.index w this j = some y →
          ops.moveThrows y = false) →
      ∃ w1, Vector.PushBack ops w this (.value x) = .ok w1) ∧
    ∀ w1, Vector.PushBack ops w this (.value x) = .ok w1 →
      Vector.Size w1 this = Vector.Size w this + 1 ∧
      Vector.index w1 this (Vector.Size w this) = some x ∧
      (∀ i, i < Vector.Size w this →
        Vector.index w1 this i = Vector.index w this i) ∧
      (Vector.Size w this < Vector.Capacity w this →
        Vector.Capacity w1 this = Vector.Capacity w this) ∧
      (Vector.Size w this = Vector.Capacity w this →
        Vector.Capacity w1 this =
          if Vector.Capacity w this > 0 then 2 * Vector.Capacity w this else 1) := by
  unfold Vector.Size Vector.Capacity
  refine ⟨Vector.PushBack_ne_ub ops w this x hwf, fun hx hgrow => ?_, fun w1 hok => ?_⟩
  · apply Vector.PushBack_succeeds ops w this x hwf hx
    intro heq
    obtain ⟨hle, hnt⟩ := hgrow heq
    exact ⟨le_trans hle (min_le_left _ _), le_trans hle (min_le_right _ _), hnt⟩
  · obtain ⟨h1, h2, _, h4, h5, _⟩ := Vector.PushBack_ok hwf hok
    refine ⟨h1, h4, h5, fun hlt => ?_, fun heq => ?_⟩
    · rw [h2, if_pos hlt]
    · have hnlt : ¬ (w.objs this).size_ < (w.objs this).capacity_ := by omega
      rw [h2, if_neg hnlt]
      unfold growTo
      by_cases hc : (w.objs this).capacity_ = 0
      · rw [if_pos hc, if_neg (by omega)]
      · rw [if_neg hc, if_pos (by omega)]

/-- A reference that `PushBack` can read after the growth step behaves like
an outside object holding the value read: this is so when there is room, and
when the reference does not point into the vector's own buffer. -/
theorem Vector.PushBack_ref_eq_value {α : Type} (ops : ValueOps α) (w : World α)
    (this : Nat) (r : Ref α) (x : α) (hwf : Vector.wf w.heap (w.objs this))
    (hread : r.read w.heap = some x)
    (hfree : (w.objs this).size_ < (w.objs this).capacity_ ∨
      ∀ i, r ≠ .slot (w.objs this).data_ i) :
    Vector.PushBack ops w this r = Vector.PushBack ops w this (.value x) := by
  cases r with
  | value y =>
    simp only [Ref.read, Option.some.injEq] at hread
    rw [hread]
  | slot p i =>
    simp only [Ref.read] at hread
    by_cases hlt : (w.objs this).size_ < (w.objs this).capacity_
    · simp only [Vector.PushBack, Ref.read, if_neg (Nat.ne_of_lt hlt), hread]
    · have heq : (w.objs this).size_ = (w.objs this).capacity_ := by
        have hle := hwf.1; omega
      have hn := growTo_eq (w.objs this).capacity_ hwf.2.1
      have hgt := growTo_gt (w.objs this).capacity_
      have hne : ∀ j, (Ref.slot p i : Ref α) ≠ .slot (w.objs this).data_ j := by
        rcases hfree with h | h
        · exact absurd h hlt
        · exact h
      cases hres : Vector.Reserve ops w this (growTo (w.objs this).capacity_) with
      | ub => simp only [Vector.PushBack, Ref.read, if_pos heq, hn, hres]
      | threw w1 => simp only [Vector.PushBack, Ref.read, if_pos heq, hn, hres]
      | ok w1 =>
        obtain ⟨hg, _⟩ := Vector.Reserve_ok_grown hwf hgt hres
        have hread1 : w1.heap.read p i = some x := by
          cases p with
          | none => simp [Heap.read] at hread
          | some b =>
            cases hb : w.heap.block b with
            | none => simp [Heap.read, hb] at hread
            | some ss =>
              have hkeep := hg.2.2.2.1 b (fun h => hne i (by rw [h]))
                (Nat.ne_of_lt (Heap.block_lt hb))
              simp only [Heap.read, hkeep, hb] at hread ⊢
              exact hread
        simp only [Vector.PushBack, Ref.read, if_pos heq, hn, hres, hread1]

/-- C1, at the failing input: on the full vector `{1, 2, 3}` (size 3,
capacity 3) the call `v.PushBack(v[0])` does not yield a vector whose element
3 is the value of `v[0]`.  The argument is a reference into the buffer;
`Reserve(6)` returns, having moved the elements to a fresh block and released
the old one, and `data_[size_] = new_element` then reads the argument from
the released block, which is undefined behaviour.  The same value passed as
an object outside the buffer is pushed: size 4, capacity 6, element 3 equal
to 1. -/
theorem C1_PushBack_own_element_reads_released_buffer :
    Vector.wf worldOne.heap (worldOne.objs 1) ∧
    Vector.Size worldOne 1 = 3 ∧ Vector.Capacity worldOne 1 = 3 ∧
    Vector.index worldOne 1 0 = some 1 ∧
    Vector.indexRef worldOne 1 0 = .slot (some 0) 0 ∧
    (Vector.indexRef worldOne 1 0).read worldOne.heap = some 1 ∧
    (∃ w2, Vector.Reserve intOps worldOne 1 6 = .ok w2 ∧ Vector.Data w2 1 = some 1 ∧
      w2.heap.block 0 = none ∧ (Vector.indexRef worldOne 1 0).read w2.heap = none) ∧
    Vector.PushBack intOps worldOne 1 (Vector.indexRef worldOne 1 0) = .ub ∧
    ∃ w1, Vector.PushBack intOps worldOne 1 (.value 1) = .ok w1 ∧
      Vector.Size w1 1 = 4 ∧ Vector.Capacity w1 1 = 6 ∧ Vector.index w1 1 3 = some 1 :=
  ⟨by decide, rfl, rfl, rfl, rfl, rfl, ⟨_, rfl, rfl, rfl, rfl⟩, rfl, _, rfl, rfl, rfl, rfl⟩

/-- C2: on a well-formed vector, `Reserve(c)` never runs into undefined
behaviour; with `c <= capacity` it returns the world unchanged; with
`c > capacity` it returns whenever the allocation succeeds and no element
move throws, and whenever it returns the capacity is exactly `c`, the size
is unchanged and every live element is unchanged. -/
theorem C2_Reserve_contract {α : Type} (ops : ValueOps α) (w : World α) (this c : Nat)
    (hwf : Vector.wf w.heap (w.objs this)) :
    Vector.Reserve ops w this c ≠ .ub ∧
    (c ≤ Vector.Capacity w this → Vector.Reserve ops w this c = .ok w) ∧
    (Vector.Capacity w this < c →
      (c ≤ min w.heap.avail maxArray →
        (∀ j y, j < Vector.Size w this → Vector.index w this j = some y →
          ops.moveThrows y = false) →
        ∃ w1, Vector.Reserve ops w this c = .ok w1) ∧
      ∀ w1, Vector.Reserve ops w this c = .ok w1 →
        Vector.Capacity w1 this = c ∧ Vector.Size w1 this = Vector.Size w this ∧
        ∀ i, i < Vector.Size w this →
          Vector.index w1 this i = Vector.index w this i) := by
  unfold Vector.Size Vector.Capacity
  refine ⟨Vector.Reserve_ne_ub ops w this c hwf,
    fun hle => Vector.Reserve_noop ops w this c hle, fun hlt => ⟨fun hle hnt => ?_,
    fun w1 hok => ?_⟩⟩
  · exact Vector.Reserve_succeeds ops w this c hwf hlt (le_trans hle (min_le_left _ _))
      (le_trans hle (min_le_right _ _)) hnt
  · obtain ⟨hg, _⟩ := Vector.Reserve_ok_grown hwf hlt hok
    refine ⟨?_, ?_, fun i hi => hg.grown_index_eq hi⟩
    · rw [hg.1, World.setObj_objs_same]
    · rw [hg.1, World.setObj_objs_same]

theorem C2_Reserve_contract_witness :
    Vector.wf worldFive.heap (worldFive.objs 0) ∧
      ∃ w1, Vector.Reserve intOps worldFive 0 10 = .ok w1 ∧
        Vector.Capacity w1 0 = 10 ∧ Vector.Size w1 0 = 5 := by
  have hwf : Vector.wf worldFive.heap (worldFive.objs 0) := by decide
  obtain ⟨_, _, hgrow⟩ := C2_Reserve_contract intOps worldFive 0 10 hwf
  obtain ⟨hex, hall⟩ := hgrow (by decide)
  obtain ⟨w1, hok⟩ := hex (by decide) (fun _ _ _ _ => rfl)
  obtain ⟨h1, h2, _⟩ := hall w1 hok
  exact ⟨hwf, w1, hok, h1, h2⟩

/-- Every allocated slot of a well-formed object can be read. -/
theorem Vector.wf_index {α : Type} {w : World α} {this : Nat}
    (hwf : Vector.wf w.heap (w.objs this)) {i : Nat} (hi : i < (w.objs this).capacity_) :
    ∃ x, Vector.index w this i = some x := by
  cases hdata : (w.objs this).data_ with
  | none =>
    have := (Vector.wf_null hwf hdata).1
    omega
  | some s =>
    obtain ⟨ss, hss, hlen⟩ := Vector.wf_block hwf hdata
    have hi2 : i < ss.length := by omega
    refine ⟨ss[i], ?_⟩
    unfold Vector.index
    rw [hdata, Heap.read_some hss, List.getElem?_eq_getElem hi2]

theorem eqLoop_spec {α : Type} [DecidableEq α] (h : Heap α) (p q : Option Nat) :
    ∀ (k i : Nat),
      (∀ j, i ≤ j → j < i + k → (∃ x, h.read p j = some x) ∧ ∃ y, h.read q j = some y) →
      ∃ r, eqLoop h p q k i = some r ∧
        (r = true ↔ ∀ j, i ≤ j → j < i + k → h.read p j = h.read q j) := by
  intro k
  induction k with
  | zero =>
    intro i _
    exact ⟨true, rfl, by simp; intro j h1 h2; omega⟩
  | succ k ih =>
    intro i hdef
    obtain ⟨⟨x, hx⟩, ⟨y, hy⟩⟩ := hdef i (le_refl _) (by omega)
    by_cases hxy : x = y
    · obtain ⟨r, hr, hiff⟩ := ih (i + 1) (fun j h1 h2 => hdef j (by omega) (by omega))
      refine ⟨r, ?_, ?_⟩
      · simp only [eqLoop, hx, hy, hxy, ne_eq, not_true_eq_false, if_false]
        exact hr
      · rw [hiff]
        constructor
        · intro hall j h1 h2
          by_cases hji : j = i
          · rw [hji, hx, hy, hxy]
          · exact hall j (by omega) (by omega)
        · intro hall j h1 h2
          exact hall j (by omega) (by omega)
    · refine ⟨false, ?_, ?_⟩
      · simp only [eqLoop, hx, hy, ne_eq, hxy, not_false_eq_true, if_true]
      · constructor
        · intro hf; cases hf
        · intro hall
          have := hall i (le_refl _) (by omega)
          rw [hx, hy] at this
          exact absurd (Option.some.inj this) hxy

/-- For well-formed vectors `operator==` returns, and returns `true` exactly
when the sizes agree and the live elements agree index by index. -/
theorem Vector.operatorEq_spec {α : Type} [DecidableEq α] (w : World α) (a b : Nat)
    (hwa : Vector.wf w.heap (w.objs a)) (hwb : Vector.wf w.heap (w.objs b)) :
    ∃ r, Vector.operatorEq w a b = some r ∧
      (r = true ↔ (w.objs a).size_ = (w.objs b).size_ ∧
        ∀ i, i < (w.objs a).size_ → Vector.index w a i = Vector.index w b i) := by
  by_cases hsz : (w.objs a).size_ = (w.objs b).size_
  · have hdef : ∀ j, 0 ≤ j → j < 0 + (w.objs a).size_ →
        (∃ x, w.heap.read (w.objs a).data_ j = some x) ∧
          ∃ y, w.heap.read (w.objs b).data_ j = some y := by
      intro j _ hj
      have h1 := hwa.1
      have h2 := hwb.1
      exact ⟨Vector.wf_index hwa (by omega), Vector.wf_index hwb (by omega)⟩
    obtain ⟨r, hr, hiff⟩ := eqLoop_spec w.heap _ _ (w.objs a).size_ 0 hdef
    refine ⟨r, ?_, ?_⟩
    · simp only [Vector.operatorEq, ne_eq, hsz, not_true_eq_false, if_false]
      rw [← hsz]; exact hr
    · rw [hiff]
      constructor
      · intro hall
        exact ⟨hsz, fun i hi => hall i (Nat.zero_le _) (by omega)⟩
      · intro hall j _ hj
        exact hall.2 j (by omega)
  · refine ⟨false, ?_, ?_⟩
    · simp only [Vector.operatorEq, ne_eq, hsz, not_false_eq_true, if_true]
    · constructor
      · intro hf; cases hf
      · intro hall; exact absurd hall.1 hsz

/-- C3: for well-formed vectors, `a == b` returns, and returns `true` exactly
when the sizes are equal and `a[i]` equals `b[i]` at every index below the
size; so the result is the same for any other pair of vectors (in any world)
with the same sizes and the same live elements, whatever the capacities and
the slots beyond the size. -/
theorem C3_operatorEq_contract {α : Type} [DecidableEq α] (w : World α) (a b : Nat)
    (hwa : Vector.wf w.heap (w.objs a)) (hwb : Vector.wf w.heap (w.objs b)) :
    (∃ r, Vector.operatorEq w a b = some r ∧
      (r = true ↔ Vector.Size w a = Vector.Size w b ∧
        ∀ i, i < Vector.Size w a → Vector.index w a i = Vector.index w b i)) ∧
    ∀ (w1 : World α) (a1 b1 : Nat), Vector.wf w1.heap (w1.objs a1) →
      Vector.wf w1.heap (w1.objs b1) →
      Vector.Size w1 a1 = Vector.Size w a → Vector.Size w1 b1 = Vector.Size w b →
      (∀ i, i < Vector.Size w a → Vector.index w1 a1 i = Vector.index w a i) →
      (∀ i, i < Vector.Size w b → Vector.index w1 b1 i = Vector.index w b i) →
      Vector.operatorEq w1 a1 b1 = Vector.operatorEq w a b := by
  have main := @Vector.operatorEq_spec α _
  unfold Vector.Size
  refine ⟨main w a b hwa hwb, ?_⟩
  intro w1 a1 b1 hwa1 hwb1 hsa hsb hea heb
  obtain ⟨r, hr, hiff⟩ := main w a b hwa hwb
  obtain ⟨r1, hr1, hiff1⟩ := main w1 a1 b1 hwa1 hwb1
  rw [hr, hr1]
  congr 1
  have : r1 = true ↔ r = true := by
    rw [hiff, hiff1, hsa, hsb]
    constructor
    · rintro ⟨h1, h2⟩
      exact ⟨h1, fun i hi => by rw [← hea i hi, ← heb i (by omega), h2 i hi]⟩
    · rintro ⟨h1, h2⟩
      exact ⟨h1, fun i hi => by rw [hea i hi, heb i (by omega), h2 i hi]⟩
  cases r <;> cases r1 <;> simp_all

theorem C3_operatorEq_contract_witness :
    Vector.wf worldPair.heap (worldPair.objs 0) ∧
      Vector.wf worldPair.heap (worldPair.objs 1) ∧
      Vector.operatorEq worldPair 0 1 = some true := by
  have hwa : Vector.wf worldPair.heap (worldPair.objs 0) := by decide
  have hwb : Vector.wf worldPair.heap (worldPair.objs 1) := by decide
  obtain ⟨⟨r, hr, hiff⟩, _⟩ := C3_operatorEq_contract worldPair 0 1 hwa hwb
  have hrt : r = true := by
    refine hiff.2 ⟨rfl, fun i hi => ?_⟩
    have hi3 : i < 3 := hi
    interval_cases i <;> rfl
  rw [hrt] at hr
  exact ⟨hwa, hwb, hr⟩

theorem cmpLoop_all_equal {α : Type} [LinearOrder α] (h : Heap α) (p q : Option Nat) :
    ∀ (k i : Nat),
      (∀ j, i ≤ j → j < i + k → ∃ x, h.read p j = some x ∧ h.read q j = some x) →
      cmpLoop h p q k i = some none := by
  intro k
  induction k with
  | zero => intro i _; rfl
  | succ k ih =>
    intro i hall
    obtain ⟨x, hx, hy⟩ := hall i (le_refl _) (by omega)
    simp only [cmpLoop, hx, hy, lt_irrefl, gt_iff_lt, if_false]
    exact ih (i + 1) (fun j h1 h2 => hall j (by omega) (by omega))

theorem cmpLoop_first_diff {α : Type} [LinearOrder α] (h : Heap α) (p q : Option Nat)
    (t : Nat) (x y : α) (hx : h.read p t = some x) (hy : h.read q t = some y)
    (hxy : x ≠ y) :
    ∀ (k i : Nat), i ≤ t → t < i + k →
      (∀ j, i ≤ j → j < t → ∃ z, h.read p j = some z ∧ h.read q j = some z) →
      cmpLoop h p q k i = some (some (if x < y then Ordering.lt else Ordering.gt)) := by
  intro k
  induction k with
  | zero => intro i h1 h2; omega
  | succ k ih =>
    intro i hit htk hbefore
    by_cases heq : i = t
    · subst heq
      by_cases hlt : x < y
      · simp only [cmpLoop, hx, hy, hlt, if_true]
      · have hgt : y < x := lt_of_le_of_ne (not_lt.mp hlt) (Ne.symm hxy)
        simp only [cmpLoop, hx, hy, hlt, gt_iff_lt, hgt, if_true, if_false]
    · obtain ⟨z, hz1, hz2⟩ := hbefore i (le_refl _) (by omega)
      simp only [cmpLoop, hz1, hz2, lt_irrefl, gt_iff_lt, if_false]
      exact ih (i + 1) (by omega) (by omega) (fun j h1 h2 => hbefore j (by omega) h2)

/-- For well-formed vectors `operator<=>` returns the lexicographic comparison
of the live elements, the shorter vector first on a tie. -/
theorem Vector.operatorCmp_spec {α : Type} [LinearOrder α] (w : World α) (a b : Nat)
    (hwa : Vector.wf w.heap (w.objs a)) (hwb : Vector.wf w.heap (w.objs b)) :
    ∃ r, Vector.operatorCmp w a b = some r ∧
      (∀ i x y, i < min ((w.objs a).size_) ((w.objs b).size_) →
        Vector.index w a i = some x → Vector.index w b i = some y → x ≠ y →
        (∀ j, j < i → Vector.index w a j = Vector.index w b j) →
        r = if x < y then Ordering.lt else Ordering.gt) ∧
      ((∀ j, j < min ((w.objs a).size_) ((w.objs b).size_) →
          Vector.index w a j = Vector.index w b j) →
        ((w.objs a).size_ < (w.objs b).size_ → r = Ordering.lt) ∧
        ((w.objs b).size_ < (w.objs a).size_ → r = Ordering.gt) ∧
        (r = Ordering.eq ↔ (w.objs a).size_ = (w.objs b).size_)) ∧
      (r = Ordering.eq ↔ (w.objs a).size_ = (w.objs b).size_ ∧
        ∀ j, j < (w.objs a).size_ → Vector.index w a j = Vector.index w b j) := by
  have hma : min (w.objs a).size_ (w.objs b).size_ ≤ (w.objs a).size_ := min_le_left _ _
  have hmb : min (w.objs a).size_ (w.objs b).size_ ≤ (w.objs b).size_ := min_le_right _ _
  have hca := hwa.1
  have hcb := hwb.1
  have hdefa : ∀ j, j < min (w.objs a).size_ (w.objs b).size_ →
      ∃ x, Vector.index w a j = some x := fun j hj =>
    Vector.wf_index hwa (lt_of_lt_of_le hj (le_trans hma hca))
  have hdefb : ∀ j, j < min (w.objs a).size_ (w.objs b).size_ →
      ∃ x, Vector.index w b j = some x := fun j hj =>
    Vector.wf_index hwb (lt_of_lt_of_le hj (le_trans hmb hcb))
  by_cases hall : ∀ j, j < min (w.objs a).size_ (w.objs b).size_ →
      Vector.index w a j = Vector.index w b j
  · have hloop := cmpLoop_all_equal w.heap (w.objs a).data_ (w.objs b).data_
      (min (w.objs a).size_ (w.objs b).size_) 0 (fun j _ hj => by
        rw [Nat.zero_add] at hj
        obtain ⟨x, hx⟩ := hdefa j hj
        have hb := hall j hj
        rw [hx] at hb
        exact ⟨x, hx, hb.symm⟩)
    refine ⟨compare (w.objs a).size_ (w.objs b).size_, ?_, ?_, ?_, ?_⟩
    · simp only [Vector.operatorCmp, hloop]
    · intro i x y hi hx hy hxy _
      have := hall i hi
      rw [hx, hy] at this
      exact absurd (Option.some.inj this) hxy
    · intro _
      exact ⟨fun h => compare_lt_iff_lt.mpr h, fun h => compare_gt_iff_gt.mpr h,
        compare_eq_iff_eq⟩
    · rw [compare_eq_iff_eq]
      constructor
      · intro heq
        exact ⟨heq, fun j hj => hall j (by rw [← heq, min_self]; exact hj)⟩
      · intro h; exact h.1
  · have hex : ∃ t, t < min (w.objs a).size_ (w.objs b).size_ ∧
        Vector.index w a t ≠ Vector.index w b t := by
      by_contra hno
      exact hall (fun j hj => by
        by_contra hne
        exact hno ⟨j, hj, hne⟩)
    classical
    have htmin := Nat.find_spec hex
    have htleast := fun j (hj : j < Nat.find hex) => Nat.find_min hex hj
    set t := Nat.find hex with ht
    obtain ⟨x, hx⟩ := hdefa t htmin.1
    obtain ⟨y, hy⟩ := hdefb t htmin.1
    have hxy : x ≠ y := fun h => htmin.2 (by rw [hx, hy, h])
    have hbefore : ∀ j, j < t → Vector.index w a j = Vector.index w b j := by
      intro j hj
      by_contra hne
      exact htleast j hj ⟨lt_trans hj htmin.1, hne⟩
    have hloop := cmpLoop_first_diff w.heap (w.objs a).data_ (w.objs b).data_ t x y hx hy hxy
      (min (w.objs a).size_ (w.objs b).size_) 0 (Nat.zero_le _)
      (by rw [Nat.zero_add]; exact htmin.1) (fun j _ hj => by
        obtain ⟨z, hz⟩ := hdefa j (lt_trans hj htmin.1)
        have hb := hbefore j hj
        rw [hz] at hb
        exact ⟨z, hz, hb.symm⟩)
    have hres : Vector.operatorCmp w a b =
        some (if x < y then Ordering.lt else Ordering.gt) := by
      simp only [Vector.operatorCmp, hloop]
    refine ⟨_, hres, ?_, fun h => absurd h hall, ?_⟩
    · intro i x1 y1 hi hx1 hy1 hxy1 hbefore1
      have hit : i = t := by
        rcases Nat.lt_trichotomy i t with hlt | heq | hgt
        · have := hbefore i hlt
          rw [hx1, hy1] at this
          exact absurd (Option.some.inj this) hxy1
        · exact heq
        · exact absurd (hbefore1 t hgt) htmin.2
      subst hit
      rw [hx] at hx1; rw [hy] at hy1
      cases hx1; cases hy1
      rfl
    · constructor
      · intro heq
        split at heq <;> cases heq
      · intro h
        exfalso
        exact htmin.2 (h.2 t (lt_of_lt_of_le htmin.1 hma))

/-- C4: for well-formed vectors over a linearly ordered element type,
`a <=> b` returns; the first index below both sizes at which the elements
differ decides the result (`less` if `a[i] < b[i]`, `greater` otherwise); if
there is no such index the shorter vector orders first and the result is
`equal` exactly when the sizes are equal. -/
theorem C4_operatorCmp_contract {α : Type} [LinearOrder α] (w : World α) (a b : Nat)
    (hwa : Vector.wf w.heap (w.objs a)) (hwb : Vector.wf w.heap (w.objs b)) :
    ∃ r, Vector.operatorCmp w a b = some r ∧
      (∀ i x y, i < min (Vector.Size w a) (Vector.Size w b) →
        Vector.index w a i = some x → Vector.index w b i = some y → x ≠ y →
        (∀ j, j < i → Vector.index w a j = Vector.index w b j) →
        r = if x < y then Ordering.lt else Ordering.gt) ∧
      ((∀ j, j < min (Vector.Size w a) (Vector.Size w b) →
          Vector.index w a j = Vector.index w b j) →
        (Vector.Size w a < Vector.Size w b → r = Ordering.lt) ∧
        (Vector.Size w b < Vector.Size w a → r = Ordering.gt) ∧
        (r = Ordering.eq ↔ Vector.Size w a = Vector.Size w b)) ∧
      (r = Ordering.eq ↔ Vector.Size w a = Vector.Size w b ∧
        ∀ j, j < Vector.Size w a → Vector.index w a j = Vector.index w b j) := by
  unfold Vector.Size
  exact Vector.operatorCmp_spec w a b hwa hwb

theorem C4_operatorCmp_contract_witness :
    Vector.wf worldOrder.heap (worldOrder.objs 0) ∧
      Vector.wf worldOrder.heap (worldOrder.objs 1) ∧
      Vector.operatorCmp worldOrder 0 1 = some Ordering.lt := by
  have hwa : Vector.wf worldOrder.heap (worldOrder.objs 0) := by decide
  have hwb : Vector.wf worldOrder.heap (worldOrder.objs 1) := by decide
  obtain ⟨r, hr, hfirst, _, _⟩ := C4_operatorCmp_contract worldOrder 0 1 hwa hwb
  have hrt : r = Ordering.lt := by
    have := hfirst 2 3 4 (by decide) rfl rfl (by decide) (fun j hj => by
      interval_cases j <;> rfl)
    simpa using this
  rw [hrt] at hr
  exact ⟨hwa, hwb, hr⟩

theorem rethrowAfterDelete_null {α : Type} (w : World α) (this : Nat)
    (hnull : (w.objs this).data_ = none) : rethrowAfterDelete w this = .threw w := by
  simp [rethrowAfterDelete, hnull, Heap.deleteArray]

/-- The outcomes of the shared allocate-then-fill body, for a loop that only
stores into the fresh block: either the allocation throws and the handler
runs on the old `data_`, or the loop completes `m` of its `k` steps and the
body returns (`m = k`) or releases the fresh block and rethrows. -/
theorem allocateAndFill_cases {α : Type} (ops : ValueOps α) (w : World α) (this : Nat)
    (loop : World α → Result (Heap α)) (f : Nat → Option α) (k : Nat) (P : Nat → Prop)
    (hmax : (w.objs this).capacity_ ≤ maxArray)
    (hloop : ∀ h1 : Heap α,
      h1 = ⟨w.heap.blocks ++ [some (List.replicate (w.objs this).capacity_ ops.defaultInit)],
        w.heap.avail - (w.objs this).capacity_⟩ →
      ∃ m h2, m ≤ k ∧ P m ∧
        loop (World.setObj { w with heap := h1 } this
          { w.objs this with data_ := some w.heap.blocks.length }) =
          (if m = k then .ok h2 else .threw h2) ∧
        Stored f w.heap.blocks.length
          (List.replicate (w.objs this).capacity_ ops.defaultInit) 0 m h1 h2) :
    (¬ (w.objs this).capacity_ ≤ w.heap.avail ∧
      allocateAndFill ops w this loop = rethrowAfterDelete w this) ∨
    ((w.objs this).capacity_ ≤ w.heap.avail ∧ ∃ m h2, m ≤ k ∧ P m ∧
      Stored f w.heap.blocks.length
        (List.replicate (w.objs this).capacity_ ops.defaultInit) 0 m
        ⟨w.heap.blocks ++ [some (List.replicate (w.objs this).capacity_ ops.defaultInit)],
          w.heap.avail - (w.objs this).capacity_⟩ h2 ∧
      allocateAndFill ops w this loop =
        if m = k then
          .ok (World.setObj { w with heap := h2 } this
            { w.objs this with data_ := some w.heap.blocks.length })
        else
          .threw (World.setObj
            { w with heap := ⟨h2.blocks.set w.heap.blocks.length none,
                h2.avail + (w.objs this).capacity_⟩ } this
            { w.objs this with data_ := some w.heap.blocks.length })) := by
  by_cases hav : (w.objs this).capacity_ ≤ w.heap.avail
  swap
  · left
    refine ⟨hav, ?_⟩
    have hno : ¬ ((w.objs this).capacity_ ≤ w.heap.avail ∧
        (w.objs this).capacity_ ≤ maxArray) := fun h => hav h.1
    simp only [allocateAndFill, Heap.newArray_none ops w.heap _ hno]
  right
  refine ⟨hav, ?_⟩
  obtain ⟨m, h2, hmk, hP, hres, hst⟩ := hloop _ rfl
  refine ⟨m, h2, hmk, hP, hst, ?_⟩
  obtain ⟨_, _, _, ds1, hd1, hl1, _⟩ := hst
  simp only [allocateAndFill, Heap.newArray_eq ops w.heap _ hav hmax, hres]
  by_cases hm : m = k
  · simp only [if_pos hm]
    rfl
  · simp only [if_neg hm, rethrowAfterDelete, World.setObj_objs_same,
      Heap.deleteArray_some hd1, hl1, List.length_replicate]
    rfl

theorem rethrowAfterDelete_ne_ok {α : Type} (w : World α) (this : Nat) (w1 : World α) :
    rethrowAfterDelete w this ≠ .ok w1 := by
  unfold rethrowAfterDelete
  split <;> exact fun h => by cases h

theorem allocateAndFill_ok {α : Type} (ops : ValueOps α) (w : World α) (this : Nat)
    (loop : World α → Result (Heap α)) (f : Nat → Option α) (k : Nat) (P : Nat → Prop)
    (hmax : (w.objs this).capacity_ ≤ maxArray)
    (hloop : ∀ h1 : Heap α,
      h1 = ⟨w.heap.blocks ++ [some (List.replicate (w.objs this).capacity_ ops.defaultInit)],
        w.heap.avail - (w.objs this).capacity_⟩ →
      ∃ m h2, m ≤ k ∧ P m ∧
        loop (World.setObj { w with heap := h1 } this
          { w.objs this with data_ := some w.heap.blocks.length }) =
          (if m = k then .ok h2 else .threw h2) ∧
        Stored f w.heap.blocks.length
          (List.replicate (w.objs this).capacity_ ops.defaultInit) 0 m h1 h2)
    {w1 : World α} (hok : allocateAndFill ops w this loop = .ok w1) :
    Built ops f k w this w1 ∧ P k := by
  rcases allocateAndFill_cases ops w this loop f k P hmax hloop with
    ⟨_, h⟩ | ⟨hav, m, h2, hmk, hP, hst, h⟩
  · rw [h] at hok
    exact absurd hok (rethrowAfterDelete_ne_ok w this w1)
  · rw [h] at hok
    by_cases hm : m = k
    · rw [if_pos hm] at hok
      cases hok
      subst hm
      obtain ⟨hl, hav2, hfr, ds1, hd1, hl1, hds1⟩ := hst
      refine ⟨⟨rfl, ?_, ?_, ?_, ds1, hd1, by simpa using hl1, ?_, ?_⟩, hP⟩
      · simp only [World.setObj_heap, hl, List.length_append, List.length_singleton]
      · simp only [World.setObj_heap, hav2]; omega
      · intro b hb
        simp only [World.setObj_heap]
        rw [hfr b hb, Heap.block_append w.heap.blocks _ _ w.heap.avail b, if_neg hb]
      · intro j hj
        rw [hds1 j, if_pos (by omega)]
      · intro j hj hjc
        rw [hds1 j, if_neg (by omega)]
        simp [List.getElem?_replicate, hjc]
    · rw [if_neg hm] at hok; cases hok

/-- Whatever the loop, the allocate-then-fill body changes no `size_` and no
`capacity_`, and no object other than `this`. -/
theorem allocateAndFill_fields {α : Type} (ops : ValueOps α) (w : World α) (this : Nat)
    (loop : World α → Result (Heap α)) {w1 : World α}
    (hres : allocateAndFill ops w this loop = .ok w1 ∨
      allocateAndFill ops w this loop = .threw w1) :
    ∀ j, (w1.objs j).size_ = (w.objs j).size_ ∧
      (w1.objs j).capacity_ = (w.objs j).capacity_ ∧
      (j ≠ this → w1.objs j = w.objs j) := by
  have hset : ∀ (h : Heap α) (a : Nat) (j : Nat),
      (((World.setObj { w with heap := h } this
        { w.objs this with data_ := some a }).objs j).size_ = (w.objs j).size_ ∧
      ((World.setObj { w with heap := h } this
        { w.objs this with data_ := some a }).objs j).capacity_ = (w.objs j).capacity_ ∧
      (j ≠ this → (World.setObj { w with heap := h } this
        { w.objs this with data_ := some a }).objs j = w.objs j)) := by
    intro h a j
    by_cases hj : j = this
    · subst hj
      simp [World.setObj]
    · simp [World.setObj, hj]
  have hre : ∀ (w2 : World α), (rethrowAfterDelete w2 this = .ok w1 ∨
      rethrowAfterDelete w2 this = .threw w1) → w1.objs = w2.objs := by
    intro w2 h
    unfold rethrowAfterDelete at h
    split at h
    · rcases h with h | h <;> cases h
    · rcases h with h | h
      · cases h
      · cases h; rfl
  unfold allocateAndFill at hres
  split at hres
  · intro j
    rw [hre w hres]
    exact ⟨rfl, rfl, fun _ => rfl⟩
  · rename_i a h1 _
    dsimp only at hres
    split at hres
    · rcases hres with h | h <;> cases h
    · intro j
      rw [hre _ hres]
      exact hset _ a j
    · intro j
      rcases hres with h | h
      · cases h
        exact hset h1 a j
      · cases h

/-- The copy loop of the copy constructor and of copy-assignment, seen as a
loop of the allocate-then-fill body: it stores the source's slots into the
fresh block and stops early only at an element whose copy throws. -/
theorem copyBody_loop {α : Type} (ops : ValueOps α) (w : World α) (this other : Nat)
    (hne : this ≠ other) (hwo : Vector.wf w.heap (w.objs other))
    (hsz : (w.objs this).size_ = (w.objs other).size_)
    (hcap : (w.objs this).capacity_ = (w.objs other).capacity_) :
    ∀ h1 : Heap α,
      h1 = ⟨w.heap.blocks ++ [some (List.replicate (w.objs this).capacity_ ops.defaultInit)],
        w.heap.avail - (w.objs this).capacity_⟩ →
      ∃ m h2, m ≤ (w.objs other).size_ ∧
        ((∀ j x, j < m → Vector.index w other j = some x → ops.copyThrows x = false) ∧
          (m < (w.objs other).size_ →
            ∃ x, Vector.index w other m = some x ∧ ops.copyThrows x = true)) ∧
        (fun w1 : World α => copyLoop ops (w1.objs this).data_ (w1.objs other).data_
            (w1.objs this).size_ 0 w1.heap)
          (World.setObj { w with heap := h1 } this
            { w.objs this with data_ := some w.heap.blocks.length }) =
          (if m = (w.objs other).size_ then .ok h2 else .threw h2) ∧
        Stored (fun j => Vector.index w other j) w.heap.blocks.length
          (List.replicate (w.objs this).capacity_ ops.defaultInit) 0 m h1 h2 := by
  intro h1 hh1
  have hblk1 : ∀ b, h1.block b =
      if b = w.heap.blocks.length then
        some (List.replicate (w.objs this).capacity_ ops.defaultInit)
      else w.heap.block b := by
    intro b
    rw [hh1, Heap.block_append w.heap.blocks _ _ w.heap.avail b]
  have hda : h1.block w.heap.blocks.length =
      some (List.replicate (w.objs this).capacity_ ops.defaultInit) := by
    rw [hblk1, if_pos rfl]
  simp only [World.setObj_objs_same, World.setObj_heap,
    World.setObj_objs_ne _ _ _ (Ne.symm hne)]
  rw [hsz]
  cases hdata : (w.objs other).data_ with
  | none =>
    obtain ⟨_, hs0⟩ := Vector.wf_null hwo hdata
    refine ⟨0, h1, Nat.zero_le _, ⟨fun j x hj => by omega, fun h => by omega⟩, ?_,
      Stored.stored_refl _ _ _ 0 h1 hda⟩
    rw [hs0]
    rfl
  | some s =>
    obtain ⟨ss, hss, hlen⟩ := Vector.wf_block hwo hdata
    have hslt := Heap.block_lt hss
    have hsa : s ≠ w.heap.blocks.length := by omega
    have hs1 : h1.block s = some ss := by rw [hblk1 s, if_neg hsa]; exact hss
    have hso := hwo.1
    obtain ⟨m, h2, hmk, hres, hst, hnothrow, hthr⟩ :=
      copyLoop_spec ops s w.heap.blocks.length hsa (w.objs other).size_ 0 h1 ss _ hs1 hda
        (by omega) (by simp; omega)
    have hidx : ∀ j, Vector.index w other j = ss[j]? := by
      intro j
      unfold Vector.index
      rw [hdata, Heap.read_some hss]
    refine ⟨m, h2, hmk, ⟨?_, ?_⟩, hres, ?_⟩
    · intro j x hj hx
      rw [hidx] at hx
      exact hnothrow j x (Nat.zero_le _) (by omega) hx
    · intro hlt
      obtain ⟨x, hx, hxt⟩ := hthr hlt
      rw [Nat.zero_add] at hx
      exact ⟨x, by rw [hidx]; exact hx, hxt⟩
    · obtain ⟨hl, hav, hfr, ds1, hd1, hl1, hds1⟩ := hst
      refine ⟨hl, hav, hfr, ds1, hd1, hl1, fun j => ?_⟩
      rw [hds1 j]
      by_cases hc : 0 ≤ j ∧ j < 0 + m
      · rw [if_pos hc, if_pos hc]
        exact (hidx j).symm
      · rw [if_neg hc, if_neg hc]

theorem fillBody_loop {α : Type} (ops : ValueOps α) (w : World α) (this : Nat)
    (hsz : (w.objs this).size_ = (w.objs this).capacity_) :
    ∀ h1 : Heap α,
      h1 = ⟨w.heap.blocks ++ [some (List.replicate (w.objs this).capacity_ ops.defaultInit)],
        w.heap.avail - (w.objs this).capacity_⟩ →
      ∃ m h2, m ≤ (w.objs this).size_ ∧
        (ops.moveThrows ops.valueInit = false → m = (w.objs this).size_) ∧
        (fun w1 : World α => fillLoop ops (w1.objs this).data_ (w1.objs this).size_ 0 w1.heap)
          (World.setObj { w with heap := h1 } this
            { w.objs this with data_ := some w.heap.blocks.length }) =
          (if m = (w.objs this).size_ then .ok h2 else .threw h2) ∧
        Stored (fun _ => some ops.valueInit) w.heap.blocks.length
          (List.replicate (w.objs this).capacity_ ops.defaultInit) 0 m h1 h2 := by
  intro h1 hh1
  have hda : h1.block w.heap.blocks.length =
      some (List.replicate (w.objs this).capacity_ ops.defaultInit) := by
    rw [hh1, Heap.block_append w.heap.blocks _ _ w.heap.avail, if_pos rfl]
  simp only [World.setObj_objs_same, World.setObj_heap]
  obtain ⟨m, h2, hmk, hres, hst, hall⟩ :=
    fillLoop_spec ops w.heap.blocks.length (w.objs this).size_ 0 h1 _ hda (by simp; omega)
  exact ⟨m, h2, hmk, hall, hres, hst⟩

theorem listBody_loop {α : Type} (ops : ValueOps α) (w : World α) (this : Nat)
    (list : List α) (hcap : (w.objs this).capacity_ = list.length) :
    ∀ h1 : Heap α,
      h1 = ⟨w.heap.blocks ++ [some (List.replicate (w.objs this).capacity_ ops.defaultInit)],
        w.heap.avail - (w.objs this).capacity_⟩ →
      ∃ m h2, m ≤ list.length ∧
        ((∀ j x, j < m → list[j]? = some x → ops.copyThrows x = false) ∧
          (m < list.length → ∃ x, list[m]? = some x ∧ ops.copyThrows x = true)) ∧
        (fun w1 : World α => listLoop ops (w1.objs this).data_ list 0 w1.heap)
          (World.setObj { w with heap := h1 } this
            { w.objs this with data_ := some w.heap.blocks.length }) =
          (if m = list.length then .ok h2 else .threw h2) ∧
        Stored (fun j => list[j]?) w.heap.blocks.length
          (List.replicate (w.objs this).capacity_ ops.defaultInit) 0 m h1 h2 := by
  intro h1 hh1
  have hda : h1.block w.heap.blocks.length =
      some (List.replicate (w.objs this).capacity_ ops.defaultInit) := by
    rw [hh1, Heap.block_append w.heap.blocks _ _ w.heap.avail, if_pos rfl]
  simp only [World.setObj_objs_same, World.setObj_heap]
  obtain ⟨m, h2, hmk, hres, hst, hnothrow, hthr⟩ :=
    listLoop_spec ops w.heap.blocks.length list 0 h1 _ hda (by simp; omega)
  exact ⟨m, h2, hmk, ⟨hnothrow, hthr⟩, hres, hst⟩

theorem Frame.frame_refl {α : Type} (p : Option Nat) (h : Heap α) : Frame p h h :=
  fun _ _ _ => rfl

theorem Frame.weaken {α : Type} {h h1 : Heap α} (hf : Frame none h h1) (p : Option Nat) :
    Frame p h h1 :=
  fun b _ hb => hf b (fun h => by cases h) hb

theorem Frame.block {α : Type} {p : Option Nat} {h h1 : Heap α} (hf : Frame p h h1)
    {b : Nat} {ss : List α} (hb : h.block b = some ss) (hp : p ≠ some b) :
    h1.block b = some ss := by
  rw [hf b (fun h => hp h.symm) (Nat.ne_of_lt (Heap.block_lt hb))]
  exact hb

/-- A well-formed object whose buffer is not the one an operation works on is
still well formed after it. -/
theorem Frame.frame_wf {α : Type} {p : Option Nat} {h h1 : Heap α} (hf : Frame p h h1)
    {v : Vector} (hwf : Vector.wf h v) (hp : ∀ b, v.data_ = some b → p ≠ some b) :
    Vector.wf h1 v := by
  refine ⟨hwf.1, hwf.2.1, ?_⟩
  cases hdata : v.data_ with
  | none => exact (Vector.wf_null hwf hdata).1
  | some b =>
    obtain ⟨ss, hss, hlen⟩ := Vector.wf_block hwf hdata
    show (h1.block b).map List.length = some v.capacity_
    rw [hf.block hss (hp b hdata)]
    simp [hlen]

theorem Frame.read {α : Type} {p : Option Nat} {h h1 : Heap α} (hf : Frame p h h1)
    {v : Vector} (hwf : Vector.wf h v) (hp : ∀ b, v.data_ = some b → p ≠ some b)
    (i : Nat) : h1.read v.data_ i = h.read v.data_ i := by
  cases hdata : v.data_ with
  | none => rfl
  | some b =>
    obtain ⟨ss, hss, _⟩ := Vector.wf_block hwf hdata
    rw [Heap.read_some hss, Heap.read_some (hf.block hss (hp b hdata))]

theorem Built.this_eq {α : Type} {ops : ValueOps α} {f : Nat → Option α} {k : Nat}
    {w : World α} {this : Nat} {w1 : World α} (hb : Built ops f k w this w1) :
    w1.objs this = { w.objs this with data_ := some w.heap.blocks.length } := by
  rw [hb.1, World.setObj_objs_same]

theorem Built.other_eq {α : Type} {ops : ValueOps α} {f : Nat → Option α} {k : Nat}
    {w : World α} {this : Nat} {w1 : World α} (hb : Built ops f k w this w1)
    {j : Nat} (hj : j ≠ this) : w1.objs j = w.objs j := by
  rw [hb.1, World.setObj_objs_ne _ _ _ hj]

theorem Built.frame {α : Type} {ops : ValueOps α} {f : Nat → Option α} {k : Nat}
    {w : World α} {this : Nat} {w1 : World α} (hb : Built ops f k w this w1) :
    Frame none w.heap w1.heap :=
  fun b _ hbl => hb.2.2.2.1 b hbl

theorem Built.built_index_eq {α : Type} {ops : ValueOps α} {f : Nat → Option α} {k : Nat}
    {w : World α} {this : Nat} {w1 : World α} (hb : Built ops f k w this w1)
    {i : Nat} (hi : i < k) : Vector.index w1 this i = f i := by
  have hthis := hb.this_eq
  obtain ⟨_, _, _, _, ds1, hd1, _, hlive, _⟩ := hb
  unfold Vector.index
  rw [hthis]
  show w1.heap.read (some w.heap.blocks.length) i = _
  rw [Heap.read_some hd1, hlive i hi]

theorem Built.built_wf {α : Type} {ops : ValueOps α} {f : Nat → Option α} {k : Nat}
    {w : World α} {this : Nat} {w1 : World α} (hb : Built ops f k w this w1)
    (hsz : (w.objs this).size_ ≤ (w.objs this).capacity_)
    (hmax : (w.objs this).capacity_ ≤ maxArray) : Vector.wf w1.heap (w1.objs this) := by
  rw [hb.this_eq]
  obtain ⟨_, _, _, _, ds1, hd1, hl1, _, _⟩ := hb
  refine ⟨hsz, hmax, ?_⟩
  show (w1.heap.block w.heap.blocks.length).map List.length = some (w.objs this).capacity_
  simp [hd1, hl1]

/-- An object that does not share its buffer with `this` is untouched by an
operation on `this`. -/
theorem Touches.other {α : Type} {w : World α} {this : Nat} {w1 : World α}
    (ht : Touches w this w1) {y : Nat} (hy : y ≠ this)
    (hwy : Vector.wf w.heap (w.objs y))
    (hdis : ∀ b, (w.objs y).data_ = some b → (w.objs this).data_ ≠ some b) :
    w1.objs y = w.objs y ∧ Vector.wf w1.heap (w1.objs y) ∧
      ∀ i, Vector.index w1 y i = Vector.index w y i := by
  obtain ⟨hobjs, hfr, _, _⟩ := ht
  refine ⟨hobjs y hy, ?_, fun i => ?_⟩
  · rw [hobjs y hy]
    exact hfr.frame_wf hwy hdis
  · unfold Vector.index
    rw [hobjs y hy]
    exact hfr.read hwy hdis i

theorem Built.built_touches {α : Type} {ops : ValueOps α} {f : Nat → Option α} {k : Nat}
    {w : World α} {this : Nat} {w1 : World α} (hb : Built ops f k w this w1)
    (hsz : (w.objs this).size_ ≤ (w.objs this).capacity_)
    (hmax : (w.objs this).capacity_ ≤ maxArray) : Touches w this w1 :=
  ⟨fun _ hj => hb.other_eq hj, hb.frame.weaken _, hb.built_wf hsz hmax,
    Or.inr (Or.inl (by rw [hb.this_eq]))⟩

theorem Grown.grown_touches {α : Type} {ops : ValueOps α} {w : World α} {this n : Nat}
    {w1 : World α} (hg : Grown ops w this n w1)
    (hwf : Vector.wf w.heap (w.objs this)) (hlt : (w.objs this).capacity_ < n)
    (hmax : n ≤ maxArray) : Touches w this w1 := by
  refine ⟨fun j hj => ?_, hg.2.2.2.1, hg.grown_wf hwf hlt hmax, Or.inr (Or.inl ?_)⟩
  · rw [hg.1, World.setObj_objs_ne _ _ _ hj]
  · rw [hg.1, World.setObj_objs_same]

theorem Vector.Reserve_touches {α : Type} {ops : ValueOps α} {w : World α} {this n : Nat}
    (hwf : Vector.wf w.heap (w.objs this)) {w1 : World α}
    (hok : Vector.Reserve ops w this n = .ok w1) : Touches w this w1 := by
  by_cases hle : n ≤ (w.objs this).capacity_
  · rw [Vector.Reserve_noop ops w this n hle] at hok
    cases hok
    exact ⟨fun _ _ => rfl, Frame.frame_refl _ _, hwf, Or.inl rfl⟩
  · obtain ⟨hg, hmax⟩ := Vector.Reserve_ok_grown hwf (by omega) hok
    exact hg.grown_touches hwf (by omega) hmax

theorem Vector.PushBack_touches {α : Type} {ops : ValueOps α} {w : World α} {this : Nat}
    {x : α} (hwf : Vector.wf w.heap (w.objs this)) {w1 : World α}
    (hok : Vector.PushBack ops w this (.value x) = .ok w1) : Touches w this w1 := by
  obtain ⟨_, _, h3, _, _, h6, h7, h8, _⟩ := Vector.PushBack_ok hwf hok
  refine ⟨h7, h8, h6, ?_⟩
  rw [h3]
  split
  · exact Or.inl rfl
  · exact Or.inr (Or.inl rfl)

/-- A `PushBack` through any reference either runs into undefined behaviour
or does what `PushBack` of an outside object holding some value does; for a
reference to an outside object that value is the object's. -/
theorem Vector.PushBack_ref {α : Type} (ops : ValueOps α) (w : World α) (this : Nat)
    (r : Ref α) :
    Vector.PushBack ops w this r = .ub ∨
      ∃ x, (∀ y, r = .value y → x = y) ∧
        Vector.PushBack ops w this r = Vector.PushBack ops w this (.value x) := by
  cases r with
  | value x => exact Or.inr ⟨x, fun y hy => (by cases hy; rfl), rfl⟩
  | slot p i =>
    simp only [Vector.PushBack, Ref.read]
    generalize (if (w.objs this).size_ = (w.objs this).capacity_ then
      Vector.Reserve ops w this
        ((2 * (w.objs this).capacity_ + if (w.objs this).capacity_ = 0 then 1 else 0) %
          sizeMod)
      else Result.ok w) = g
    cases g with
    | ub => exact Or.inl rfl
    | threw w1 => exact Or.inr ⟨ops.defaultInit, fun y hy => (by cases hy), rfl⟩
    | ok w1 =>
      cases hr : w1.heap.read p i with
      | none => exact Or.inl (by simp only [hr])
      | some x => exact Or.inr ⟨x, fun y hy => (by cases hy), by simp only [hr]⟩

/-- A returning `PushBack` through any reference has pushed some value; for a
reference to an outside object that value is the object's. -/
theorem Vector.PushBack_ref_ok {α : Type} {ops : ValueOps α} {w : World α}
    {this : Nat} {r : Ref α} (hwf : Vector.wf w.heap (w.objs this)) {w1 : World α}
    (hok : Vector.PushBack ops w this r = .ok w1) :
    ∃ x, (∀ y, r = .value y → x = y) ∧ Pushed w this x w1 := by
  rcases Vector.PushBack_ref ops w this r with h | ⟨x, hx, h⟩
  · rw [h] at hok; cases hok
  · rw [h] at hok
    exact ⟨x, hx, Vector.PushBack_ok hwf hok⟩

theorem Vector.PushBack_ref_touches {α : Type} {ops : ValueOps α} {w : World α}
    {this : Nat} {r : Ref α} (hwf : Vector.wf w.heap (w.objs this)) {w1 : World α}
    (hok : Vector.PushBack ops w this r = .ok w1) : Touches w this w1 := by
  rcases Vector.PushBack_ref ops w this r with h | ⟨x, _, h⟩
  · rw [h] at hok; cases hok
  · rw [h] at hok
    exact Vector.PushBack_touches hwf hok

/-- When `PushBack` through any reference throws, the object it was called on
is still well formed and no other object has changed. -/
theorem Vector.PushBack_ref_threw {α : Type} {ops : ValueOps α} {w : World α}
    {this : Nat} {r : Ref α} (hwf : Vector.wf w.heap (w.objs this)) {w1 : World α}
    (hthrew : Vector.PushBack ops w this r = .threw w1) :
    Vector.wf w1.heap (w1.objs this) ∧ (∀ j, j ≠ this → w1.objs j = w.objs j) ∧
      (w1.objs this).size_ = (w.objs this).size_ := by
  rcases Vector.PushBack_ref ops w this r with h | ⟨x, _, h⟩
  · rw [h] at hthrew; cases hthrew
  · rw [h] at hthrew
    exact Vector.PushBack_threw hwf hthrew

/-- On a full vector, `PushBack` of a reference to one of the vector's own
elements never returns: when `Reserve` has succeeded the reference points into
the released buffer, and reading it is undefined behaviour. -/
theorem Vector.PushBack_own_element {α : Type} (ops : ValueOps α) (w : World α)
    (this i : Nat) (hwf : Vector.wf w.heap (w.objs this))
    (heq : (w.objs this).size_ = (w.objs this).capacity_) :
    Vector.PushBack ops w this (Vector.indexRef w this i) =
      match Vector.Reserve ops w this (growTo (w.objs this).capacity_) with
      | .ub => .ub
      | .threw w1 => .threw w1
      | .ok _ => .ub := by
  have hn := growTo_eq (w.objs this).capacity_ hwf.2.1
  have hgt := growTo_gt (w.objs this).capacity_
  cases hres : Vector.Reserve ops w this (growTo (w.objs this).capacity_) with
  | ub => simp only [Vector.PushBack, if_pos heq, hn, hres]
  | threw w1 => simp only [Vector.PushBack, if_pos heq, hn, hres]
  | ok w1 =>
    obtain ⟨hg, _⟩ := Vector.Reserve_ok_grown hwf hgt hres
    have hread : w1.heap.read (w.objs this).data_ i = none := by
      cases hd : (w.objs this).data_ with
      | none => rfl
      | some s =>
        have hb := hg.2.2.2.2.1 s hd
        simp only [Heap.read, hb]
    simp only [Vector.PushBack, Vector.indexRef, Ref.read, if_pos heq, hn, hres, hread]

theorem Vector.Clear_touches {α : Type} (w : World α) (this : Nat)
    (hwf : Vector.wf w.heap (w.objs this)) : Touches w this (Vector.Clear w this) := by
  unfold Vector.Clear
  refine ⟨fun j hj => World.setObj_objs_ne _ _ _ hj, Frame.frame_refl _ _, ?_, Or.inl ?_⟩
  · rw [World.setObj_objs_same]
    exact ⟨Nat.zero_le _, hwf.2.1, hwf.2.2⟩
  · rw [World.setObj_objs_same]

theorem Vector.PopBack_touches {α : Type} (w : World α) (this : Nat)
    (hwf : Vector.wf w.heap (w.objs this)) : Touches w this (Vector.PopBack w this) := by
  unfold Vector.PopBack
  split
  · refine ⟨fun j hj => World.setObj_objs_ne _ _ _ hj, Frame.frame_refl _ _, ?_, Or.inl ?_⟩
    · rw [World.setObj_objs_same]
      refine ⟨?_, hwf.2.1, hwf.2.2⟩
      show (w.objs this).size_ - 1 ≤ (w.objs this).capacity_
      have := hwf.1
      omega
    · rw [World.setObj_objs_same]
  · exact ⟨fun _ _ => rfl, Frame.frame_refl _ _, hwf, Or.inl rfl⟩

theorem Vector.indexAssign_ok {α : Type} {ops : ValueOps α} {w : World α} {this i : Nat}
    {x : α} {w1 : World α} (hok : Vector.indexAssign ops w this i x = .ok w1) :
    w1.objs = w.objs ∧ w1.heap.blocks.length = w.heap.blocks.length ∧
    w1.heap.avail = w.heap.avail ∧
    ∃ s ss, (w.objs this).data_ = some s ∧ w.heap.block s = some ss ∧ i < ss.length ∧
      w1.heap.block s = some (ss.set i x) ∧
      ∀ b, b ≠ s → w1.heap.block b = w.heap.block b := by
  unfold Vector.indexAssign at hok
  split at hok
  · cases hok
  · cases hdata : (w.objs this).data_ with
    | none => simp [hdata, Heap.write] at hok
    | some s =>
      rw [hdata] at hok
      cases hss : w.heap.block s with
      | none => simp [Heap.write, hss] at hok
      | some ss =>
        have hslt := Heap.block_lt hss
        by_cases hi : i < ss.length
        · rw [Heap.write_some hss hi] at hok
          cases hok
          refine ⟨rfl, by simp, rfl, s, ss, rfl, hss, hi, ?_, fun b hb => ?_⟩
          · show Heap.block ⟨w.heap.blocks.set s _, _⟩ s = _
            rw [Heap.block_set w.heap.blocks s _ _ w.heap.avail s hslt, if_pos rfl]
          · show Heap.block ⟨w.heap.blocks.set s _, _⟩ b = _
            rw [Heap.block_set w.heap.blocks s _ _ w.heap.avail b hslt, if_neg hb]
        · simp [Heap.write, hss, hi] at hok

theorem Vector.indexAssign_touches {α : Type} {ops : ValueOps α} {w : World α}
    {this i : Nat} {x : α} (hwf : Vector.wf w.heap (w.objs this)) {w1 : World α}
    (hok : Vector.indexAssign ops w this i x = .ok w1) : Touches w this w1 := by
  obtain ⟨hobjs, _, _, s, ss, hs, hss, hi, hs1, hfr⟩ := Vector.indexAssign_ok hok
  refine ⟨fun j _ => by rw [hobjs], fun b hb _ => hfr b (fun h => hb (by rw [h, hs])), ?_,
    Or.inl (by rw [hobjs])⟩
  rw [hobjs]
  refine ⟨hwf.1, hwf.2.1, ?_⟩
  obtain ⟨ss0, hss0, hlen⟩ := Vector.wf_block hwf hs
  rw [hss] at hss0
  cases hss0
  rw [hs]
  simp [hs1, hlen]

theorem allocateAndFill_succeeds {α : Type} (ops : ValueOps α) (w : World α) (this : Nat)
    (loop : World α → Result (Heap α)) (f : Nat → Option α) (k : Nat) (P : Nat → Prop)
    (hmax : (w.objs this).capacity_ ≤ maxArray)
    (hloop : ∀ h1 : Heap α,
      h1 = ⟨w.heap.blocks ++ [some (List.replicate (w.objs this).capacity_ ops.defaultInit)],
        w.heap.avail - (w.objs this).capacity_⟩ →
      ∃ m h2, m ≤ k ∧ P m ∧
        loop (World.setObj { w with heap := h1 } this
          { w.objs this with data_ := some w.heap.blocks.length }) =
          (if m = k then .ok h2 else .threw h2) ∧
        Stored f w.heap.blocks.length
          (List.replicate (w.objs this).capacity_ ops.defaultInit) 0 m h1 h2)
    (hav : (w.objs this).capacity_ ≤ w.heap.avail) (hP : ∀ m, m ≤ k → P m → m = k) :
    ∃ w1, allocateAndFill ops w this loop = .ok w1 := by
  rcases allocateAndFill_cases ops w this loop f k P hmax hloop with
    ⟨hno, _⟩ | ⟨_, m, h2, hmk, hPm, _, h⟩
  · exact absurd hav hno
  · rw [h, if_pos (hP m hmk hPm)]
    exact ⟨_, rfl⟩

/-- What a returning copy construction of `this` from `other` leaves. -/
theorem Vector.ctorCopy_ok {α : Type} {ops : ValueOps α} {w : World α} {this other : Nat}
    (hne : this ≠ other) (hwo : Vector.wf w.heap (w.objs other)) {w1 : World α}
    (hok : Vector.ctorCopy ops w this other = .ok w1) :
    w1.objs this = ⟨(w.objs other).size_, (w.objs other).capacity_,
      some w.heap.blocks.length⟩ ∧
    (∀ j, j ≠ this → w1.objs j = w.objs j) ∧
    Frame none w.heap w1.heap ∧
    Vector.wf w1.heap (w1.objs this) ∧
    (∀ i, i < (w.objs other).size_ → Vector.index w1 this i = Vector.index w other i) ∧
    w1.heap.blocks.length = w.heap.blocks.length + 1 ∧
    w1.heap.avail + (w.objs other).capacity_ = w.heap.avail := by
  set w0 : World α := w.setObj this
    { size_ := (w.objs other).size_, capacity_ := (w.objs other).capacity_, data_ := none }
    with hw0
  have hoth : w0.objs other = w.objs other := World.setObj_objs_ne _ _ _ (Ne.symm hne)
  have hthis : w0.objs this = ⟨(w.objs other).size_, (w.objs other).capacity_, none⟩ :=
    World.setObj_objs_same _ _ _
  have hwo0 : Vector.wf w0.heap (w0.objs other) := by rw [hoth]; exact hwo
  have hsz : (w0.objs this).size_ = (w0.objs other).size_ := by rw [hthis, hoth]
  have hcap : (w0.objs this).capacity_ = (w0.objs other).capacity_ := by rw [hthis, hoth]
  have hmax : (w0.objs this).capacity_ ≤ maxArray := by rw [hcap]; exact hwo0.2.1
  have hsc : (w0.objs this).size_ ≤ (w0.objs this).capacity_ := by
    rw [hsz, hcap]; exact hwo0.1
  have hok0 : allocateAndFill ops w0 this
      (fun w1 => copyLoop ops (w1.objs this).data_ (w1.objs other).data_
        (w1.objs this).size_ 0 w1.heap) = .ok w1 := hok
  obtain ⟨hb, _⟩ := allocateAndFill_ok ops w0 this
    (fun w1 => copyLoop ops (w1.objs this).data_ (w1.objs other).data_
      (w1.objs this).size_ 0 w1.heap)
    (fun j => Vector.index w0 other j) (w0.objs other).size_
    (fun m => (∀ j x, j < m → Vector.index w0 other j = some x → ops.copyThrows x = false) ∧
      (m < (w0.objs other).size_ →
        ∃ x, Vector.index w0 other m = some x ∧ ops.copyThrows x = true))
    hmax (copyBody_loop ops w0 this other hne hwo0 hsz hcap) hok0
  have hidx : ∀ i, Vector.index w0 other i = Vector.index w other i := by
    intro i
    unfold Vector.index
    rw [hoth]
    rfl
  refine ⟨?_, ?_, hb.frame, hb.built_wf hsc hmax, ?_, hb.2.1, ?_⟩
  · rw [hb.this_eq, hthis]
    rfl
  · intro j hj
    rw [hb.other_eq hj]
    exact World.setObj_objs_ne _ _ _ hj
  · intro i hi
    rw [hb.built_index_eq (by rw [hoth]; exact hi), hidx]
  · have := hb.2.2.1
    rw [hcap, hoth] at this
    exact this

theorem Vector.ctorCopy_succeeds {α : Type} (ops : ValueOps α) (w : World α)
    (this other : Nat) (hne : this ≠ other) (hwo : Vector.wf w.heap (w.objs other))
    (hav : (w.objs other).capacity_ ≤ w.heap.avail)
    (hnt : ∀ j x, j < (w.objs other).size_ → Vector.index w other j = some x →
      ops.copyThrows x = false) :
    ∃ w1, Vector.ctorCopy ops w this other = .ok w1 := by
  set w0 : World α := w.setObj this
    { size_ := (w.objs other).size_, capacity_ := (w.objs other).capacity_, data_ := none }
    with hw0
  have hoth : w0.objs other = w.objs other := World.setObj_objs_ne _ _ _ (Ne.symm hne)
  have hthis : w0.objs this = ⟨(w.objs other).size_, (w.objs other).capacity_, none⟩ :=
    World.setObj_objs_same _ _ _
  have hwo0 : Vector.wf w0.heap (w0.objs other) := by rw [hoth]; exact hwo
  have hsz : (w0.objs this).size_ = (w0.objs other).size_ := by rw [hthis, hoth]
  have hcap : (w0.objs this).capacity_ = (w0.objs other).capacity_ := by rw [hthis, hoth]
  have hmax : (w0.objs this).capacity_ ≤ maxArray := by rw [hcap]; exact hwo0.2.1
  have hidx : ∀ i, Vector.index w0 other i = Vector.index w other i := by
    intro i
    unfold Vector.index
    rw [hoth]
    rfl
  show ∃ w1, allocateAndFill ops w0 this
      (fun w1 => copyLoop ops (w1.objs this).data_ (w1.objs other).data_
        (w1.objs this).size_ 0 w1.heap) = .ok w1
  apply allocateAndFill_succeeds ops w0 this
    (fun w1 => copyLoop ops (w1.objs this).data_ (w1.objs other).data_
      (w1.objs this).size_ 0 w1.heap)
    (fun j => Vector.index w0 other j) (w0.objs other).size_
    (fun m => (∀ j x, j < m → Vector.index w0 other j = some x → ops.copyThrows x = false) ∧
      (m < (w0.objs other).size_ →
        ∃ x, Vector.index w0 other m = some x ∧ ops.copyThrows x = true))
    hmax (copyBody_loop ops w0 this other hne hwo0 hsz hcap)
  · rw [hcap, hoth]; exact hav
  · rintro m hmk ⟨_, hthr⟩
    by_contra hm
    obtain ⟨x, hx, hxt⟩ := hthr (lt_of_le_of_ne hmk hm)
    rw [hidx] at hx
    have := hnt m x (by rw [hoth] at hmk; exact lt_of_le_of_ne hmk (by rw [hoth] at hm; exact hm)) hx
    rw [this] at hxt
    cases hxt

theorem Touches.unaffected {α : Type} {w : World α} {x : Nat} {w1 : World α}
    (ht : Touches w x w1) {y : Nat} (hy : y ≠ x)
    (hwy : Vector.wf w.heap (w.objs y))
    (hdis : ∀ b, (w.objs y).data_ = some b → (w.objs x).data_ ≠ some b) :
    Unaffected w w1 y := by
  obtain ⟨h1, _, h3⟩ := ht.other hy hwy hdis
  exact ⟨by unfold Vector.Size; rw [h1], fun i _ => h3 i⟩

theorem mutationLeaves_of_disjoint {α : Type} (ops : ValueOps α) (w : World α) (x y : Nat)
    (hy : y ≠ x) (hwx : Vector.wf w.heap (w.objs x)) (hwy : Vector.wf w.heap (w.objs y))
    (hdis : ∀ b, (w.objs y).data_ = some b → (w.objs x).data_ ≠ some b) :
    MutationLeaves ops w x y :=
  ⟨fun _ _ _ hok => (Vector.indexAssign_touches hwx hok).unaffected hy hwy hdis,
    fun _ _ hok => (Vector.PushBack_ref_touches hwx hok).unaffected hy hwy hdis,
    (Vector.PopBack_touches w x hwx).unaffected hy hwy hdis,
    (Vector.Clear_touches w x hwx).unaffected hy hwy hdis,
    fun _ _ hok => (Vector.Reserve_touches hwx hok).unaffected hy hwy hdis⟩

/-- C5: copy-constructing `this` from a well-formed `other` returns whenever
the allocation succeeds and no element copy throws; when it returns, `this`
has the size, the capacity and the live elements of `other` (so that
`this == other`), `other` is unchanged, and every later mutation of either
leaves the size and the live elements of the other unchanged. -/
theorem C5_copy_constructor {α : Type} [DecidableEq α] (ops : ValueOps α) (w : World α)
    (this other : Nat) (hne : this ≠ other) (hwo : Vector.wf w.heap (w.objs other)) :
    (Vector.Capacity w other ≤ w.heap.avail →
      (∀ j x, j < Vector.Size w other → Vector.index w other j = some x →
        ops.copyThrows x = false) →
      ∃ w1, Vector.ctorCopy ops w this other = .ok w1) ∧
    ∀ w1, Vector.ctorCopy ops w this other = .ok w1 →
      Vector.Size w1 this = Vector.Size w other ∧
      Vector.Capacity w1 this = Vector.Capacity w other ∧
      (∀ i, i < Vector.Size w other → Vector.index w1 this i = Vector.index w other i) ∧
      Vector.operatorEq w1 this other = some true ∧
      w1.objs other = w.objs other ∧
      (∀ i, Vector.index w1 other i = Vector.index w other i) ∧
      MutationLeaves ops w1 this other ∧ MutationLeaves ops w1 other this := by
  refine ⟨fun hav hnt => Vector.ctorCopy_succeeds ops w this other hne hwo hav hnt,
    fun w1 hok => ?_⟩
  obtain ⟨hthis, hoth, hfr, hwf1, hidx, hlen, _⟩ := Vector.ctorCopy_ok hne hwo hok
  have hother := hoth other (Ne.symm hne)
  have hnone : ∀ b, (w.objs other).data_ = some b → (none : Option Nat) ≠ some b :=
    fun _ _ h => by cases h
  have hwo1 : Vector.wf w1.heap (w1.objs other) := by
    rw [hother]; exact hfr.frame_wf hwo hnone
  have hidxo : ∀ i, Vector.index w1 other i = Vector.index w other i := by
    intro i
    unfold Vector.index
    rw [hother]
    exact hfr.read hwo hnone i
  have hdis : ∀ b, (w1.objs other).data_ = some b → (w1.objs this).data_ ≠ some b := by
    intro b hb hb1
    rw [hother] at hb
    rw [hthis] at hb1
    obtain ⟨ss, hss, _⟩ := Vector.wf_block hwo hb
    have := Heap.block_lt hss
    have hbl : w.heap.blocks.length = b := Option.some.inj hb1
    omega
  have hdis1 : ∀ b, (w1.objs this).data_ = some b → (w1.objs other).data_ ≠ some b :=
    fun b hb hb1 => hdis b hb1 hb
  have hsize : (w1.objs this).size_ = (w.objs other).size_ := by rw [hthis]
  refine ⟨hsize, by unfold Vector.Capacity; rw [hthis], hidx, ?_, hother, hidxo,
    mutationLeaves_of_disjoint ops w1 this other (Ne.symm hne) hwf1 hwo1 hdis,
    mutationLeaves_of_disjoint ops w1 other this hne hwo1 hwf1 hdis1⟩
  obtain ⟨r, hr, hiff⟩ := Vector.operatorEq_spec w1 this other hwf1 hwo1
  have hrt : r = true := by
    refine hiff.2 ⟨by rw [hsize, hother], fun i hi => ?_⟩
    rw [hidx i (by rw [← hsize]; exact hi), hidxo]
  rw [hr, hrt]

theorem C5_copy_constructor_witness :
    (2 : Nat) ≠ 1 ∧ Vector.wf worldOne.heap (worldOne.objs 1) ∧
      ∃ w1, Vector.ctorCopy intOps worldOne 2 1 = .ok w1 ∧
        Vector.Size w1 2 = 3 ∧ Vector.operatorEq w1 2 1 = some true := by
  have hwf : Vector.wf worldOne.heap (worldOne.objs 1) := by decide
  obtain ⟨hex, hall⟩ := C5_copy_constructor intOps worldOne 2 1 (by decide) hwf
  obtain ⟨w1, hok⟩ := hex (by decide) (fun _ _ _ _ => rfl)
  obtain ⟨h1, _, _, h4, _⟩ := hall w1 hok
  exact ⟨by decide, hwf, w1, hok, h1, h4⟩

/-- Releasing the buffer of a well-formed object: defined, gives the slots
back, and touches no other block. -/
theorem Vector.wf_delete {α : Type} {h : Heap α} {v : Vector} (hwf : Vector.wf h v) :
    ∃ h1, h.deleteArray v.data_ = some h1 ∧ h1.blocks.length = h.blocks.length ∧
      h1.avail = h.avail + v.capacity_ ∧
      (∀ b, some b ≠ v.data_ → h1.block b = h.block b) ∧
      (∀ b, v.data_ = some b → h1.block b = none) := by
  cases hdata : v.data_ with
  | none =>
    obtain ⟨hc, _⟩ := Vector.wf_null hwf hdata
    exact ⟨h, rfl, rfl, by rw [hc]; rfl, fun _ _ => rfl, fun b hb => by cases hb⟩
  | some s =>
    obtain ⟨ss, hss, hlen⟩ := Vector.wf_block hwf hdata
    have hslt := Heap.block_lt hss
    refine ⟨_, Heap.deleteArray_some hss, by simp, by simp [hlen], fun b hb => ?_,
      fun b hb => ?_⟩
    · have hbs : b ≠ s := fun h => hb (by rw [h])
      rw [Heap.block_set h.blocks s none _ h.avail b hslt, if_neg hbs]
    · cases hb
      rw [Heap.block_set h.blocks s none _ h.avail s hslt, if_pos rfl]

/-- `ctorMove` for distinct objects: `this` takes over the members of `other`,
`other` becomes empty, the heap is not touched. -/
theorem Vector.ctorMove_eq {α : Type} (w : World α) (this other : Nat) (hne : this ≠ other) :
    (Vector.ctorMove w this other).heap = w.heap ∧
    (Vector.ctorMove w this other).objs this = w.objs other ∧
    (Vector.ctorMove w this other).objs other = ⟨0, 0, none⟩ ∧
    ∀ j, j ≠ this → j ≠ other → (Vector.ctorMove w this other).objs j = w.objs j := by
  unfold Vector.ctorMove
  refine ⟨rfl, ?_, ?_, fun j hj hjo => ?_⟩
  · simp [World.setObj, hne]
  · simp [World.setObj]
  · simp [World.setObj, hj, hjo]

/-- `assignMove` for distinct well-formed objects: the old buffer of `this` is
released, `this` takes over the members of `other`, `other` becomes empty. -/
theorem Vector.assignMove_eq {α : Type} (w : World α) (this other : Nat) (hne : this ≠ other)
    (hwt : Vector.wf w.heap (w.objs this)) :
    ∃ w1, Vector.assignMove w this other = some w1 ∧
      w1.objs this = w.objs other ∧ w1.objs other = ⟨0, 0, none⟩ ∧
      (∀ j, j ≠ this → j ≠ other → w1.objs j = w.objs j) ∧
      w1.heap.blocks.length = w.heap.blocks.length ∧
      (∀ b, some b ≠ (w.objs this).data_ → w1.heap.block b = w.heap.block b) ∧
      (∀ b, (w.objs this).data_ = some b → w1.heap.block b = none) := by
  obtain ⟨h1, hdel, hlen, _, hfr, hrel⟩ := Vector.wf_delete hwt
  refine ⟨(World.setObj { w with heap := h1 } this
      { size_ := (w.objs other).size_, capacity_ := (w.objs other).capacity_,
        data_ := (w.objs other).data_ }).setObj other ⟨0, 0, none⟩,
    by simp only [Vector.assignMove, ne_eq, hne, not_false_eq_true, if_true, hdel],
    ?_, ?_, fun j hj hjo => ?_, hlen, hfr, hrel⟩
  · simp [World.setObj, hne]
  · simp [World.setObj]
  · simp [World.setObj, hj, hjo]

/-- C6: for distinct objects, move construction gives `this` the size, the
capacity, the buffer and the elements `other` had and leaves `other` with
size 0, capacity 0 and a null buffer; move assignment does the same for
well-formed objects that do not share a buffer; and move-assigning an object
to itself returns the world unchanged. -/
theorem C6_move {α : Type} (w : World α) (this other : Nat) (hne : this ≠ other)
    (hwt : Vector.wf w.heap (w.objs this)) (hwo : Vector.wf w.heap (w.objs other))
    (hdis : ∀ b, (w.objs other).data_ = some b → (w.objs this).data_ ≠ some b) :
    (Vector.Size (Vector.ctorMove w this other) this = Vector.Size w other ∧
      Vector.Capacity (Vector.ctorMove w this other) this = Vector.Capacity w other ∧
      (∀ i, Vector.index (Vector.ctorMove w this other) this i = Vector.index w other i) ∧
      Vector.Size (Vector.ctorMove w this other) other = 0 ∧
      Vector.Capacity (Vector.ctorMove w this other) other = 0 ∧
      Vector.Data (Vector.ctorMove w this other) other = none) ∧
    (∃ w1, Vector.assignMove w this other = some w1 ∧
      Vector.Size w1 this = Vector.Size w other ∧
      Vector.Capacity w1 this = Vector.Capacity w other ∧
      (∀ i, Vector.index w1 this i = Vector.index w other i) ∧
      Vector.Size w1 other = 0 ∧ Vector.Capacity w1 other = 0 ∧
      Vector.Data w1 other = none) ∧
    Vector.assignMove w this this = some w := by
  refine ⟨?_, ?_, by simp [Vector.assignMove]⟩
  · obtain ⟨hh, ht, ho, _⟩ := Vector.ctorMove_eq w this other hne
    unfold Vector.Size Vector.Capacity Vector.Data Vector.index
    rw [ht, ho, hh]
    exact ⟨rfl, rfl, fun _ => rfl, rfl, rfl, rfl⟩
  · obtain ⟨w1, hw1, ht, ho, _, _, hfr, _⟩ := Vector.assignMove_eq w this other hne hwt
    refine ⟨w1, hw1, ?_⟩
    unfold Vector.Size Vector.Capacity Vector.Data Vector.index
    rw [ht, ho]
    refine ⟨rfl, rfl, fun i => ?_, rfl, rfl, rfl⟩
    cases hdata : (w.objs other).data_ with
    | none => rfl
    | some b =>
      obtain ⟨ss, hss, _⟩ := Vector.wf_block hwo hdata
      have hb1 : w1.heap.block b = some ss := by
        rw [hfr b (fun h => hdis b hdata h.symm)]
        exact hss
      rw [Heap.read_some hb1, Heap.read_some hss]

theorem C6_move_witness :
    (0 : Nat) ≠ 1 ∧ Vector.wf worldPair.heap (worldPair.objs 0) ∧
      Vector.wf worldPair.heap (worldPair.objs 1) ∧
      ∃ w1, Vector.assignMove worldPair 0 1 = some w1 ∧ Vector.Capacity w1 0 = 5 ∧
        Vector.index w1 0 2 = some 3 ∧ Vector.Data w1 1 = none := by
  have hwa : Vector.wf worldPair.heap (worldPair.objs 0) := by decide
  have hwb : Vector.wf worldPair.heap (worldPair.objs 1) := by decide
  obtain ⟨_, ⟨w1, hw1, _, h2, h3, _, _, h6⟩, _⟩ :=
    C6_move worldPair 0 1 (by decide) hwa hwb (by decide)
  exact ⟨by decide, hwa, hwb, w1, hw1, h2, by rw [h3]; rfl, h6⟩

/-- The world copy-assignment works in after releasing the old buffer of
`this` and copying the size and capacity of `other`. -/
theorem Vector.assignCopy_setup {α : Type} (ops : ValueOps α) (w : World α)
    (this other : Nat) (hne : this ≠ other) (hwt : Vector.wf w.heap (w.objs this))
    (hwo : Vector.wf w.heap (w.objs other))
    (hdis : ∀ b, (w.objs other).data_ = some b → (w.objs this).data_ ≠ some b) :
    ∃ w0 : World α,
      Vector.assignCopy ops w this other = allocateAndFill ops w0 this
        (fun w1 => copyLoop ops (w1.objs this).data_ (w1.objs other).data_
          (w1.objs this).size_ 0 w1.heap) ∧
      w0.objs this = { w.objs this with
        size_ := (w.objs other).size_, capacity_ := (w.objs other).capacity_ } ∧
      (∀ j, j ≠ this → w0.objs j = w.objs j) ∧
      w0.heap.blocks.length = w.heap.blocks.length ∧
      w0.heap.avail = w.heap.avail + (w.objs this).capacity_ ∧
      (∀ b, some b ≠ (w.objs this).data_ → w0.heap.block b = w.heap.block b) ∧
      Vector.wf w0.heap (w0.objs other) ∧
      (∀ i, Vector.index w0 other i = Vector.index w other i) := by
  obtain ⟨h1, hdel, hlen, hav, hfr, _⟩ := Vector.wf_delete hwt
  have hframe : Frame (w.objs this).data_ w.heap h1 := fun b hb _ => hfr b hb
  refine ⟨World.setObj { w with heap := h1 } this { w.objs this with
      size_ := (w.objs other).size_, capacity_ := (w.objs other).capacity_ }, ?_,
    World.setObj_objs_same _ _ _, fun j hj => World.setObj_objs_ne _ _ _ hj, hlen, hav, hfr,
    ?_, fun i => ?_⟩
  · simp only [Vector.assignCopy, ne_eq, hne, not_false_eq_true, if_true, hdel]
  · rw [World.setObj_objs_ne _ _ _ (Ne.symm hne)]
    exact hframe.frame_wf hwo hdis
  · unfold Vector.index
    rw [World.setObj_objs_ne _ _ _ (Ne.symm hne)]
    exact hframe.read hwo hdis i

/-- What a returning copy-assignment of `other` to a distinct `this` leaves. -/
theorem Vector.assignCopy_ok {α : Type} {ops : ValueOps α} {w : World α}
    {this other : Nat} (hne : this ≠ other) (hwt : Vector.wf w.heap (w.objs this))
    (hwo : Vector.wf w.heap (w.objs other))
    (hdis : ∀ b, (w.objs other).data_ = some b → (w.objs this).data_ ≠ some b)
    {w1 : World α} (hok : Vector.assignCopy ops w this other = .ok w1) :
    w1.objs this = ⟨(w.objs other).size_, (w.objs other).capacity_,
      some w.heap.blocks.length⟩ ∧
    (∀ j, j ≠ this → w1.objs j = w.objs j) ∧
    Frame (w.objs this).data_ w.heap w1.heap ∧
    Vector.wf w1.heap (w1.objs this) ∧
    (∀ i, i < (w.objs other).size_ → Vector.index w1 this i = Vector.index w other i) := by
  obtain ⟨w0, heq, hthis, hoth, hlen, _, hfr, hwo0, hidx⟩ :=
    Vector.assignCopy_setup ops w this other hne hwt hwo hdis
  rw [heq] at hok
  have ho := hoth other (Ne.symm hne)
  have hsz : (w0.objs this).size_ = (w0.objs other).size_ := by rw [hthis, ho]
  have hcap : (w0.objs this).capacity_ = (w0.objs other).capacity_ := by rw [hthis, ho]
  have hmax : (w0.objs this).capacity_ ≤ maxArray := by rw [hcap]; exact hwo0.2.1
  have hsc : (w0.objs this).size_ ≤ (w0.objs this).capacity_ := by
    rw [hsz, hcap]; exact hwo0.1
  obtain ⟨hb, _⟩ := allocateAndFill_ok ops w0 this
    (fun w1 => copyLoop ops (w1.objs this).data_ (w1.objs other).data_
      (w1.objs this).size_ 0 w1.heap)
    (fun j => Vector.index w0 other j) (w0.objs other).size_
    (fun m => (∀ j x, j < m → Vector.index w0 other j = some x → ops.copyThrows x = false) ∧
      (m < (w0.objs other).size_ →
        ∃ x, Vector.index w0 other m = some x ∧ ops.copyThrows x = true))
    hmax (copyBody_loop ops w0 this other hne hwo0 hsz hcap) hok
  refine ⟨?_, fun j hj => ?_, fun b hbp hbl => ?_, hb.built_wf hsc hmax, fun i hi => ?_⟩
  · rw [hb.this_eq, hthis, hlen]
  · rw [hb.other_eq hj, hoth j hj]
  · rw [hb.frame b (fun h => by cases h) (by rw [hlen]; exact hbl), hfr b hbp]
  · rw [hb.built_index_eq (by rw [ho]; exact hi), hidx]

theorem Vector.assignCopy_succeeds {α : Type} (ops : ValueOps α) (w : World α)
    (this other : Nat) (hne : this ≠ other) (hwt : Vector.wf w.heap (w.objs this))
    (hwo : Vector.wf w.heap (w.objs other))
    (hdis : ∀ b, (w.objs other).data_ = some b → (w.objs this).data_ ≠ some b)
    (hav : (w.objs other).capacity_ ≤ w.heap.avail + (w.objs this).capacity_)
    (hnt : ∀ j x, j < (w.objs other).size_ → Vector.index w other j = some x →
      ops.copyThrows x = false) :
    ∃ w1, Vector.assignCopy ops w this other = .ok w1 := by
  obtain ⟨w0, heq, hthis, hoth, hlen, hav0, hfr, hwo0, hidx⟩ :=
    Vector.assignCopy_setup ops w this other hne hwt hwo hdis
  rw [heq]
  have ho := hoth other (Ne.symm hne)
  have hsz : (w0.objs this).size_ = (w0.objs other).size_ := by rw [hthis, ho]
  have hcap : (w0.objs this).capacity_ = (w0.objs other).capacity_ := by rw [hthis, ho]
  have hmax : (w0.objs this).capacity_ ≤ maxArray := by rw [hcap]; exact hwo0.2.1
  apply allocateAndFill_succeeds ops w0 this
    (fun w1 => copyLoop ops (w1.objs this).data_ (w1.objs other).data_
      (w1.objs this).size_ 0 w1.heap)
    (fun j => Vector.index w0 other j) (w0.objs other).size_
    (fun m => (∀ j x, j < m → Vector.index w0 other j = some x → ops.copyThrows x = false) ∧
      (m < (w0.objs other).size_ →
        ∃ x, Vector.index w0 other m = some x ∧ ops.copyThrows x = true))
    hmax (copyBody_loop ops w0 this other hne hwo0 hsz hcap)
  · rw [hcap, ho, hav0]; exact hav
  · rintro m hmk ⟨_, hthr⟩
    by_contra hm
    obtain ⟨x, hx, hxt⟩ := hthr (lt_of_le_of_ne hmk hm)
    rw [hidx] at hx
    rw [ho] at hmk hm
    have := hnt m x (lt_of_le_of_ne hmk hm) hx
    rw [this] at hxt
    cases hxt

/-- C7: copy-assigning a well-formed `other` to a distinct well-formed `this`
that does not share its buffer returns whenever the allocation succeeds and
no element copy throws; when it returns, `this` has the size, the capacity
and the live elements of `other` (so that `this == other`) and `other` is
unchanged; copy-assigning an object to itself returns the world unchanged. -/
theorem C7_copy_assignment {α : Type} [DecidableEq α] (ops : ValueOps α) (w : World α)
    (this other : Nat) (hne : this ≠ other) (hwt : Vector.wf w.heap (w.objs this))
    (hwo : Vector.wf w.heap (w.objs other))
    (hdis : ∀ b, (w.objs other).data_ = some b → (w.objs this).data_ ≠ some b) :
    (Vector.Capacity w other ≤ w.heap.avail + Vector.Capacity w this →
      (∀ j x, j < Vector.Size w other → Vector.index w other j = some x →
        ops.copyThrows x = false) →
      ∃ w1, Vector.assignCopy ops w this other = .ok w1) ∧
    (∀ w1, Vector.assignCopy ops w this other = .ok w1 →
      Vector.Size w1 this = Vector.Size w other ∧
      Vector.Capacity w1 this = Vector.Capacity w other ∧
      (∀ i, i < Vector.Size w other → Vector.index w1 this i = Vector.index w other i) ∧
      Vector.operatorEq w1 this other = some true ∧
      w1.objs other = w.objs other ∧
      (∀ i, Vector.index w1 other i = Vector.index w other i)) ∧
    Vector.assignCopy ops w this this = .ok w := by
  refine ⟨fun hav hnt => Vector.assignCopy_succeeds ops w this other hne hwt hwo hdis hav hnt,
    fun w1 hok => ?_, by simp [Vector.assignCopy]⟩
  obtain ⟨hthis, hoth, hfr, hwf1, hidx⟩ := Vector.assignCopy_ok hne hwt hwo hdis hok
  have hother := hoth other (Ne.symm hne)
  have hwo1 : Vector.wf w1.heap (w1.objs other) := by
    rw [hother]; exact hfr.frame_wf hwo hdis
  have hidxo : ∀ i, Vector.index w1 other i = Vector.index w other i := by
    intro i
    unfold Vector.index
    rw [hother]
    exact hfr.read hwo hdis i
  have hsize : (w1.objs this).size_ = (w.objs other).size_ := by rw [hthis]
  refine ⟨hsize, by unfold Vector.Capacity; rw [hthis], hidx, ?_, hother, hidxo⟩
  obtain ⟨r, hr, hiff⟩ := Vector.operatorEq_spec w1 this other hwf1 hwo1
  have hrt : r = true := by
    refine hiff.2 ⟨by rw [hsize, hother], fun i hi => ?_⟩
    rw [hidx i (by rw [← hsize]; exact hi), hidxo]
  rw [hr, hrt]

theorem C7_copy_assignment_witness :
    (0 : Nat) ≠ 1 ∧ Vector.wf worldPair.heap (worldPair.objs 0) ∧
      Vector.wf worldPair.heap (worldPair.objs 1) ∧
      ∃ w1, Vector.assignCopy intOps worldPair 0 1 = .ok w1 ∧
        Vector.Capacity w1 0 = 5 ∧ Vector.operatorEq w1 0 1 = some true := by
  have hwa : Vector.wf worldPair.heap (worldPair.objs 0) := by decide
  have hwb : Vector.wf worldPair.heap (worldPair.objs 1) := by decide
  obtain ⟨hex, hall, _⟩ :=
    C7_copy_assignment intOps worldPair 0 1 (by decide) hwa hwb (by decide)
  obtain ⟨w1, hok⟩ := hex (by decide) (fun _ _ _ _ => rfl)
  obtain ⟨_, h2, _, h4, _⟩ := hall w1 hok
  exact ⟨by decide, hwa, hwb, w1, hok, h2, h4⟩

theorem Doubled.push {k c : Nat} (hd : Doubled k c) :
    Doubled (k + 1) (if k < c then c else growTo c) := by
  rcases hd with ⟨hk, hc⟩ | ⟨e, hc, hkc, hck⟩
  · subst hk; subst hc
    right
    exact ⟨0, by simp [growTo], by simp [growTo], by simp [growTo]⟩
  · right
    by_cases hlt : k < c
    · rw [if_pos hlt]
      exact ⟨e, hc, by omega, by omega⟩
    · rw [if_neg hlt]
      have hpos : 0 < c := by rw [hc]; exact Nat.pos_pow_of_pos _ (by omega)
      have hg : growTo c = 2 * c := by unfold growTo; rw [if_neg (by omega)]
      rw [hg]
      exact ⟨e + 1, by rw [hc, pow_succ]; omega, by omega, by omega⟩

theorem Doubled.least {k c : Nat} (hd : Doubled k c) (hk : 0 < k) :
    ∃ e, c = 2 ^ e ∧ k ≤ 2 ^ e ∧ ∀ e1, k ≤ 2 ^ e1 → e ≤ e1 := by
  rcases hd with ⟨hk0, _⟩ | ⟨e, hc, hkc, hck⟩
  · omega
  · refine ⟨e, hc, by rw [← hc]; exact hkc, fun e1 he1 => ?_⟩
    by_contra hlt
    have hle : e1 + 1 ≤ e := by omega
    have h1 : 2 ^ (e1 + 1) ≤ 2 ^ e := Nat.pow_le_pow_right (by omega) hle
    rw [pow_succ] at h1
    omega

/-- What a returning sequence of `PushBack` calls leaves: the size has grown
by the number of calls, the capacity follows the doubling sequence, the old
elements are in place, and every argument that was an outside object sits at
its position in push order. -/
theorem pushBackAll_ok {α : Type} (ops : ValueOps α) (this : Nat) :
    ∀ (as : List (Arg α)) (w w1 : World α), Vector.wf w.heap (w.objs this) →
      Doubled (w.objs this).size_ (w.objs this).capacity_ →
      pushBackAll ops w this as = .ok w1 →
      (w1.objs this).size_ = (w.objs this).size_ + as.length ∧
      Doubled (w1.objs this).size_ (w1.objs this).capacity_ ∧
      (∀ i, i < (w.objs this).size_ → Vector.index w1 this i = Vector.index w this i) ∧
      (∀ j x, as[j]? = some (.value x) →
        Vector.index w1 this ((w.objs this).size_ + j) = some x) := by
  intro as
  induction as with
  | nil =>
    intro w w1 _ hd hok
    cases hok
    exact ⟨rfl, hd, fun _ _ => rfl, fun j x hj => by simp at hj⟩
  | cons a as ih =>
    intro w w1 hwf hd hok
    cases hpush : Vector.PushBack ops w this (a.toRef w) with
    | ub => simp [pushBackAll, hpush] at hok
    | threw w2 => simp [pushBackAll, hpush] at hok
    | ok w2 =>
      simp only [pushBackAll, hpush] at hok
      obtain ⟨x, hx, h1, h2, _, h4, h5, h6, _⟩ := Vector.PushBack_ref_ok hwf hpush
      have hd2 : Doubled (w2.objs this).size_ (w2.objs this).capacity_ := by
        rw [h1, h2]; exact hd.push
      obtain ⟨i1, i2, i3, i4⟩ := ih w2 w1 h6 hd2 hok
      refine ⟨by rw [i1, h1, List.length_cons]; omega, i2, fun i hi => ?_,
        fun j y hj => ?_⟩
      · rw [i3 i (by rw [h1]; omega), h5 i hi]
      · cases j with
        | zero =>
          simp only [List.getElem?_cons_zero, Option.some.injEq] at hj
          have hxy : x = y := hx y (by rw [hj]; rfl)
          rw [Nat.add_zero, i3 _ (by rw [h1]; omega), h4, hxy]
        | succ j =>
          simp only [List.getElem?_cons_succ] at hj
          have hij := i4 j y hj
          rw [h1] at hij
          rw [show (w.objs this).size_ + (j + 1) = (w.objs this).size_ + 1 + j by omega, hij]

/-- A sequence of `PushBack` calls whose arguments are outside objects
returns when no element operation throws and the allocator has room. -/
theorem pushBackAll_succeeds {α : Type} (ops : ValueOps α) (this : Nat)
    (hmove : ∀ y, ops.moveThrows y = false) :
    ∀ (xs : List α) (w : World α), Vector.wf w.heap (w.objs this) →
      (∀ x, x ∈ xs → ops.copyThrows x = false) →
      3 * ((w.objs this).size_ + xs.length) ≤ w.heap.avail + (w.objs this).capacity_ →
      2 * ((w.objs this).size_ + xs.length) ≤ maxArray →
      ∃ w1, pushBackAll ops w this (xs.map Arg.value) = .ok w1 := by
  intro xs
  induction xs with
  | nil => intro w _ _ _ _; exact ⟨w, rfl⟩
  | cons x xs ih =>
    intro w hwf hcopy hav hmax
    simp only [List.length_cons] at hav hmax
    obtain ⟨w2, hpush⟩ := Vector.PushBack_succeeds ops w this x hwf
      (hcopy x (List.mem_cons_self _ _)) (fun heq => by
        refine ⟨?_, ?_, fun j y _ _ => hmove y⟩
        · unfold growTo; split <;> omega
        · unfold growTo; split <;> omega)
    obtain ⟨h1, _, _, _, _, h6, _, _, _, h10⟩ := Vector.PushBack_ok hwf hpush
    obtain ⟨w1, hw1⟩ := ih w2 h6 (fun y hy => hcopy y (List.mem_cons_of_mem _ hy))
      (by rw [h1, h10]; omega) (by rw [h1]; omega)
    exact ⟨w1, by simp only [List.map_cons, pushBackAll, Arg.toRef, hpush]; exact hw1⟩

/-- Starting from a default-constructed vector, `PushBack(x_1)`, ...,
`PushBack(x_k)` with arguments that are objects outside the vector return
when no element operation throws and the allocator has room; and when they
return the size is `k`, element `i` is `x_(i+1)`, and the capacity is 0 for
`k = 0` and otherwise the least power of two that is at least `k`. -/
theorem pushBackAll_of_values {α : Type} (ops : ValueOps α) (w : World α) (this : Nat)
    (xs : List α) :
    ((∀ x, x ∈ xs → ops.copyThrows x = false) → (∀ y, ops.moveThrows y = false) →
      3 * xs.length ≤ w.heap.avail → 2 * xs.length ≤ maxArray →
      ∃ w1, pushBackAll ops (Vector.ctorDefault w this) this (xs.map Arg.value) = .ok w1) ∧
    ∀ w1, pushBackAll ops (Vector.ctorDefault w this) this (xs.map Arg.value) = .ok w1 →
      Vector.Size w1 this = xs.length ∧
      (∀ i, i < xs.length → Vector.index w1 this i = xs[i]?) ∧
      (xs.length = 0 → Vector.Capacity w1 this = 0) ∧
      (0 < xs.length → ∃ e, Vector.Capacity w1 this = 2 ^ e ∧ xs.length ≤ 2 ^ e ∧
        ∀ e1, xs.length ≤ 2 ^ e1 → e ≤ e1) := by
  have hthis : (Vector.ctorDefault w this).objs this = ⟨0, 0, none⟩ :=
    World.setObj_objs_same _ _ _
  have hwf : Vector.wf (Vector.ctorDefault w this).heap
      ((Vector.ctorDefault w this).objs this) := by
    rw [hthis]
    exact ⟨le_refl _, Nat.zero_le _, rfl⟩
  have hd : Doubled ((Vector.ctorDefault w this).objs this).size_
      ((Vector.ctorDefault w this).objs this).capacity_ := by
    rw [hthis]; exact Or.inl ⟨rfl, rfl⟩
  refine ⟨fun hcopy hmove hav hmax => ?_, fun w1 hok => ?_⟩
  · apply pushBackAll_succeeds ops this hmove xs _ hwf hcopy
    · rw [hthis]
      show 3 * (0 + xs.length) ≤ w.heap.avail + 0
      omega
    · rw [hthis]
      show 2 * (0 + xs.length) ≤ maxArray
      omega
  · obtain ⟨h1, h2, _, h4⟩ := pushBackAll_ok ops this (xs.map Arg.value) _ w1 hwf hd hok
    rw [hthis, List.length_map] at h1
    rw [hthis] at h4
    have hsize : (w1.objs this).size_ = xs.length := by
      rw [h1]; show 0 + xs.length = xs.length; omega
    unfold Vector.Size Vector.Capacity
    refine ⟨hsize, fun i hi => ?_, fun h0 => ?_, fun hpos => ?_⟩
    · have hi4 := h4 i xs[i] (by rw [List.getElem?_map, List.getElem?_eq_getElem hi]; rfl)
      rw [show (⟨0, 0, none⟩ : Vector).size_ + i = i from Nat.zero_add i] at hi4
      rw [hi4, List.getElem?_eq_getElem hi]
    · rw [hsize, h0] at h2
      rcases h2 with ⟨_, hc⟩ | ⟨e, _, _, hlt⟩
      · exact hc
      · omega
    · rw [hsize] at h2
      exact h2.least hpos

/-- C8, at the failing input: on a default-constructed `Vector<int>`, the
sequence `v.PushBack(7); v.PushBack(v[0]);` does not return.  The first call
returns and leaves size 1, capacity 1 and `v[0] == 7` in block 0.  The second
call finds the buffer full: `Reserve(2)` returns, having moved the element to
block 1 and released block 0, and `data_[size_] = new_element` then reads the
argument from the released block, which is undefined behaviour. -/
theorem C8_pushBack_sequence_reads_released_element :
    pushBackAll intOps (Vector.ctorDefault worldEmpty 0) 0 [.value 7, .element 0 0] = .ub ∧
    ∃ w1, Vector.PushBack intOps (Vector.ctorDefault worldEmpty 0) 0 (.value 7) = .ok w1 ∧
      Vector.wf w1.heap (w1.objs 0) ∧
      Vector.Size w1 0 = 1 ∧ Vector.Capacity w1 0 = 1 ∧ Vector.index w1 0 0 = some 7 ∧
      Vector.indexRef w1 0 0 = .slot (some 0) 0 ∧
      (∃ w2, Vector.Reserve intOps w1 0 2 = .ok w2 ∧ Vector.Data w2 0 = some 1 ∧
        Vector.index w2 0 0 = some 7 ∧ w2.heap.block 0 = none ∧
        (Vector.indexRef w1 0 0).read w2.heap = none) ∧
      Vector.PushBack intOps w1 0 (Vector.indexRef w1 0 0) = .ub :=
  ⟨rfl, _, rfl, by decide, rfl, rfl, rfl, rfl, ⟨_, rfl, rfl, rfl, rfl, rfl⟩, rfl⟩

theorem World.Inv.of_touches {α : Type} {w : World α} {this : Nat} {w1 : World α}
    (hinv : w.Inv) (ht : Touches w this w1) : w1.Inv := by
  obtain ⟨hwf, hown⟩ := hinv
  obtain ⟨hobjs, hfr, hwf1, hdata⟩ := ht
  have hfresh : ∀ j, (w.objs j).data_ ≠ some w.heap.blocks.length := by
    intro j hj
    obtain ⟨ss, hss, _⟩ := Vector.wf_block (hwf j) hj
    exact absurd (Heap.block_lt hss) (Nat.lt_irrefl _)
  have hnew : ∀ j b, j ≠ this → (w1.objs this).data_ = some b →
      (w.objs j).data_ ≠ some b := by
    intro j b hj hb
    rcases hdata with h | h | h
    · rw [h] at hb
      exact hown this j b (Ne.symm hj) hb
    · rw [h] at hb
      cases hb
      exact hfresh j
    · rw [h] at hb; cases hb
  refine ⟨fun j => ?_, fun i j b hij hi => ?_⟩
  · by_cases hj : j = this
    · rw [hj]; exact hwf1
    · rw [hobjs j hj]
      exact hfr.frame_wf (hwf j) (fun b hb => hown j this b hj hb)
  · by_cases hit : i = this
    · have hjt : j ≠ this := fun h => hij (by rw [hit, h])
      rw [hit] at hi
      rw [hobjs j hjt]
      exact hnew j b hjt hi
    · rw [hobjs i hit] at hi
      by_cases hjt : j = this
      · rw [hjt]
        intro hb
        exact hnew i b hit hb hi
      · rw [hobjs j hjt]
        exact hown i j b hij hi

/-- Objects renamed and emptied over a heap that has only lost a buffer no
renamed object uses: the invariant is kept. `src j` is the old identity of
the object now at `j`, or `none` when `j` is now empty. -/
theorem World.Inv.of_rename {α : Type} {w w1 : World α} (hinv : w.Inv) (p : Option Nat)
    (hfr : ∀ b, some b ≠ p → w1.heap.block b = w.heap.block b)
    (src : Nat → Option Nat)
    (hempty : ∀ j, src j = none → w1.objs j = ⟨0, 0, none⟩)
    (hsrc : ∀ j i, src j = some i → w1.objs j = w.objs i ∧
      ∀ b, (w.objs i).data_ = some b → p ≠ some b)
    (hinj : ∀ j j1 i, src j = some i → src j1 = some i → j = j1) : w1.Inv := by
  obtain ⟨hwf, hown⟩ := hinv
  have hframe : Frame p w.heap w1.heap := fun b hb _ => hfr b hb
  refine ⟨fun j => ?_, fun i j b hij hi hj => ?_⟩
  · cases hs : src j with
    | none => rw [hempty j hs]; exact ⟨le_refl _, Nat.zero_le _, rfl⟩
    | some i =>
      obtain ⟨heq, hp⟩ := hsrc j i hs
      rw [heq]
      exact hframe.frame_wf (hwf i) hp
  · cases hsi : src i with
    | none => rw [hempty i hsi] at hi; cases hi
    | some i0 =>
      cases hsj : src j with
      | none => rw [hempty j hsj] at hj; cases hj
      | some j0 =>
        rw [(hsrc i i0 hsi).1] at hi
        rw [(hsrc j j0 hsj).1] at hj
        have hne : i0 ≠ j0 := by
          intro h
          rw [h] at hsi
          exact hij (hinj i j j0 hsi hsj)
        exact hown i0 j0 b hne hi hj

theorem Vector.Swap_eq {α : Type} (w : World α) (this other : Nat) :
    (Vector.Swap w this other).heap = w.heap ∧
    (Vector.Swap w this other).objs other = w.objs this ∧
    (this ≠ other → (Vector.Swap w this other).objs this = w.objs other) ∧
    ∀ j, j ≠ this → j ≠ other → (Vector.Swap w this other).objs j = w.objs j := by
  refine ⟨rfl, ?_, fun hne => ?_, fun j hj hjo => ?_⟩
  · by_cases hne : this = other
    · subst hne
      simp [Vector.Swap, World.setObj]
    · have hne1 : other ≠ this := fun h => hne h.symm
      simp [Vector.Swap, World.setObj, hne, hne1]
  · have hne1 : other ≠ this := fun h => hne h.symm
    simp [Vector.Swap, World.setObj, hne, hne1]
  · simp [Vector.Swap, World.setObj, hj, hjo]

theorem allocateAndFill_ok_room {α : Type} {ops : ValueOps α} {w : World α} {this : Nat}
    {loop : World α → Result (Heap α)} {w1 : World α}
    (hok : allocateAndFill ops w this loop = .ok w1) :
    (w.objs this).capacity_ ≤ w.heap.avail ∧ (w.objs this).capacity_ ≤ maxArray := by
  by_contra hno
  rw [allocateAndFill, Heap.newArray_none ops w.heap _ hno] at hok
  exact rethrowAfterDelete_ne_ok w this w1 hok

/-- A buffer built for an object whose members were just set: seen from the
world before, only object `this` is touched. -/
theorem Built.touches_setObj {α : Type} {ops : ValueOps α} {f : Nat → Option α} {k : Nat}
    {w : World α} {this : Nat} {v : Vector} {w1 : World α}
    (hb : Built ops f k (w.setObj this v) this w1) (hsz : v.size_ ≤ v.capacity_)
    (hmax : v.capacity_ ≤ maxArray) : Touches w this w1 := by
  have hv : (w.setObj this v).objs this = v := World.setObj_objs_same _ _ _
  refine ⟨fun j hj => ?_, fun b _ hbl => hb.frame b (fun h => by cases h) hbl, ?_,
    Or.inr (Or.inl ?_)⟩
  · rw [hb.other_eq hj, World.setObj_objs_ne _ _ _ hj]
  · exact hb.built_wf (by rw [hv]; exact hsz) (by rw [hv]; exact hmax)
  · rw [hb.this_eq]
    rfl

/-- What a returning sized construction leaves. -/
theorem Vector.ctorSized_ok {α : Type} {ops : ValueOps α} {w : World α} {this size : Nat}
    {w1 : World α} (hok : Vector.ctorSized ops w this size = .ok w1) :
    Built ops (fun _ => some ops.valueInit) size
      (w.setObj this ⟨size, size, none⟩) this w1 ∧ size ≤ maxArray := by
  set w0 : World α := w.setObj this ⟨size, size, none⟩ with hw0
  have hthis : w0.objs this = ⟨size, size, none⟩ := World.setObj_objs_same _ _ _
  have hok0 : allocateAndFill ops w0 this
      (fun w1 => fillLoop ops (w1.objs this).data_ (w1.objs this).size_ 0 w1.heap) =
      .ok w1 := hok
  have hmax : (w0.objs this).capacity_ ≤ maxArray := (allocateAndFill_ok_room hok0).2
  obtain ⟨hb, _⟩ := allocateAndFill_ok ops w0 this
    (fun w1 => fillLoop ops (w1.objs this).data_ (w1.objs this).size_ 0 w1.heap)
    (fun _ => some ops.valueInit) (w0.objs this).size_
    (fun m => ops.moveThrows ops.valueInit = false → m = (w0.objs this).size_)
    hmax (fillBody_loop ops w0 this (by rw [hthis])) hok0
  rw [hthis] at hb hmax
  exact ⟨hb, hmax⟩

/-- What a returning list construction leaves. -/
theorem Vector.ctorList_ok {α : Type} {ops : ValueOps α} {w : World α} {this : Nat}
    {list : List α} {w1 : World α} (hok : Vector.ctorList ops w this list = .ok w1) :
    Built ops (fun j => list[j]?) list.length
      (w.setObj this ⟨list.length, list.length, none⟩) this w1 ∧
      list.length ≤ maxArray := by
  set w0 : World α := w.setObj this ⟨list.length, list.length, none⟩ with hw0
  have hthis : w0.objs this = ⟨list.length, list.length, none⟩ :=
    World.setObj_objs_same _ _ _
  have hok0 : allocateAndFill ops w0 this
      (fun w1 => listLoop ops (w1.objs this).data_ list 0 w1.heap) = .ok w1 := hok
  have hmax : (w0.objs this).capacity_ ≤ maxArray := (allocateAndFill_ok_room hok0).2
  obtain ⟨hb, _⟩ := allocateAndFill_ok ops w0 this
    (fun w1 => listLoop ops (w1.objs this).data_ list 0 w1.heap)
    (fun j => list[j]?) list.length
    (fun m => (∀ j x, j < m → list[j]? = some x → ops.copyThrows x = false) ∧
      (m < list.length → ∃ x, list[m]? = some x ∧ ops.copyThrows x = true))
    hmax (listBody_loop ops w0 this list (by rw [hthis])) hok0
  rw [hthis] at hmax
  exact ⟨hb, hmax⟩

theorem Vector.ctorDefault_touches {α : Type} (w : World α) (this : Nat) :
    Touches w this (Vector.ctorDefault w this) := by
  unfold Vector.ctorDefault
  refine ⟨fun j hj => World.setObj_objs_ne _ _ _ hj, Frame.frame_refl _ _, ?_, Or.inr (Or.inr ?_)⟩
  · rw [World.setObj_objs_same]
    exact ⟨le_refl _, Nat.zero_le _, rfl⟩
  · rw [World.setObj_objs_same]

theorem moveSrc_none {this other j : Nat} (h : moveSrc this other j = none) : j = other := by
  unfold moveSrc at h
  by_cases h1 : j = other
  · exact h1
  · rw [if_neg h1] at h
    by_cases h2 : j = this
    · rw [if_pos h2] at h; cases h
    · rw [if_neg h2] at h; cases h

theorem moveSrc_some {this other j i : Nat} (h : moveSrc this other j = some i) :
    j ≠ other ∧ ((j = this ∧ i = other) ∨ (j ≠ this ∧ i = j)) := by
  unfold moveSrc at h
  by_cases h1 : j = other
  · rw [if_pos h1] at h; cases h
  · rw [if_neg h1] at h
    by_cases h2 : j = this
    · rw [if_pos h2] at h
      exact ⟨h1, Or.inl ⟨h2, (Option.some.inj h).symm⟩⟩
    · rw [if_neg h2] at h
      exact ⟨h1, Or.inr ⟨h2, (Option.some.inj h).symm⟩⟩

theorem moveSrc_inj {this other j j1 i : Nat} (h : moveSrc this other j = some i)
    (h1 : moveSrc this other j1 = some i) : j = j1 := by
  obtain ⟨a1, a2⟩ := moveSrc_some h
  obtain ⟨b1, b2⟩ := moveSrc_some h1
  rcases a2 with ⟨a3, a4⟩ | ⟨a3, a4⟩ <;> rcases b2 with ⟨b3, b4⟩ | ⟨b3, b4⟩ <;> omega

theorem swapSrc_some {this other j i : Nat} (h : swapSrc this other j = some i) :
    (j = other ∧ i = this) ∨ (j ≠ other ∧ j = this ∧ i = other) ∨
      (j ≠ other ∧ j ≠ this ∧ i = j) := by
  unfold swapSrc at h
  by_cases h1 : j = other
  · rw [if_pos h1] at h
    exact Or.inl ⟨h1, (Option.some.inj h).symm⟩
  · rw [if_neg h1] at h
    by_cases h2 : j = this
    · rw [if_pos h2] at h
      exact Or.inr (Or.inl ⟨h1, h2, (Option.some.inj h).symm⟩)
    · rw [if_neg h2] at h
      exact Or.inr (Or.inr ⟨h1, h2, (Option.some.inj h).symm⟩)

theorem swapSrc_ne_none (this other j : Nat) : swapSrc this other j ≠ none := by
  unfold swapSrc
  split
  · exact fun h => by cases h
  · split <;> exact fun h => by cases h

theorem swapSrc_inj {this other j j1 i : Nat} (h : swapSrc this other j = some i)
    (h1 : swapSrc this other j1 = some i) : j = j1 := by
  rcases swapSrc_some h with ⟨a1, a2⟩ | ⟨a1, a2, a3⟩ | ⟨a1, a2, a3⟩ <;>
    rcases swapSrc_some h1 with ⟨b1, b2⟩ | ⟨b1, b2, b3⟩ | ⟨b1, b2, b3⟩ <;> omega

/-- Every valid call that returns keeps the invariant of the world. -/
theorem World.Inv.inv_step {α : Type} {ops : ValueOps α} {w w1 : World α} (hinv : w.Inv)
    (c : Call α) (hv : c.valid) (hok : c.run ops w = .ok w1) : w1.Inv := by
  have hwf := hinv.1
  have hown := hinv.2
  cases c with
  | ctorDefault this =>
    cases hok
    exact hinv.of_touches (Vector.ctorDefault_touches w this)
  | ctorSized this size =>
    obtain ⟨hb, hmax⟩ := Vector.ctorSized_ok hok
    exact hinv.of_touches (hb.touches_setObj (le_refl _) hmax)
  | ctorList this list =>
    obtain ⟨hb, hmax⟩ := Vector.ctorList_ok hok
    exact hinv.of_touches (hb.touches_setObj (le_refl _) hmax)
  | ctorCopy this other =>
    obtain ⟨hthis, hoth, hfr, hwf1, _⟩ := Vector.ctorCopy_ok hv (hwf other) hok
    exact hinv.of_touches ⟨hoth, hfr.weaken _, hwf1, Or.inr (Or.inl (by rw [hthis]))⟩
  | ctorMove this other =>
    cases hok
    by_cases hne : this = other
    · subst hne
      apply hinv.of_touches
      have hobj : (Vector.ctorMove w this this).objs this = ⟨0, 0, none⟩ := by
        simp [Vector.ctorMove, World.setObj]
      have hrest : ∀ j, j ≠ this → (Vector.ctorMove w this this).objs j = w.objs j := by
        intro j hj
        simp [Vector.ctorMove, World.setObj, hj]
      refine ⟨hrest, Frame.frame_refl _ _, ?_, Or.inr (Or.inr (by rw [hobj]))⟩
      rw [hobj]
      exact ⟨le_refl _, Nat.zero_le _, rfl⟩
    · obtain ⟨hh, ht, ho, hrest⟩ := Vector.ctorMove_eq w this other hne
      apply hinv.of_rename none (fun b _ => by rw [hh]) (moveSrc this other)
      · intro j hj
        rw [moveSrc_none hj]; exact ho
      · intro j i hj
        obtain ⟨hjo, ⟨hjt, hi⟩ | ⟨hjt, hi⟩⟩ := moveSrc_some hj
        · rw [hjt, hi]
          exact ⟨ht, fun b _ h => by cases h⟩
        · rw [hi]
          exact ⟨hrest j hjt hjo, fun b _ h => by cases h⟩
      · intro j j1 i hj hj1
        exact moveSrc_inj hj hj1
  | assignCopy this other =>
    by_cases hne : this = other
    · subst hne
      simp [Call.run, Vector.assignCopy] at hok
      rw [← hok]; exact hinv
    · obtain ⟨hthis, hoth, hfr, hwf1, _⟩ := Vector.assignCopy_ok hne (hwf this) (hwf other)
        (fun b hb h => hown other this b (Ne.symm hne) hb h) hok
      exact hinv.of_touches ⟨hoth, hfr, hwf1, Or.inr (Or.inl (by rw [hthis]))⟩
  | assignMove this other =>
    by_cases hne : this = other
    · subst hne
      simp [Call.run, Vector.assignMove] at hok
      rw [← hok]; exact hinv
    · obtain ⟨w2, hw2, ht, ho, hrest, _, hfr, _⟩ :=
        Vector.assignMove_eq w this other hne (hwf this)
      simp only [Call.run, hw2] at hok
      cases hok
      apply hinv.of_rename (w.objs this).data_ hfr (moveSrc this other)
      · intro j hj
        rw [moveSrc_none hj]; exact ho
      · intro j i hj
        obtain ⟨hjo, ⟨hjt, hi⟩ | ⟨hjt, hi⟩⟩ := moveSrc_some hj
        · rw [hjt, hi]
          exact ⟨ht, fun b hb h => hown other this b (Ne.symm hne) hb h⟩
        · rw [hi]
          exact ⟨hrest j hjt hjo, fun b hb h => hown j this b hjt hb h⟩
      · intro j j1 i hj hj1
        exact moveSrc_inj hj hj1
  | indexAssign this position x =>
    exact hinv.of_touches (Vector.indexAssign_touches (hwf this) hok)
  | Reserve this new_capacity =>
    exact hinv.of_touches (Vector.Reserve_touches (hwf this) hok)
  | Clear this =>
    cases hok
    exact hinv.of_touches (Vector.Clear_touches w this (hwf this))
  | PushBack this x =>
    exact hinv.of_touches (Vector.PushBack_ref_touches (hwf this) hok)
  | PopBack this =>
    cases hok
    exact hinv.of_touches (Vector.PopBack_touches w this (hwf this))
  | Swap this other =>
    cases hok
    obtain ⟨hh, ho, ht, hrest⟩ := Vector.Swap_eq w this other
    apply hinv.of_rename none (fun b _ => by rw [hh]) (swapSrc this other)
    · intro j hj
      exact absurd hj (swapSrc_ne_none this other j)
    · intro j i hj
      rcases swapSrc_some hj with ⟨hjo, hi⟩ | ⟨hjo, hjt, hi⟩ | ⟨hjo, hjt, hi⟩
      · rw [hjo, hi]
        exact ⟨ho, fun b _ h => by cases h⟩
      · rw [hi, hjt]
        exact ⟨ht (fun h => hjo (by rw [hjt, h])), fun b _ h => by cases h⟩
      · rw [hi]
        exact ⟨hrest j hjt hjo, fun b _ h => by cases h⟩
    · intro j j1 i hj hj1
      exact swapSrc_inj hj hj1

/-- When `Reserve` throws, it has touched the object it was called on alone. -/
theorem Vector.Reserve_threw_touches {α : Type} {ops : ValueOps α} {w : World α}
    {this n : Nat} (hwf : Vector.wf w.heap (w.objs this)) {w1 : World α}
    (hthrew : Vector.Reserve ops w this n = .threw w1) : Touches w this w1 := by
  obtain ⟨hobjs, hwf1⟩ := Vector.Reserve_threw hwf hthrew
  by_cases hle : n ≤ (w.objs this).capacity_
  · rw [Vector.Reserve_noop ops w this n hle] at hthrew; cases hthrew
  · rcases Vector.Reserve_cases ops w this n hwf (by omega) with ⟨_, h⟩ | ⟨_, _, h | h⟩
    · rw [h] at hthrew; cases hthrew
      exact ⟨fun _ _ => rfl, Frame.frame_refl _ _, hwf, Or.inl rfl⟩
    · obtain ⟨w2, m, h, hmf⟩ := h
      rw [h] at hthrew; cases hthrew
      exact ⟨fun j _ => by rw [hobjs], hmf.2.2.2.1, hwf1, Or.inl (by rw [hobjs])⟩
    · obtain ⟨w2, h, _⟩ := h
      rw [h] at hthrew; cases hthrew

/-- When `PushBack` throws, it has touched the object it was called on alone. -/
theorem Vector.PushBack_threw_touches {α : Type} {ops : ValueOps α} {w : World α}
    {this : Nat} {r : Ref α} (hwf : Vector.wf w.heap (w.objs this)) {w1 : World α}
    (hthrew : Vector.PushBack ops w this r = .threw w1) : Touches w this w1 := by
  rcases Vector.PushBack_ref ops w this r with h | ⟨x, _, h⟩
  · rw [h] at hthrew; cases hthrew
  rw [h] at hthrew
  have hroom : ∀ w2 : World α, Vector.wf w2.heap (w2.objs this) →
      (w2.objs this).size_ < (w2.objs this).capacity_ →
      Vector.PushBack ops w2 this (.value x) = .threw w1 → w1 = w2 := by
    intro w2 hwf2 hlt2 h2
    obtain ⟨s, ss, _, _, _, heq⟩ := Vector.PushBack_room ops w2 this x hwf2 hlt2
    rw [heq] at h2
    split at h2
    · cases h2; rfl
    · cases h2
  by_cases hlt : (w.objs this).size_ < (w.objs this).capacity_
  · rw [hroom w hwf hlt hthrew]
    exact ⟨fun _ _ => rfl, Frame.frame_refl _ _, hwf, Or.inl rfl⟩
  · have heq : (w.objs this).size_ = (w.objs this).capacity_ := by
      have hle := hwf.1; omega
    have hgt := growTo_gt (w.objs this).capacity_
    rw [Vector.PushBack_full ops w this x hwf heq] at hthrew
    cases hres : Vector.Reserve ops w this (growTo (w.objs this).capacity_) with
    | ub => rw [hres] at hthrew; cases hthrew
    | threw w2 =>
      rw [hres] at hthrew; cases hthrew
      exact Vector.Reserve_threw_touches hwf hres
    | ok w2 =>
      rw [hres] at hthrew
      obtain ⟨hg, hmax⟩ := Vector.Reserve_ok_grown hwf hgt hres
      have hwf2 := hg.grown_wf hwf hgt hmax
      have hlt2 : (w2.objs this).size_ < (w2.objs this).capacity_ := by
        rw [hg.1, World.setObj_objs_same]
        show (w.objs this).size_ < growTo (w.objs this).capacity_
        omega
      rw [hroom w2 hwf2 hlt2 hthrew]
      exact Vector.Reserve_touches hwf hres

/-- An index write, a `Reserve` or a `PushBack` that throws keeps the
invariant of the world. -/
theorem World.Inv.inv_caught {α : Type} {ops : ValueOps α} {w w1 : World α} (hinv : w.Inv)
    (c : Call α) (hc : c.resumable) (hthrew : c.run ops w = .threw w1) : w1.Inv := by
  have hwf := hinv.1
  cases c with
  | ctorDefault this => exact absurd hc id
  | ctorSized this size => exact absurd hc id
  | ctorList this list => exact absurd hc id
  | ctorCopy this other => exact absurd hc id
  | ctorMove this other => exact absurd hc id
  | assignCopy this other => exact absurd hc id
  | assignMove this other => exact absurd hc id
  | indexAssign this position x =>
    simp only [Call.run, Vector.indexAssign] at hthrew
    split at hthrew
    · cases hthrew
      exact hinv
    · split at hthrew <;> cases hthrew
  | Reserve this new_capacity =>
    exact hinv.of_touches (Vector.Reserve_threw_touches (hwf this) hthrew)
  | Clear this => exact absurd hc id
  | PushBack this r =>
    exact hinv.of_touches (Vector.PushBack_threw_touches (hwf this) hthrew)
  | PopBack this => exact absurd hc id
  | Swap this other => exact absurd hc id

/-- When the allocate-then-fill body of a constructor throws, every block
that was there before the call is as it was. -/
theorem allocateAndFill_threw_frame {α : Type} (ops : ValueOps α) (w : World α)
    (this : Nat) (loop : World α → Result (Heap α)) (f : Nat → Option α) (k : Nat)
    (P : Nat → Prop) (hnull : (w.objs this).data_ = none)
    (hloop : ∀ h1 : Heap α,
      h1 = ⟨w.heap.blocks ++ [some (List.replicate (w.objs this).capacity_ ops.defaultInit)],
        w.heap.avail - (w.objs this).capacity_⟩ →
      ∃ m h2, m ≤ k ∧ P m ∧
        loop (World.setObj { w with heap := h1 } this
          { w.objs this with data_ := some w.heap.blocks.length }) =
          (if m = k then .ok h2 else .threw h2) ∧
        Stored f w.heap.blocks.length
          (List.replicate (w.objs this).capacity_ ops.defaultInit) 0 m h1 h2)
    {w1 : World α} (hthrew : allocateAndFill ops w this loop = .threw w1) :
    Frame none w.heap w1.heap := by
  by_cases hroom : (w.objs this).capacity_ ≤ w.heap.avail ∧ (w.objs this).capacity_ ≤ maxArray
  swap
  · rw [allocateAndFill, Heap.newArray_none ops w.heap _ hroom,
      rethrowAfterDelete_null w this hnull] at hthrew
    cases hthrew
    exact Frame.frame_refl _ _
  · rcases allocateAndFill_cases ops w this loop f k P hroom.2 hloop with
      ⟨hno, _⟩ | ⟨_, m, h2, _, _, hst, h⟩
    · exact absurd hroom.1 hno
    · rw [h] at hthrew
      by_cases hm : m = k
      · rw [if_pos hm] at hthrew; cases hthrew
      · rw [if_neg hm] at hthrew
        cases hthrew
        obtain ⟨hl, _, hfr, _⟩ := hst
        intro b _ hb
        have hlen : w.heap.blocks.length < h2.blocks.length := by
          rw [hl]; simp
        simp only [World.setObj_heap]
        rw [Heap.block_set h2.blocks _ _ _ h2.avail b hlen, if_neg hb]
        show h2.block b = w.heap.block b
        rw [hfr b hb, Heap.block_append w.heap.blocks _ _ w.heap.avail b, if_neg hb]

/-- A constructor that throws leaves every block that was there before the
call as it was. -/
theorem Call.failed_frame {α : Type} {ops : ValueOps α} {w w1 : World α} (hinv : w.Inv)
    (c : Call α) (hv : c.valid) (hc : c.constructs) (hthrew : c.run ops w = .threw w1) :
    Frame none w.heap w1.heap := by
  cases c with
  | ctorDefault this => cases hthrew
  | ctorSized this size =>
    have hthis : (w.setObj this ⟨size, size, none⟩).objs this = ⟨size, size, none⟩ :=
      World.setObj_objs_same _ _ _
    have h0 : allocateAndFill ops (w.setObj this ⟨size, size, none⟩) this
        (fun w1 => fillLoop ops (w1.objs this).data_ (w1.objs this).size_ 0 w1.heap) =
        .threw w1 := hthrew
    exact allocateAndFill_threw_frame ops (w.setObj this ⟨size, size, none⟩) this
      (fun w1 => fillLoop ops (w1.objs this).data_ (w1.objs this).size_ 0 w1.heap)
      (fun _ => some ops.valueInit) ((w.setObj this ⟨size, size, none⟩).objs this).size_
      (fun m => ops.moveThrows ops.valueInit = false →
        m = ((w.setObj this ⟨size, size, none⟩).objs this).size_)
      (by rw [hthis]) (fillBody_loop ops _ this (by rw [hthis])) h0
  | ctorList this list =>
    have hthis : (w.setObj this ⟨list.length, list.length, none⟩).objs this =
        ⟨list.length, list.length, none⟩ := World.setObj_objs_same _ _ _
    have h0 : allocateAndFill ops (w.setObj this ⟨list.length, list.length, none⟩) this
        (fun w1 => listLoop ops (w1.objs this).data_ list 0 w1.heap) = .threw w1 := hthrew
    exact allocateAndFill_threw_frame ops (w.setObj this ⟨list.length, list.length, none⟩)
      this (fun w1 => listLoop ops (w1.objs this).data_ list 0 w1.heap)
      (fun j => list[j]?) list.length
      (fun m => (∀ j x, j < m → list[j]? = some x → ops.copyThrows x = false) ∧
        (m < list.length → ∃ x, list[m]? = some x ∧ ops.copyThrows x = true))
      (by rw [hthis]) (listBody_loop ops _ this list (by rw [hthis])) h0
  | ctorCopy this other =>
    have hne : this ≠ other := hv
    have hoth : (w.setObj this ⟨(w.objs other).size_, (w.objs other).capacity_, none⟩).objs
        other = w.objs other := World.setObj_objs_ne _ _ _ (Ne.symm hne)
    have hthis : (w.setObj this ⟨(w.objs other).size_, (w.objs other).capacity_, none⟩).objs
        this = ⟨(w.objs other).size_, (w.objs other).capacity_, none⟩ :=
      World.setObj_objs_same _ _ _
    have hwo0 : Vector.wf
        (w.setObj this ⟨(w.objs other).size_, (w.objs other).capacity_, none⟩).heap
        ((w.setObj this ⟨(w.objs other).size_, (w.objs other).capacity_, none⟩).objs other) := by
      rw [hoth]; exact hinv.1 other
    have h0 : allocateAndFill ops
        (w.setObj this ⟨(w.objs other).size_, (w.objs other).capacity_, none⟩) this
        (fun w1 => copyLoop ops (w1.objs this).data_ (w1.objs other).data_
          (w1.objs this).size_ 0 w1.heap) = .threw w1 := hthrew
    exact allocateAndFill_threw_frame ops
      (w.setObj this ⟨(w.objs other).size_, (w.objs other).capacity_, none⟩) this
      (fun w1 => copyLoop ops (w1.objs this).data_ (w1.objs other).data_
        (w1.objs this).size_ 0 w1.heap)
      (fun j => Vector.index
        (w.setObj this ⟨(w.objs other).size_, (w.objs other).capacity_, none⟩) other j)
      ((w.setObj this ⟨(w.objs other).size_, (w.objs other).capacity_, none⟩).objs
        other).size_
      (fun m => (∀ j x, j < m → Vector.index
          (w.setObj this ⟨(w.objs other).size_, (w.objs other).capacity_, none⟩) other j =
            some x → ops.copyThrows x = false) ∧
        (m < ((w.setObj this ⟨(w.objs other).size_, (w.objs other).capacity_,
            none⟩).objs other).size_ →
          ∃ x, Vector.index
            (w.setObj this ⟨(w.objs other).size_, (w.objs other).capacity_, none⟩) other m =
              some x ∧ ops.copyThrows x = true))
      (by rw [hthis])
      (copyBody_loop ops _ this other hne hwo0 (by rw [hthis, hoth]) (by rw [hthis, hoth])) h0
  | ctorMove this other => cases hthrew
  | assignCopy this other => exact absurd hc id
  | assignMove this other => exact absurd hc id
  | indexAssign this position x => exact absurd hc id
  | Reserve this new_capacity => exact absurd hc id
  | Clear this => exact absurd hc id
  | PushBack this r => exact absurd hc id
  | PopBack this => exact absurd hc id
  | Swap this other => exact absurd hc id

/-- A constructor that throws keeps the invariant of the objects that were
there before the call. -/
theorem World.Inv.inv_failed {α : Type} {ops : ValueOps α} {w w1 : World α} (hinv : w.Inv)
    (c : Call α) (hv : c.valid) (hc : c.constructs) (hthrew : c.run ops w = .threw w1) :
    World.Inv (⟨w1.heap, w.objs⟩ : World α) := by
  have hfr := Call.failed_frame hinv c hv hc hthrew
  exact ⟨fun j => hfr.frame_wf (hinv.1 j) (fun b _ h => by cases h), hinv.2⟩

theorem Reachable.inv {α : Type} {ops : ValueOps α} {w : World α}
    (hr : Reachable ops w) : w.Inv := by
  induction hr with
  | init avail =>
    exact ⟨fun _ => ⟨le_refl _, Nat.zero_le _, rfl⟩, fun _ _ _ _ h => by cases h⟩
  | step c _ hv hok ih => exact ih.inv_step c hv hok
  | caught c _ hc hthrew ih => exact ih.inv_caught c hc hthrew
  | failed c _ hv hc hthrew ih => exact ih.inv_failed c hv hc hthrew

/-- After a call that throws, every object still has `size_ <= capacity_`. -/
theorem Call.run_threw_sizes {α : Type} {ops : ValueOps α} {w w1 : World α} (hinv : w.Inv)
    (c : Call α) (hv : c.valid) (hthrew : c.run ops w = .threw w1) :
    ∀ j, (w1.objs j).size_ ≤ (w1.objs j).capacity_ := by
  have hwf := hinv.1
  have hown := hinv.2
  have hfields : ∀ (w0 : World α) (this : Nat) (loop : World α → Result (Heap α)),
      allocateAndFill ops w0 this loop = .threw w1 →
      (w0.objs this).size_ ≤ (w0.objs this).capacity_ →
      (∀ j, j ≠ this → w0.objs j = w.objs j) →
      ∀ j, (w1.objs j).size_ ≤ (w1.objs j).capacity_ := by
    intro w0 this loop h hsc hrest j
    obtain ⟨h1, h2, _⟩ := allocateAndFill_fields ops w0 this loop (Or.inr h) j
    rw [h1, h2]
    by_cases hj : j = this
    · rw [hj]; exact hsc
    · rw [hrest j hj]; exact (hwf j).1
  cases c with
  | ctorDefault this => cases hthrew
  | ctorSized this size =>
    have h0 : allocateAndFill ops (w.setObj this ⟨size, size, none⟩) this
        (fun w1 => fillLoop ops (w1.objs this).data_ (w1.objs this).size_ 0 w1.heap) =
        .threw w1 := hthrew
    exact hfields _ this _ h0 (by rw [World.setObj_objs_same])
      (fun j hj => World.setObj_objs_ne _ _ _ hj)
  | ctorList this list =>
    have h0 : allocateAndFill ops (w.setObj this ⟨list.length, list.length, none⟩) this
        (fun w1 => listLoop ops (w1.objs this).data_ list 0 w1.heap) = .threw w1 := hthrew
    exact hfields _ this _ h0 (by rw [World.setObj_objs_same])
      (fun j hj => World.setObj_objs_ne _ _ _ hj)
  | ctorCopy this other =>
    have h0 : allocateAndFill ops
        (w.setObj this ⟨(w.objs other).size_, (w.objs other).capacity_, none⟩) this
        (fun w1 => copyLoop ops (w1.objs this).data_ (w1.objs other).data_
          (w1.objs this).size_ 0 w1.heap) = .threw w1 := hthrew
    exact hfields _ this _ h0 (by rw [World.setObj_objs_same]; exact (hwf other).1)
      (fun j hj => World.setObj_objs_ne _ _ _ hj)
  | ctorMove this other => cases hthrew
  | assignCopy this other =>
    by_cases hne : this = other
    · subst hne
      simp [Call.run, Vector.assignCopy] at hthrew
    · obtain ⟨w0, heq, hthis, hoth, _⟩ := Vector.assignCopy_setup ops w this other hne
        (hwf this) (hwf other) (fun b hb h => hown other this b (Ne.symm hne) hb h)
      have hrun : Vector.assignCopy ops w this other = .threw w1 := hthrew
      rw [heq] at hrun
      exact hfields w0 this _ hrun (by rw [hthis]; exact (hwf other).1) hoth
  | assignMove this other =>
    simp only [Call.run] at hthrew
    split at hthrew <;> cases hthrew
  | indexAssign this position x =>
    simp only [Call.run, Vector.indexAssign] at hthrew
    split at hthrew
    · cases hthrew
      exact fun j => (hwf j).1
    · split at hthrew <;> cases hthrew
  | Reserve this new_capacity =>
    obtain ⟨hobjs, _⟩ := Vector.Reserve_threw (hwf this) hthrew
    intro j
    rw [hobjs]
    exact (hwf j).1
  | Clear this => cases hthrew
  | PushBack this x =>
    obtain ⟨hwf1, hrest, _⟩ := Vector.PushBack_ref_threw (hwf this) hthrew
    intro j
    by_cases hj : j = this
    · rw [hj]; exact hwf1.1
    · rw [hrest j hj]; exact (hwf j).1
  | PopBack this => cases hthrew
  | Swap this other => cases hthrew

/-- C9: `size <= capacity` holds for every object of every world reachable
through the public interface (constructors, assignments, `Reserve`,
`PushBack`, `PopBack`, `Clear`, `Swap`, index writes that return, index
writes, `Reserve` and `PushBack` calls that throw, and constructors that
throw); and every call run in
a world that satisfies the invariant leaves every object with
`size <= capacity`, whether the call returns or throws. -/
theorem C9_size_le_capacity {α : Type} (ops : ValueOps α) :
    (∀ w : World α, Reachable ops w → ∀ j, Vector.Size w j ≤ Vector.Capacity w j) ∧
    ∀ (w w1 : World α) (c : Call α), w.Inv → c.valid →
      (c.run ops w = .ok w1 ∨ c.run ops w = .threw w1) →
      ∀ j, Vector.Size w1 j ≤ Vector.Capacity w1 j := by
  refine ⟨fun w hr j => (hr.inv.1 j).1, fun w w1 c hinv hv hres j => ?_⟩
  rcases hres with hok | hthrew
  · exact ((hinv.inv_step c hv hok).1 j).1
  · exact Call.run_threw_sizes hinv c hv hthrew j

/-- C10, as stated, fails: the sized constructor with `n = 0`, the list
constructor with an empty list and the copy of an empty vector each return
an object of capacity 0 whose buffer is not null, so a reachable world has a
non-null buffer with capacity 0.  The other direction fails in the state a
failed copy-assignment leaves: with `b = {4, 5, 6}` built and no free store
left, `a = b` on a default-constructed `a` throws from the allocation and
leaves `a` with capacity 3 and a null buffer. -/
theorem C10_null_iff_capacity_counterexample :
    (∃ w1, Vector.ctorSized intOps worldEmpty 0 0 = .ok w1 ∧
      Vector.Capacity w1 0 = 0 ∧ Vector.Data w1 0 = some 0) ∧
    (∃ w1, Vector.ctorList intOps worldEmpty 0 [] = .ok w1 ∧
      Vector.Capacity w1 0 = 0 ∧ Vector.Data w1 0 = some 0) ∧
    (∃ w1, Vector.ctorCopy intOps worldEmpty 0 1 = .ok w1 ∧
      Vector.Capacity w1 0 = 0 ∧ Vector.Data w1 0 = some 0) ∧
    (¬ ∀ w : World Int, Reachable intOps w →
      ∀ j, (Vector.Data w j ≠ none ↔ 0 < Vector.Capacity w j)) ∧
    ∃ w, Reachable intOps w ∧ ∃ w1, Vector.assignCopy intOps w 0 1 = .threw w1 ∧
      Vector.Capacity w1 0 = 3 ∧ Vector.Data w1 0 = none := by
  refine ⟨⟨_, rfl, rfl, rfl⟩, ⟨_, rfl, rfl, rfl⟩, ⟨_, rfl, rfl, rfl⟩, fun hall => ?_, ?_⟩
  · have hex : ∃ w1, Vector.ctorSized intOps worldEmpty 0 0 = .ok w1 ∧
        Vector.Capacity w1 0 = 0 ∧ Vector.Data w1 0 = some 0 := ⟨_, rfl, rfl, rfl⟩
    obtain ⟨w1, hok, hc, hd⟩ := hex
    have hr : Reachable intOps w1 :=
      Reachable.step (Call.ctorSized 0 0) (Reachable.init 8) trivial hok
    have h := (hall w1 hr 0).1 (by rw [hd]; exact fun h => by cases h)
    omega
  · have hex : ∃ w, Vector.ctorList intOps ⟨⟨[], 3⟩, fun _ => ⟨0, 0, none⟩⟩ 1 [4, 5, 6] =
        .ok w ∧ ∃ w1, Vector.assignCopy intOps w 0 1 = .threw w1 ∧
          Vector.Capacity w1 0 = 3 ∧ Vector.Data w1 0 = none :=
      ⟨_, rfl, _, rfl, rfl, rfl⟩
    obtain ⟨w, hok, hrest⟩ := hex
    exact ⟨w, Reachable.step (Call.ctorList 1 [4, 5, 6]) (Reachable.init 3) trivial hok,
      hrest⟩

/-- C10, amended: in every world reached from the empty one by valid calls
that return, by index writes, `Reserve` and `PushBack` calls that throw, and
by constructor calls that throw (which construct no object), an object of
capacity above 0 has a non-null buffer (so a null buffer goes with
capacity 0); `Data()` is null after default construction and, for the
source, after a move; and the sized, list and copy constructors, when they
return, leave a non-null buffer, also for capacity 0. -/
theorem C10_null_implies_capacity_zero {α : Type} (ops : ValueOps α) :
    (∀ w : World α, Reachable ops w →
      ∀ j, 0 < Vector.Capacity w j → Vector.Data w j ≠ none) ∧
    (∀ (w : World α) (this : Nat), Vector.Data (Vector.ctorDefault w this) this = none ∧
      Vector.Capacity (Vector.ctorDefault w this) this = 0) ∧
    (∀ (w : World α) (this other : Nat), this ≠ other →
      Vector.Data (Vector.ctorMove w this other) other = none ∧
      Vector.Capacity (Vector.ctorMove w this other) other = 0) ∧
    (∀ (w w1 : World α) (this other : Nat), this ≠ other →
      Vector.wf w.heap (w.objs this) → Vector.assignMove w this other = some w1 →
      Vector.Data w1 other = none ∧ Vector.Capacity w1 other = 0) ∧
    (∀ (w w1 : World α) (this size : Nat), Vector.ctorSized ops w this size = .ok w1 →
      Vector.Data w1 this ≠ none) ∧
    (∀ (w w1 : World α) (this : Nat) (list : List α),
      Vector.ctorList ops w this list = .ok w1 → Vector.Data w1 this ≠ none) ∧
    (∀ (w w1 : World α) (this other : Nat), this ≠ other →
      Vector.wf w.heap (w.objs other) → Vector.ctorCopy ops w this other = .ok w1 →
      Vector.Data w1 this ≠ none) := by
  refine ⟨fun w hr j hpos hnull => ?_, fun w this => ?_, fun w this other hne => ?_,
    fun w w1 this other hne hwt hok => ?_, fun w w1 this size hok => ?_,
    fun w w1 this list hok => ?_, fun w w1 this other hne hwo hok => ?_⟩
  · have hc := (Vector.wf_null (hr.inv.1 j) hnull).1
    unfold Vector.Capacity at hpos
    omega
  · unfold Vector.Data Vector.Capacity Vector.ctorDefault
    rw [World.setObj_objs_same]
    exact ⟨rfl, rfl⟩
  · obtain ⟨_, _, ho, _⟩ := Vector.ctorMove_eq w this other hne
    unfold Vector.Data Vector.Capacity
    rw [ho]
    exact ⟨rfl, rfl⟩
  · obtain ⟨w2, hw2, _, ho, _⟩ := Vector.assignMove_eq w this other hne hwt
    rw [hw2] at hok
    cases hok
    unfold Vector.Data Vector.Capacity
    rw [ho]
    exact ⟨rfl, rfl⟩
  · obtain ⟨hb, _⟩ := Vector.ctorSized_ok hok
    unfold Vector.Data
    rw [hb.this_eq]
    exact fun h => by cases h
  · obtain ⟨hb, _⟩ := Vector.ctorList_ok hok
    unfold Vector.Data
    rw [hb.this_eq]
    exact fun h => by cases h
  · obtain ⟨hthis, _⟩ := Vector.ctorCopy_ok hne hwo hok
    unfold Vector.Data
    rw [hthis]
    exact fun h => by cases h

/-- What `Reserve` leaves when it throws: the members of every object are as
before, the object is still well formed, its buffer has kept the slots from
the throwing index on, and the slots before it hold moved-from values. -/
theorem Vector.Reserve_threw_state {α : Type} {ops : ValueOps α} {w : World α}
    {this n : Nat} (hwf : Vector.wf w.heap (w.objs this)) {w1 : World α}
    (hthrew : Vector.Reserve ops w this n = .threw w1) :
    w1.objs = w.objs ∧ Vector.wf w1.heap (w1.objs this) ∧
    (w1 = w ∨ ∃ m, m < (w.objs this).size_ ∧
      (∀ j, m ≤ j → Vector.index w1 this j = Vector.index w this j) ∧
      (∀ j, j < m → Vector.index w1 this j =
        (Vector.index w this j).map ops.movedFrom)) := by
  obtain ⟨hobjs, hwf1⟩ := Vector.Reserve_threw hwf hthrew
  refine ⟨hobjs, hwf1, ?_⟩
  by_cases hle : n ≤ (w.objs this).capacity_
  · rw [Vector.Reserve_noop ops w this n hle] at hthrew; cases hthrew
  · rcases Vector.Reserve_cases ops w this n hwf (by omega) with ⟨_, h⟩ | ⟨_, _, h | h⟩
    · rw [h] at hthrew; cases hthrew; exact Or.inl rfl
    · obtain ⟨w2, m, h, _, _, _, _, _, hm, s, ss, ss1, hs, hss, hs1, _, hslots, _⟩ := h
      rw [h] at hthrew; cases hthrew
      right
      refine ⟨m, hm, fun j hj => ?_, fun j hj => ?_⟩
      · unfold Vector.index
        rw [hobjs, hs, Heap.read_some hs1, Heap.read_some hss, hslots j, if_neg (by omega)]
      · unfold Vector.index
        rw [hobjs, hs, Heap.read_some hs1, Heap.read_some hss, hslots j, if_pos hj]
    · obtain ⟨w2, h, _⟩ := h
      rw [h] at hthrew; cases hthrew

/-- C11, at the failing input: on `{7, 13}` with an element type whose move
empties its source and throws on 13, `Reserve(4)` moves element 0, throws on
element 1, and leaves the vector with its old size, capacity and buffer but
with element 0 changed from 7 to the moved-from value 0. -/
theorem C11_Reserve_strong_guarantee_fails :
    ∃ w1, Vector.Reserve fragileOps worldFragile 0 4 = .threw w1 ∧
      Vector.Size w1 0 = Vector.Size worldFragile 0 ∧
      Vector.Capacity w1 0 = Vector.Capacity worldFragile 0 ∧
      Vector.Data w1 0 = Vector.Data worldFragile 0 ∧
      Vector.index worldFragile 0 0 = some 7 ∧
      Vector.index w1 0 0 = some 0 ∧
      Vector.index w1 0 1 = some 13 :=
  ⟨_, rfl, rfl, rfl, rfl, rfl, rfl, rfl⟩

/-- C12, at the failing inputs. (1) When the copy of an element throws
(`a = {1, 2, 3}`, `b = {4, 13}`, copying 13 throws), the exception leaves `a`
with size 2, capacity 2 and a non-null `data_` that points to the block the
handler has just released: reading `a[0]` and destroying `a` are undefined.
(2) When the allocation throws (`a = {1}`, `b = {4, 5, 6}`, no free slot), the
handler runs `delete[]` a second time on the old buffer of `a`: the call
itself is undefined. In both cases `b` is untouched before that point. -/
theorem C12_copy_assignment_basic_guarantee_fails :
    (Vector.wf worldAssign.heap (worldAssign.objs 0) ∧
      Vector.wf worldAssign.heap (worldAssign.objs 1) ∧
      ∃ w1, Vector.assignCopy fragileOps worldAssign 0 1 = .threw w1 ∧
        Vector.Size w1 0 = 2 ∧ Vector.Capacity w1 0 = 2 ∧
        Vector.Data w1 0 = some 2 ∧ w1.heap.block 2 = none ∧
        ¬ Vector.wf w1.heap (w1.objs 0) ∧
        Vector.index w1 0 0 = none ∧ Vector.dtor w1 0 = none ∧
        w1.objs 1 = worldAssign.objs 1) ∧
    (Vector.wf worldTight.heap (worldTight.objs 0) ∧
      Vector.wf worldTight.heap (worldTight.objs 1) ∧
      Vector.assignCopy intOps worldTight 0 1 = .ub) := by
  refine ⟨⟨by decide, by decide, _, rfl, rfl, rfl, rfl, rfl, by decide, rfl, rfl, rfl⟩,
    by decide, by decide, rfl⟩

theorem Iterator.iterate_preInc {c : Bool} (it : Iterator c) (k : Nat) :
    Nat.iterate Iterator.preInc k it = ⟨⟨it.current_.base, it.current_.offset + k⟩⟩ := by
  induction k generalizing it with
  | zero => simp
  | succ k ih =>
    rw [Function.iterate_succ_apply, ih]
    simp only [Iterator.preInc, Nat.cast_succ]
    congr 2
    omega

theorem Iterator.iterate_preDec {c : Bool} (it : Iterator c) (k : Nat) :
    Nat.iterate Iterator.preDec k it = ⟨⟨it.current_.base, it.current_.offset - k⟩⟩ := by
  induction k generalizing it with
  | zero => simp
  | succ k ih =>
    rw [Function.iterate_succ_apply, ih]
    simp only [Iterator.preDec, Nat.cast_succ]
    congr 2
    omega

theorem Iterator.deref_at {α : Type} {c : Bool} (w : World α) (this k : Nat) :
    Iterator.deref w.heap (⟨⟨(w.objs this).data_, (k : Int)⟩⟩ : Iterator c) =
      Vector.index w this k := by
  unfold Iterator.deref Vector.index
  simp

theorem rangeFor_from {α : Type} {c : Bool} (w : World α) (this : Nat)
    (hwf : Vector.wf w.heap (w.objs this)) :
    ∀ (n fuel k : Nat), k + n = (w.objs this).size_ → n ≤ fuel →
      ∃ l : List α, rangeFor w.heap (Vector.end_ w this c) fuel
          (⟨⟨(w.objs this).data_, (k : Int)⟩⟩ : Iterator c) = some l ∧
        l.length = n ∧ ∀ i, i < n → l[i]? = Vector.index w this (k + i) := by
  intro n
  induction n with
  | zero =>
    intro fuel k hk _
    have hk0 : k = (w.objs this).size_ := by omega
    refine ⟨[], ?_, rfl, fun i hi => by omega⟩
    cases fuel <;> simp [rangeFor, Iterator.eq, Vector.end_, hk0]
  | succ n ih =>
    intro fuel k hk hfuel
    obtain ⟨fuel1, hf1⟩ : ∃ f, fuel = f + 1 := ⟨fuel - 1, by omega⟩
    subst hf1
    have hne : k ≠ (w.objs this).size_ := by omega
    have hcap := hwf.1
    obtain ⟨x, hx⟩ := Vector.wf_index hwf (show k < (w.objs this).capacity_ by omega)
    obtain ⟨l, hl, hlen, hget⟩ := ih fuel1 (k + 1) (by omega) (by omega)
    refine ⟨x :: l, ?_, by simp [hlen], fun i hi => ?_⟩
    · have hnot : Iterator.eq (⟨⟨(w.objs this).data_, (k : Int)⟩⟩ : Iterator c)
          (Vector.end_ w this c) = false := by
        simp [Iterator.eq, Vector.end_, hne]
      have hstep : Iterator.preInc (⟨⟨(w.objs this).data_, (k : Int)⟩⟩ : Iterator c) =
          ⟨⟨(w.objs this).data_, ((k + 1 : Nat) : Int)⟩⟩ := by
        simp [Iterator.preInc]
      rw [rangeFor, hnot]
      simp only [Bool.false_eq_true, if_false, Iterator.deref_at, hx, hstep, hl, Option.map_some']
    · cases i with
      | zero => simpa using hx.symm
      | succ i =>
        have hgi := hget i (by omega)
        rw [show k + (i + 1) = k + 1 + i by omega, ← hgi]
        simp

/-- C13: for a well-formed vector and for both iterator types, `begin()`
advanced by `k < size` positions (by `k` applications of `++`, by `+= k` or
by `+ k`) dereferences to `v[k]`; `--` undoes `++` and `-= k` undoes `+= k`;
the postfix `++` and `--` return the iterator as it was and leave it where
the prefix forms do, so that each undoes the other;
`begin()` advanced by `size` positions is `end()`; `end() - begin()` is
`size`; the loop from `begin()` to `end()` returns (given at least `size`
steps of fuel) exactly `size` values, `v[0], ..., v[size-1]` in index order;
`begin() == end()` for an empty vector; and `begin() + k == end()` exactly
for `k = size`. -/
theorem C13_iterators {α : Type} (w : World α) (this : Nat) (c : Bool)
    (hwf : Vector.wf w.heap (w.objs this)) :
    (∀ k, k < Vector.Size w this →
      (∃ x, Vector.index w this k = some x) ∧
      Iterator.deref w.heap (Nat.iterate Iterator.preInc k (Vector.begin w this c)) =
        Vector.index w this k ∧
      Iterator.deref w.heap (Iterator.addAssign (Vector.begin w this c) k) =
        Vector.index w this k ∧
      Iterator.deref w.heap (Iterator.add (Vector.begin w this c) k) =
        Vector.index w this k) ∧
    (∀ (it : Iterator c) (k : Nat),
      Nat.iterate Iterator.preDec k (Nat.iterate Iterator.preInc k it) = it ∧
      Iterator.subAssign (Iterator.addAssign it k) k = it ∧
      Iterator.preDec (Iterator.preInc it) = it ∧
      (Iterator.postInc it).1 = it ∧ (Iterator.postInc it).2 = Iterator.preInc it ∧
      (Iterator.postDec it).1 = it ∧ (Iterator.postDec it).2 = Iterator.preDec it ∧
      (Iterator.postDec (Iterator.postInc it).2).2 = it ∧
      (Iterator.postInc (Iterator.postDec it).2).2 = it ∧
      Iterator.preInc (Iterator.preDec it) = it) ∧
    Nat.iterate Iterator.preInc (Vector.Size w this) (Vector.begin w this c) =
      Vector.end_ w this c ∧
    Iterator.add (Vector.begin w this c) (Vector.Size w this) = Vector.end_ w this c ∧
    Iterator.diff (Vector.end_ w this c) (Vector.begin w this c) =
      some (Vector.Size w this : Int) ∧
    (∀ fuel, Vector.Size w this ≤ fuel →
      ∃ l : List α, rangeFor w.heap (Vector.end_ w this c) fuel (Vector.begin w this c) =
          some l ∧
        l.length = Vector.Size w this ∧
        ∀ i, i < Vector.Size w this → l[i]? = Vector.index w this i) ∧
    (Vector.Size w this = 0 →
      Iterator.eq (Vector.begin w this c) (Vector.end_ w this c) = true) ∧
    (∀ k : Nat, Iterator.eq (Iterator.add (Vector.begin w this c) k)
      (Vector.end_ w this c) = true ↔ k = Vector.Size w this) := by
  unfold Vector.Size
  have hbegin : ∀ k : Nat, (⟨⟨(Vector.begin w this c).current_.base,
      (Vector.begin w this c).current_.offset + (k : Int)⟩⟩ : Iterator c) =
      ⟨⟨(w.objs this).data_, (k : Int)⟩⟩ := by
    intro k
    simp [Vector.begin]
  refine ⟨fun k hk => ⟨?_, ?_, ?_, ?_⟩, fun it k => ⟨?_, ?_, ?_, rfl, rfl, rfl, rfl, ?_, ?_, ?_⟩, ?_, ?_, ?_,
    fun fuel hfuel => ?_, fun h0 => ?_, fun k => ?_⟩
  · have hcap := hwf.1
    exact Vector.wf_index hwf (by omega)
  · rw [Iterator.iterate_preInc, hbegin, Iterator.deref_at]
  · show Iterator.deref w.heap (⟨⟨(Vector.begin w this c).current_.base,
      (Vector.begin w this c).current_.offset + (k : Int)⟩⟩ : Iterator c) = _
    rw [hbegin, Iterator.deref_at]
  · show Iterator.deref w.heap (⟨⟨(Vector.begin w this c).current_.base,
      (Vector.begin w this c).current_.offset + (k : Int)⟩⟩ : Iterator c) = _
    rw [hbegin, Iterator.deref_at]
  · rw [Iterator.iterate_preInc, Iterator.iterate_preDec]
    simp
  · simp [Iterator.subAssign, Iterator.addAssign]
  · simp [Iterator.preDec, Iterator.preInc]
  · simp [Iterator.postDec, Iterator.postInc]
  · simp [Iterator.postDec, Iterator.postInc]
  · simp [Iterator.preDec, Iterator.preInc]
  · rw [Iterator.iterate_preInc, hbegin]
    rfl
  · show (⟨⟨(Vector.begin w this c).current_.base,
      (Vector.begin w this c).current_.offset + ((w.objs this).size_ : Int)⟩⟩ : Iterator c) = _
    rw [hbegin]
    rfl
  · simp [Iterator.diff, Vector.end_, Vector.begin]
  · obtain ⟨l, hl, hlen, hget⟩ := rangeFor_from (c := c) w this hwf (w.objs this).size_ fuel 0
      (by omega) hfuel
    refine ⟨l, ?_, hlen, fun i hi => ?_⟩
    · have hb : Vector.begin w this c = ⟨⟨(w.objs this).data_, ((0 : Nat) : Int)⟩⟩ := by
        simp [Vector.begin]
      rw [hb]
      exact hl
    · rw [hget i hi, Nat.zero_add]
  · simp [Iterator.eq, Vector.begin, Vector.end_, h0]
  · simp [Iterator.eq, Iterator.add, Iterator.addAssign, Vector.begin, Vector.end_]

theorem C13_iterators_witness :
    Vector.wf worldOne.heap (worldOne.objs 1) ∧
      rangeFor worldOne.heap (Vector.end_ worldOne 1 true) 3 (Vector.begin worldOne 1 true) =
        some [1, 2, 3] ∧
      Iterator.diff (Vector.end_ worldOne 1 false) (Vector.begin worldOne 1 false) =
        some 3 ∧
      (Iterator.postDec (Vector.end_ worldOne 1 false)).1 = Vector.end_ worldOne 1 false ∧
      Iterator.deref worldOne.heap (Iterator.postDec (Vector.end_ worldOne 1 false)).2 =
        some 3 := by
  have hwf : Vector.wf worldOne.heap (worldOne.objs 1) := by decide
  have h := (C13_iterators worldOne 1 false hwf).2.2.2.2.1
  have hpost := ((C13_iterators worldOne 1 false hwf).2.1
    (Vector.end_ worldOne 1 false) 0).2.2.2.2.2.1
  exact ⟨hwf, by decide, h, hpost, by decide⟩

theorem LexLt.trans {α : Type} [LinearOrder α] {sa sb sc : Nat} {A B C : Nat → Option α}
    (hab : LexLt sa sb A B) (hbc : LexLt sb sc B C) : LexLt sa sc A C := by
  rcases hab with ⟨t1, x1, y1, h1a, h1b, hA1, hB1, hlt1, heq1⟩ | ⟨heq1, hs1⟩
  · rcases hbc with ⟨t2, y2, z2, h2b, h2c, hB2, hC2, hlt2, heq2⟩ | ⟨heq2, hs2⟩
    · rcases Nat.lt_trichotomy t1 t2 with hlt | heq | hgt
      · left
        refine ⟨t1, x1, y1, h1a, by omega, hA1, ?_, hlt1, fun j hj => ?_⟩
        · rw [← heq2 t1 hlt]; exact hB1
        · rw [heq1 j hj, heq2 j (by omega)]
      · left
        subst heq
        rw [hB1] at hB2
        cases hB2
        exact ⟨t1, x1, z2, h1a, h2c, hA1, hC2, lt_trans hlt1 hlt2,
          fun j hj => by rw [heq1 j hj, heq2 j hj]⟩
      · left
        refine ⟨t2, y2, z2, by omega, h2c, ?_, hC2, hlt2, fun j hj => ?_⟩
        · rw [heq1 t2 hgt]; exact hB2
        · rw [heq1 j (by omega), heq2 j hj]
    · left
      refine ⟨t1, x1, y1, h1a, by omega, hA1, ?_, hlt1, fun j hj => ?_⟩
      · rw [← heq2 t1 h1b]; exact hB1
      · rw [heq1 j hj, heq2 j (by omega)]
  · rcases hbc with ⟨t2, y2, z2, h2b, h2c, hB2, hC2, hlt2, heq2⟩ | ⟨heq2, hs2⟩
    · by_cases ht : t2 < sa
      · left
        refine ⟨t2, y2, z2, ht, h2c, ?_, hC2, hlt2, fun j hj => ?_⟩
        · rw [heq1 t2 ht]; exact hB2
        · rw [heq1 j (by omega), heq2 j hj]
      · right
        exact ⟨fun j hj => by rw [heq1 j hj, heq2 j (by omega)], by omega⟩
    · right
      exact ⟨fun j hj => by rw [heq1 j hj, heq2 j (by omega)], by omega⟩

/-- The two ways `operator<=>` comes to its result: every pair below both
sizes is equal and the sizes decide, or a first differing pair decides. -/
theorem Vector.operatorCmp_cases {α : Type} [LinearOrder α] (w : World α) (a b : Nat)
    (hwa : Vector.wf w.heap (w.objs a)) (hwb : Vector.wf w.heap (w.objs b)) :
    ∃ r, Vector.operatorCmp w a b = some r ∧
      (((∀ j, j < min (w.objs a).size_ (w.objs b).size_ →
          Vector.index w a j = Vector.index w b j) ∧
        r = compare (w.objs a).size_ (w.objs b).size_) ∨
      (∃ t x y, t < (w.objs a).size_ ∧ t < (w.objs b).size_ ∧
        Vector.index w a t = some x ∧ Vector.index w b t = some y ∧ x ≠ y ∧
        (∀ j, j < t → Vector.index w a j = Vector.index w b j) ∧
        r = if x < y then Ordering.lt else Ordering.gt)) := by
  obtain ⟨r, hr, hfirst, hall, _⟩ := Vector.operatorCmp_spec w a b hwa hwb
  refine ⟨r, hr, ?_⟩
  have hma : min (w.objs a).size_ (w.objs b).size_ ≤ (w.objs a).size_ := min_le_left _ _
  have hmb : min (w.objs a).size_ (w.objs b).size_ ≤ (w.objs b).size_ := min_le_right _ _
  by_cases halleq : ∀ j, j < min (w.objs a).size_ (w.objs b).size_ →
      Vector.index w a j = Vector.index w b j
  · left
    refine ⟨halleq, ?_⟩
    obtain ⟨h1, h2, h3⟩ := hall halleq
    rcases Nat.lt_trichotomy (w.objs a).size_ (w.objs b).size_ with hlt | heq | hgt
    · rw [h1 hlt]; exact (compare_lt_iff_lt.mpr hlt).symm
    · rw [h3.mpr heq]; exact (compare_eq_iff_eq.mpr heq).symm
    · rw [h2 hgt]; exact (compare_gt_iff_gt.mpr hgt).symm
  · right
    have hex : ∃ t, t < min (w.objs a).size_ (w.objs b).size_ ∧
        Vector.index w a t ≠ Vector.index w b t := by
      by_contra hno
      exact halleq (fun j hj => by
        by_contra hne
        exact hno ⟨j, hj, hne⟩)
    classical
    have htmin := Nat.find_spec hex
    have htleast := fun j (hj : j < Nat.find hex) => Nat.find_min hex hj
    set t := Nat.find hex with ht
    have hca := hwa.1
    have hcb := hwb.1
    obtain ⟨x, hx⟩ := Vector.wf_index hwa (lt_of_lt_of_le htmin.1 (le_trans hma hca))
    obtain ⟨y, hy⟩ := Vector.wf_index hwb (lt_of_lt_of_le htmin.1 (le_trans hmb hcb))
    have hxy : x ≠ y := fun h => htmin.2 (by rw [hx, hy, h])
    have hbefore : ∀ j, j < t → Vector.index w a j = Vector.index w b j := by
      intro j hj
      by_contra hne
      exact htleast j hj ⟨lt_trans hj htmin.1, hne⟩
    exact ⟨t, x, y, lt_of_lt_of_le htmin.1 hma, lt_of_lt_of_le htmin.1 hmb, hx, hy, hxy,
      hbefore, hfirst t x y htmin.1 hx hy hxy hbefore⟩

theorem Vector.operatorCmp_lt_iff {α : Type} [LinearOrder α] (w : World α) (a b : Nat)
    (hwa : Vector.wf w.heap (w.objs a)) (hwb : Vector.wf w.heap (w.objs b)) :
    Vector.operatorCmp w a b = some Ordering.lt ↔
      LexLt (w.objs a).size_ (w.objs b).size_ (Vector.index w a) (Vector.index w b) := by
  obtain ⟨r, hr, hcases⟩ := Vector.operatorCmp_cases w a b hwa hwb
  obtain ⟨r1, hr1, hfirst, hall, _⟩ := Vector.operatorCmp_spec w a b hwa hwb
  rw [hr] at hr1
  cases hr1
  rw [hr]
  constructor
  · intro hlt
    have hrlt : r = Ordering.lt := Option.some.inj hlt
    rcases hcases with ⟨halleq, hcmp⟩ | ⟨t, x, y, hta, htb, hx, hy, hxy, hbefore, hres⟩
    · right
      have hsz : (w.objs a).size_ < (w.objs b).size_ := by
        rw [hrlt] at hcmp
        exact compare_lt_iff_lt.mp hcmp.symm
      exact ⟨fun j hj => halleq j (by rw [min_eq_left (le_of_lt hsz)]; exact hj), hsz⟩
    · left
      refine ⟨t, x, y, hta, htb, hx, hy, ?_, hbefore⟩
      by_contra hnlt
      rw [if_neg hnlt, hrlt] at hres
      cases hres
  · rintro (⟨t, x, y, hta, htb, hx, hy, hxy, hbefore⟩ | ⟨halleq, hsz⟩)
    · rw [hfirst t x y (lt_min hta htb) hx hy (ne_of_lt hxy) hbefore, if_pos hxy]
    · rw [(hall (fun j hj => halleq j (lt_of_lt_of_le hj (min_le_left _ _)))).1 hsz]

theorem Vector.operatorCmp_gt_iff {α : Type} [LinearOrder α] (w : World α) (a b : Nat)
    (hwa : Vector.wf w.heap (w.objs a)) (hwb : Vector.wf w.heap (w.objs b)) :
    Vector.operatorCmp w a b = some Ordering.gt ↔
      LexLt (w.objs b).size_ (w.objs a).size_ (Vector.index w b) (Vector.index w a) := by
  obtain ⟨r, hr, hcases⟩ := Vector.operatorCmp_cases w a b hwa hwb
  obtain ⟨r1, hr1, hfirst, hall, _⟩ := Vector.operatorCmp_spec w a b hwa hwb
  rw [hr] at hr1
  cases hr1
  rw [hr]
  constructor
  · intro hgt
    have hrgt : r = Ordering.gt := Option.some.inj hgt
    rcases hcases with ⟨halleq, hcmp⟩ | ⟨t, x, y, hta, htb, hx, hy, hxy, hbefore, hres⟩
    · right
      have hsz : (w.objs b).size_ < (w.objs a).size_ := by
        rw [hrgt] at hcmp
        exact compare_gt_iff_gt.mp hcmp.symm
      exact ⟨fun j hj => (halleq j (by rw [min_eq_right (le_of_lt hsz)]; exact hj)).symm, hsz⟩
    · left
      refine ⟨t, y, x, htb, hta, hy, hx, ?_, fun j hj => (hbefore j hj).symm⟩
      by_contra hnlt
      have hlt : x < y := lt_of_le_of_ne (not_lt.mp hnlt) hxy
      rw [if_pos hlt, hrgt] at hres
      cases hres
  · rintro (⟨t, y, x, htb, hta, hy, hx, hyx, hbefore⟩ | ⟨halleq, hsz⟩)
    · rw [hfirst t x y (lt_min hta htb) hx hy (ne_of_gt hyx) (fun j hj => (hbefore j hj).symm),
        if_neg (not_lt.mpr (le_of_lt hyx))]
    · rw [(hall (fun j hj => (halleq j (lt_of_lt_of_le hj (min_le_right _ _))).symm)).2.1 hsz]

theorem Vector.operatorLt_iff {α : Type} [LinearOrder α] (w : World α) (a b : Nat) :
    Vector.operatorLt w a b = some true ↔ Vector.operatorCmp w a b = some Ordering.lt := by
  unfold Vector.operatorLt
  cases Vector.operatorCmp w a b with
  | none => simp
  | some r => cases r <;> simp

theorem Vector.operatorGt_iff {α : Type} [LinearOrder α] (w : World α) (a b : Nat) :
    Vector.operatorGt w a b = some true ↔ Vector.operatorCmp w a b = some Ordering.gt := by
  unfold Vector.operatorGt
  cases Vector.operatorCmp w a b with
  | none => simp
  | some r => cases r <;> simp

/-- C14: for well-formed vectors over a linearly ordered element type,
`a <=> b` is `equal` exactly when `a == b`; exactly one of `a < b`, `a == b`,
`a > b` holds; `a < b` exactly when `b > a`; and `a < b` with `b < c` gives
`a < c`. Capacities do not enter. -/
theorem C14_total_order {α : Type} [LinearOrder α] (w : World α) (a b c : Nat)
    (hwa : Vector.wf w.heap (w.objs a)) (hwb : Vector.wf w.heap (w.objs b))
    (hwc : Vector.wf w.heap (w.objs c)) :
    (Vector.operatorCmp w a b = some Ordering.eq ↔ Vector.operatorEq w a b = some true) ∧
    ((Vector.operatorLt w a b = some true ∧ Vector.operatorEq w a b = some false ∧
        Vector.operatorGt w a b = some false) ∨
      (Vector.operatorLt w a b = some false ∧ Vector.operatorEq w a b = some true ∧
        Vector.operatorGt w a b = some false) ∨
      (Vector.operatorLt w a b = some false ∧ Vector.operatorEq w a b = some false ∧
        Vector.operatorGt w a b = some true)) ∧
    (Vector.operatorLt w a b = some true ↔ Vector.operatorGt w b a = some true) ∧
    (Vector.operatorLt w a b = some true → Vector.operatorLt w b c = some true →
      Vector.operatorLt w a c = some true) := by
  obtain ⟨r, hr, _, _, hreq⟩ := Vector.operatorCmp_spec w a b hwa hwb
  obtain ⟨e, he, heiff⟩ := Vector.operatorEq_spec w a b hwa hwb
  have hre : r = Ordering.eq ↔ e = true := by rw [hreq, heiff]
  refine ⟨?_, ?_, ?_, ?_⟩
  · rw [hr, he]
    constructor
    · intro h
      rw [hre.mp (Option.some.inj h)]
    · intro h
      rw [hre.mpr (Option.some.inj h)]
  · unfold Vector.operatorLt Vector.operatorGt
    rw [hr, he]
    cases r with
    | lt =>
      left
      have hef : e = false := by
        cases e with
        | false => rfl
        | true => exact absurd (hre.mpr rfl) (by decide)
      rw [hef]
      exact ⟨rfl, rfl, rfl⟩
    | eq =>
      right; left
      rw [hre.mp rfl]
      exact ⟨rfl, rfl, rfl⟩
    | gt =>
      right; right
      have hef : e = false := by
        cases e with
        | false => rfl
        | true => exact absurd (hre.mpr rfl) (by decide)
      rw [hef]
      exact ⟨rfl, rfl, rfl⟩
  · rw [Vector.operatorLt_iff, Vector.operatorGt_iff, Vector.operatorCmp_lt_iff w a b hwa hwb,
      Vector.operatorCmp_gt_iff w b a hwb hwa]
  · rw [Vector.operatorLt_iff, Vector.operatorLt_iff, Vector.operatorLt_iff,
      Vector.operatorCmp_lt_iff w a b hwa hwb, Vector.operatorCmp_lt_iff w b c hwb hwc,
      Vector.operatorCmp_lt_iff w a c hwa hwc]
    exact fun hab hbc => hab.trans hbc

theorem C14_total_order_witness :
    Vector.wf worldThree.heap (worldThree.objs 0) ∧
      Vector.wf worldThree.heap (worldThree.objs 1) ∧
      Vector.wf worldThree.heap (worldThree.objs 2) ∧
      Vector.operatorLt worldThree 0 2 = some true := by
  have h0 : Vector.wf worldThree.heap (worldThree.objs 0) := by decide
  have h1 : Vector.wf worldThree.heap (worldThree.objs 1) := by decide
  have h2 : Vector.wf worldThree.heap (worldThree.objs 2) := by decide
  exact ⟨h0, h1, h2, (C14_total_order worldThree 0 1 2 h0 h1 h2).2.2.2 (by decide) (by decide)⟩

/-- C15: `PopBack` is a total function of the world (it cannot throw and
has no undefined step); on an empty vector it returns the world unchanged;
on a non-empty one it lowers the size by exactly 1 and leaves the capacity,
the buffer, the heap and so every slot unchanged: the elements below the new
size, and the dropped slot too, which stays allocated with its value. -/
theorem C15_PopBack {α : Type} (w : World α) (this : Nat)
    (hwf : Vector.wf w.heap (w.objs this)) :
    (Vector.Size w this = 0 → Vector.PopBack w this = w) ∧
    (0 < Vector.Size w this →
      Vector.Size (Vector.PopBack w this) this = Vector.Size w this - 1 ∧
      (∃ x, Vector.index (Vector.PopBack w this) this (Vector.Size w this - 1) = some x ∧
        Vector.index w this (Vector.Size w this - 1) = some x)) ∧
    Vector.Capacity (Vector.PopBack w this) this = Vector.Capacity w this ∧
    Vector.Data (Vector.PopBack w this) this = Vector.Data w this ∧
    (Vector.PopBack w this).heap = w.heap ∧
    (∀ i, Vector.index (Vector.PopBack w this) this i = Vector.index w this i) ∧
    (∀ j, j ≠ this → (Vector.PopBack w this).objs j = w.objs j) := by
  unfold Vector.Size Vector.Capacity Vector.Data
  have hidx : ∀ i, Vector.index (Vector.PopBack w this) this i = Vector.index w this i := by
    intro i
    unfold Vector.index Vector.PopBack
    split
    · rw [World.setObj_objs_same]; rfl
    · rfl
  refine ⟨fun h0 => ?_, fun hpos => ⟨?_, ?_⟩, ?_, ?_, ?_, hidx, fun j hj => ?_⟩
  · unfold Vector.PopBack
    rw [if_neg (by omega)]
  · unfold Vector.PopBack
    rw [if_pos hpos, World.setObj_objs_same]
  · have hcap := hwf.1
    obtain ⟨x, hx⟩ := Vector.wf_index hwf
      (show (w.objs this).size_ - 1 < (w.objs this).capacity_ by omega)
    exact ⟨x, by rw [hidx]; exact hx, hx⟩
  · unfold Vector.PopBack
    split
    · rw [World.setObj_objs_same]
    · rfl
  · unfold Vector.PopBack
    split
    · rw [World.setObj_objs_same]
    · rfl
  · unfold Vector.PopBack
    split <;> rfl
  · unfold Vector.PopBack
    split
    · exact World.setObj_objs_ne _ _ _ hj
    · rfl

theorem C15_PopBack_witness :
    Vector.wf worldOne.heap (worldOne.objs 1) ∧
      Vector.Size (Vector.PopBack worldOne 1) 1 = 2 ∧
      Vector.index (Vector.PopBack worldOne 1) 1 2 = some 3 := by
  have hwf : Vector.wf worldOne.heap (worldOne.objs 1) := by decide
  obtain ⟨_, hpos, _, _, _, hidx, _⟩ := C15_PopBack worldOne 1 hwf
  exact ⟨hwf, (hpos (by decide)).1, by rw [hidx]; rfl⟩

theorem World.ext_objs {α : Type} {w w1 : World α} (hh : w1.heap = w.heap)
    (ho : ∀ j, w1.objs j = w.objs j) : w1 = w := by
  cases w
  cases w1
  simp only at hh ho
  subst hh
  congr
  exact funext ho

/-- C16: `Swap` exchanges the complete states of the two objects (size,
capacity, buffer, and so the elements) without touching the heap or any
other object, and `Swap` performed twice gives back the world it started
from. -/
theorem C16_Swap {α : Type} (w : World α) (a b : Nat) :
    (Vector.Swap w a b).objs a = w.objs b ∧
    (Vector.Swap w a b).objs b = w.objs a ∧
    (∀ j, j ≠ a → j ≠ b → (Vector.Swap w a b).objs j = w.objs j) ∧
    (Vector.Swap w a b).heap = w.heap ∧
    (∀ i, Vector.index (Vector.Swap w a b) a i = Vector.index w b i) ∧
    (∀ i, Vector.index (Vector.Swap w a b) b i = Vector.index w a i) ∧
    Vector.Swap (Vector.Swap w a b) a b = w := by
  have hswap : ∀ w0 : World α, (Vector.Swap w0 a b).objs a = w0.objs b ∧
      (Vector.Swap w0 a b).objs b = w0.objs a ∧
      (∀ j, j ≠ a → j ≠ b → (Vector.Swap w0 a b).objs j = w0.objs j) ∧
      (Vector.Swap w0 a b).heap = w0.heap := by
    intro w0
    obtain ⟨hh, ho, ht, hrest⟩ := Vector.Swap_eq w0 a b
    refine ⟨?_, ho, hrest, hh⟩
    by_cases hab : a = b
    · rw [hab] at ho ⊢
      exact ho
    · exact ht hab
  obtain ⟨ha, hb, hrest, hh⟩ := hswap w
  refine ⟨ha, hb, hrest, hh, fun i => ?_, fun i => ?_, ?_⟩
  · unfold Vector.index
    rw [ha, hh]
  · unfold Vector.index
    rw [hb, hh]
  · obtain ⟨ha2, hb2, hrest2, hh2⟩ := hswap (Vector.Swap w a b)
    apply World.ext_objs (by rw [hh2, hh])
    intro j
    by_cases hja : j = a
    · rw [hja, ha2, hb]
    · by_cases hjb : j = b
      · rw [hjb, hb2, ha]
      · rw [hrest2 j hja hjb, hrest j hja hjb]

theorem Vector.ctorSized_succeeds {α : Type} (ops : ValueOps α) (w : World α)
    (this size : Nat) (hav : size ≤ w.heap.avail) (hmax : size ≤ maxArray)
    (hnt : 0 < size → ops.moveThrows ops.valueInit = false) :
    ∃ w1, Vector.ctorSized ops w this size = .ok w1 := by
  set w0 : World α := w.setObj this ⟨size, size, none⟩ with hw0
  have hthis : w0.objs this = ⟨size, size, none⟩ := World.setObj_objs_same _ _ _
  show ∃ w1, allocateAndFill ops w0 this
      (fun w1 => fillLoop ops (w1.objs this).data_ (w1.objs this).size_ 0 w1.heap) = .ok w1
  apply allocateAndFill_succeeds ops w0 this
    (fun w1 => fillLoop ops (w1.objs this).data_ (w1.objs this).size_ 0 w1.heap)
    (fun _ => some ops.valueInit) (w0.objs this).size_
    (fun m => ops.moveThrows ops.valueInit = false → m = (w0.objs this).size_)
    (by rw [hthis]; exact hmax) (fillBody_loop ops w0 this (by rw [hthis]))
  · rw [hthis]; exact hav
  · intro m hmk hP
    rw [hthis] at hmk hP ⊢
    by_cases h0 : size = 0
    · show m = size
      have hm : m ≤ size := hmk
      omega
    · exact hP (hnt (by omega))

theorem Vector.ctorList_succeeds {α : Type} (ops : ValueOps α) (w : World α)
    (this : Nat) (list : List α) (hav : list.length ≤ w.heap.avail)
    (hmax : list.length ≤ maxArray) (hnt : ∀ x, x ∈ list → ops.copyThrows x = false) :
    ∃ w1, Vector.ctorList ops w this list = .ok w1 := by
  set w0 : World α := w.setObj this ⟨list.length, list.length, none⟩ with hw0
  have hthis : w0.objs this = ⟨list.length, list.length, none⟩ :=
    World.setObj_objs_same _ _ _
  show ∃ w1, allocateAndFill ops w0 this
      (fun w1 => listLoop ops (w1.objs this).data_ list 0 w1.heap) = .ok w1
  apply allocateAndFill_succeeds ops w0 this
    (fun w1 => listLoop ops (w1.objs this).data_ list 0 w1.heap)
    (fun j => list[j]?) list.length
    (fun m => (∀ j x, j < m → list[j]? = some x → ops.copyThrows x = false) ∧
      (m < list.length → ∃ x, list[m]? = some x ∧ ops.copyThrows x = true))
    (by rw [hthis]; exact hmax) (listBody_loop ops w0 this list (by rw [hthis]))
  · rw [hthis]; exact hav
  · rintro m hmk ⟨_, hthr⟩
    by_contra hm
    obtain ⟨x, hx, hxt⟩ := hthr (lt_of_le_of_ne hmk hm)
    have hmem : x ∈ list := List.getElem?_mem hx
    rw [hnt x hmem] at hxt
    cases hxt

/-- C17: `Vector(n)` returns whenever the allocator can hand out `n` slots
and (for `n > 0`) assigning `ValueType{}` does not throw; and whenever it
returns, the size is `n`, the capacity is `n`, and every element below `n`
is `ValueType{}`. -/
theorem C17_ctorSized {α : Type} (ops : ValueOps α) (w : World α) (this n : Nat) :
    (n ≤ min w.heap.avail maxArray → (0 < n → ops.moveThrows ops.valueInit = false) →
      ∃ w1, Vector.ctorSized ops w this n = .ok w1) ∧
    ∀ w1, Vector.ctorSized ops w this n = .ok w1 →
      Vector.Size w1 this = n ∧ Vector.Capacity w1 this = n ∧
      ∀ i, i < n → Vector.index w1 this i = some ops.valueInit := by
  refine ⟨fun hle hnt => Vector.ctorSized_succeeds ops w this n
    (le_trans hle (min_le_left _ _)) (le_trans hle (min_le_right _ _)) hnt, fun w1 hok => ?_⟩
  obtain ⟨hb, _⟩ := Vector.ctorSized_ok hok
  have hthis := hb.this_eq
  rw [World.setObj_objs_same] at hthis
  unfold Vector.Size Vector.Capacity
  refine ⟨by rw [hthis], by rw [hthis], fun i hi => hb.built_index_eq hi⟩

/-- C18: the list constructor returns whenever the allocator can hand out
`|S|` slots and no element copy throws; and whenever it returns, the size is
`|S|`, the capacity is `|S|`, and element `i` is `S[i]` for every `i < |S|`. -/
theorem C18_ctorList {α : Type} (ops : ValueOps α) (w : World α) (this : Nat)
    (list : List α) :
    (list.length ≤ min w.heap.avail maxArray →
      (∀ x, x ∈ list → ops.copyThrows x = false) →
      ∃ w1, Vector.ctorList ops w this list = .ok w1) ∧
    ∀ w1, Vector.ctorList ops w this list = .ok w1 →
      Vector.Size w1 this = list.length ∧ Vector.Capacity w1 this = list.length ∧
      ∀ i, i < list.length → Vector.index w1 this i = list[i]? := by
  refine ⟨fun hle hnt => Vector.ctorList_succeeds ops w this list
    (le_trans hle (min_le_left _ _)) (le_trans hle (min_le_right _ _)) hnt, fun w1 hok => ?_⟩
  obtain ⟨hb, _⟩ := Vector.ctorList_ok hok
  have hthis := hb.this_eq
  rw [World.setObj_objs_same] at hthis
  unfold Vector.Size Vector.Capacity
  refine ⟨by rw [hthis], by rw [hthis], fun i hi => hb.built_index_eq hi⟩

theorem Vector.indexAssign_succeeds {α : Type} (ops : ValueOps α) (w : World α)
    (this i : Nat) (x : α) (hwf : Vector.wf w.heap (w.objs this))
    (hi : i < (w.objs this).capacity_) (hx : ops.copyThrows x = false) :
    ∃ w1, Vector.indexAssign ops w this i x = .ok w1 := by
  cases hdata : (w.objs this).data_ with
  | none =>
    have hc := (Vector.wf_null hwf hdata).1
    omega
  | some s =>
    obtain ⟨ss, hss, hlen⟩ := Vector.wf_block hwf hdata
    have hw := Heap.write_some hss (show i < ss.length by omega) x
    exact ⟨_, by simp only [Vector.indexAssign, hx, hdata, hw]; rfl⟩

/-- C19: for a well-formed vector and `i < size`, reading `v[i]` returns the
value in slot `i` of the vector's buffer; `v[i] = x` returns when the element
copy does not throw; and when it returns, `v[i]` is `x` while the size, the
capacity, the buffer and every element at an index other than `i` are
unchanged. -/
theorem C19_index {α : Type} (ops : ValueOps α) (w : World α) (this i : Nat) (x : α)
    (hwf : Vector.wf w.heap (w.objs this)) (hi : i < Vector.Size w this) :
    (∃ s ss v, Vector.Data w this = some s ∧ w.heap.block s = some ss ∧
      ss[i]? = some v ∧ Vector.index w this i = some v) ∧
    (ops.copyThrows x = false → ∃ w1, Vector.indexAssign ops w this i x = .ok w1) ∧
    ∀ w1, Vector.indexAssign ops w this i x = .ok w1 →
      Vector.index w1 this i = some x ∧
      Vector.Size w1 this = Vector.Size w this ∧
      Vector.Capacity w1 this = Vector.Capacity w this ∧
      Vector.Data w1 this = Vector.Data w this ∧
      ∀ j, j ≠ i → Vector.index w1 this j = Vector.index w this j := by
  unfold Vector.Size at hi
  have hcap := hwf.1
  refine ⟨?_, fun hx => Vector.indexAssign_succeeds ops w this i x hwf (by omega) hx,
    fun w1 hok => ?_⟩
  · cases hdata : (w.objs this).data_ with
    | none =>
      have hc := (Vector.wf_null hwf hdata).1
      omega
    | some s =>
      obtain ⟨ss, hss, hlen⟩ := Vector.wf_block hwf hdata
      have hil : i < ss.length := by omega
      refine ⟨s, ss, ss[i], hdata, hss, List.getElem?_eq_getElem hil, ?_⟩
      unfold Vector.index
      rw [hdata, Heap.read_some hss, List.getElem?_eq_getElem hil]
  · obtain ⟨hobjs, _, _, s, ss, hs, hss, hil, hs1, _⟩ := Vector.indexAssign_ok hok
    unfold Vector.Size Vector.Capacity Vector.Data Vector.index
    rw [hobjs, hs, Heap.read_some hs1]
    refine ⟨by simp [List.getElem?_set_self, hil], rfl, rfl, rfl, fun j hj => ?_⟩
    rw [Heap.read_some hs1, Heap.read_some hss, List.getElem?_set_ne (Ne.symm hj)]

theorem C19_index_witness :
    Vector.wf worldOne.heap (worldOne.objs 1) ∧ 1 < Vector.Size worldOne 1 ∧
      ∃ w1, Vector.indexAssign intOps worldOne 1 1 42 = .ok w1 ∧
        Vector.index w1 1 1 = some 42 ∧ Vector.index w1 1 0 = some 1 ∧
        Vector.index w1 1 2 = some 3 := by
  have hwf : Vector.wf worldOne.heap (worldOne.objs 1) := by decide
  obtain ⟨_, hex, hall⟩ := C19_index intOps worldOne 1 1 42 hwf (by decide)
  obtain ⟨w1, hok⟩ := hex rfl
  obtain ⟨h1, _, _, _, h5⟩ := hall w1 hok
  exact ⟨hwf, by decide, w1, hok, h1, by rw [h5 0 (by decide)]; rfl,
    by rw [h5 2 (by decide)]; rfl⟩

/-- `PushBack` calls that fit into the spare capacity leave the capacity and
the buffer pointer alone, whatever their arguments refer to, and return when
the arguments are outside objects whose copy does not throw. -/
theorem pushBackAll_room {α : Type} (ops : ValueOps α) (this : Nat) :
    ∀ (as : List (Arg α)) (w : World α), Vector.wf w.heap (w.objs this) →
      (w.objs this).size_ + as.length ≤ (w.objs this).capacity_ →
      ((∀ a, a ∈ as → ∃ x, a = .value x ∧ ops.copyThrows x = false) →
        ∃ w1, pushBackAll ops w this as = .ok w1) ∧
      ∀ w1, pushBackAll ops w this as = .ok w1 →
        (w1.objs this).capacity_ = (w.objs this).capacity_ ∧
        (w1.objs this).data_ = (w.objs this).data_ ∧
        (w1.objs this).size_ = (w.objs this).size_ + as.length := by
  intro as
  induction as with
  | nil =>
    intro w _ _
    exact ⟨fun _ => ⟨w, rfl⟩, fun w1 hok => by cases hok; exact ⟨rfl, rfl, rfl⟩⟩
  | cons a as ih =>
    intro w hwf hroom
    simp only [List.length_cons] at hroom
    have hlt : (w.objs this).size_ < (w.objs this).capacity_ := by omega
    refine ⟨fun hcopy => ?_, fun w1 hok => ?_⟩
    · obtain ⟨x, hax, hx⟩ := hcopy a (List.mem_cons_self _ _)
      obtain ⟨w2, hpush⟩ := Vector.PushBack_room_succeeds ops w this x hwf hlt hx
      obtain ⟨h1, h2, _, _, _, h6, _⟩ := Vector.PushBack_ok hwf hpush
      rw [if_pos hlt] at h2
      obtain ⟨w1, hw1⟩ := (ih w2 h6 (by rw [h1, h2]; omega)).1
        (fun y hy => hcopy y (List.mem_cons_of_mem _ hy))
      exact ⟨w1, by rw [hax]; simp only [pushBackAll, Arg.toRef, hpush]; exact hw1⟩
    · cases hpush : Vector.PushBack ops w this (a.toRef w) with
      | ub => simp [pushBackAll, hpush] at hok
      | threw w2 => simp [pushBackAll, hpush] at hok
      | ok w2 =>
        simp only [pushBackAll, hpush] at hok
        obtain ⟨x, _, h1, h2, h3, _, _, h6, _⟩ := Vector.PushBack_ref_ok hwf hpush
        rw [if_pos hlt] at h2 h3
        obtain ⟨i1, i2, i3⟩ := (ih w2 h6 (by rw [h1, h2]; omega)).2 w1 hok
        exact ⟨by rw [i1, h2], by rw [i2, h3], by rw [i3, h1, List.length_cons]; omega⟩

/-- C20: `Clear` sets the size to 0 and leaves the capacity, the buffer
pointer, the heap (so every allocated slot) and every other object
unchanged; and after it, `PushBack` calls up to the capacity leave the
capacity and the buffer pointer unchanged, whatever their arguments refer to,
and return when the arguments are outside objects whose copy does not
throw. -/
theorem C20_Clear {α : Type} (ops : ValueOps α) (w : World α) (this : Nat)
    (hwf : Vector.wf w.heap (w.objs this)) :
    Vector.Size (Vector.Clear w this) this = 0 ∧
    Vector.Capacity (Vector.Clear w this) this = Vector.Capacity w this ∧
    Vector.Data (Vector.Clear w this) this = Vector.Data w this ∧
    (Vector.Clear w this).heap = w.heap ∧
    (∀ i, Vector.index (Vector.Clear w this) this i = Vector.index w this i) ∧
    (∀ j, j ≠ this → (Vector.Clear w this).objs j = w.objs j) ∧
    ∀ as : List (Arg α), as.length ≤ Vector.Capacity w this →
      ((∀ a, a ∈ as → ∃ x, a = .value x ∧ ops.copyThrows x = false) →
        ∃ w1, pushBackAll ops (Vector.Clear w this) this as = .ok w1) ∧
      ∀ w1, pushBackAll ops (Vector.Clear w this) this as = .ok w1 →
        Vector.Capacity w1 this = Vector.Capacity w this ∧
        Vector.Data w1 this = Vector.Data w this ∧
        Vector.Size w1 this = as.length := by
  have hthis : (Vector.Clear w this).objs this = { w.objs this with size_ := 0 } :=
    World.setObj_objs_same _ _ _
  have hwf1 : Vector.wf (Vector.Clear w this).heap ((Vector.Clear w this).objs this) :=
    (Vector.Clear_touches w this hwf).2.2.1
  unfold Vector.Size Vector.Capacity Vector.Data
  refine ⟨by rw [hthis], by rw [hthis], by rw [hthis], rfl, fun i => ?_,
    fun j hj => World.setObj_objs_ne _ _ _ hj, fun as hlen => ?_⟩
  · unfold Vector.index
    rw [hthis]
    rfl
  · obtain ⟨hex, hall⟩ := pushBackAll_room ops this as (Vector.Clear w this) hwf1
      (by rw [hthis]; show 0 + as.length ≤ (w.objs this).capacity_; omega)
    refine ⟨hex, fun w1 hok => ?_⟩
    obtain ⟨h1, h2, h3⟩ := hall w1 hok
    rw [hthis] at h1 h2 h3
    exact ⟨h1, h2, by rw [h3]; show 0 + as.length = as.length; omega⟩

theorem C20_Clear_witness :
    Vector.wf worldOne.heap (worldOne.objs 1) ∧
      Vector.Size (Vector.Clear worldOne 1) 1 = 0 ∧
      ∃ w1, pushBackAll intOps (Vector.Clear worldOne 1) 1
          [.value 7, .value 8, .value 9] = .ok w1 ∧
        Vector.Capacity w1 1 = 3 ∧ Vector.Data w1 1 = some 0 := by
  have hwf : Vector.wf worldOne.heap (worldOne.objs 1) := by decide
  obtain ⟨h1, _, _, _, _, _, hpush⟩ := C20_Clear intOps worldOne 1 hwf
  obtain ⟨hex, hall⟩ := hpush [.value 7, .value 8, .value 9] (by decide)
  obtain ⟨w1, hok⟩ := hex (fun a ha => by
    simp only [List.mem_cons, List.mem_singleton, List.not_mem_nil, or_false] at ha
    rcases ha with h | h | h
    · exact ⟨7, h, rfl⟩
    · exact ⟨8, h, rfl⟩
    · exact ⟨9, h, rfl⟩)
  obtain ⟨h2, h3, _⟩ := hall w1 hok
  exact ⟨hwf, h1, w1, hok, h2, h3⟩

end VectorH
